import Mathlib

/-!
Verification of the k-way merge library (package `kway`).

The development shallowly embeds the Go sources `merge.go` and `tree.go`.

Modelling conventions:
* a single-element sequence `iter.Seq2[T, error]` is the list of pairs it
  yields, of type `List (α × Option ε)`;
* a batch sequence `iter.Seq2[[]T, error]` is the list of its yields, of type
  `List (List α × Option ε)`;
* `iter.Pull2` becomes explicit list consumption (`pull2`); an exhausted
  iterator keeps returning `([], none, false)` exactly like Go;
* Go loops whose termination is by a decreasing measure are written with an
  explicit fuel argument; every call site passes a fuel that dominates the
  measure, so the fuel-exhaustion branch is unreachable there and kernel
  reduction (`decide`, `rfl`) can evaluate concrete runs;
* calling `stop` on a pulled iterator is recorded by incrementing a counter
  (`stops`) in the cursor, so release behaviour can be stated;
* consumers that always accept are modelled by accumulating every yield.
-/

namespace Kway

/-- Comparison functions are Go `func(T, T) int`; we require the standard
total-order contract: sign antisymmetry and transitivity of `cmp a b ≤ 0`. -/
structure IsTotalCmp {α : Type} (cmp : α → α → Int) : Prop where
  flip : ∀ a b, cmp b a = -cmp a b
  le_trans : ∀ a b c, cmp a b ≤ 0 → cmp b c ≤ 0 → cmp a c ≤ 0

/-- Integer comparison, Go `cmp.Compare[int]`. -/
def intCmp (a b : Int) : Int :=
  if a < b then -1 else if a = b then 0 else 1

theorem intCmp_total : IsTotalCmp intCmp := by
  constructor
  · intro a b
    unfold intCmp
    split_ifs <;> omega
  · intro a b c hab hbc
    unfold intCmp at *
    split_ifs at * <;> omega

/-- Tree node, from `tree.go`: `index` is the node's own slot (or `-1` if
vacant), `value` the cursor index it represents (or `-1`). -/
structure Node where
  index : Int
  value : Int
deriving DecidableEq, Repr

instance : Inhabited Node := ⟨⟨-1, -1⟩⟩

/-- Cursor, from `tree.go`: current batch, pending error, the remaining
yields of its pulled source, and the number of times `stop` was invoked. -/
structure Cursor (α ε : Type) where
  values : List α
  err : Option ε
  src : List (List α × Option ε)
  stops : Nat
deriving Repr, DecidableEq

instance {α ε : Type} : Inhabited (Cursor α ε) := ⟨⟨[], none, [], 0⟩⟩

/-- Loser tree, from `tree.go`. -/
structure Tree (α ε : Type) where
  cursors : List (Cursor α ε)
  nodes : List Node
  count : Nat
  winner : Node

/-- Size of the internal read buffer, `merge.go` line 24. -/
def bufferSize : Nat := 128

/-- Index arithmetic from `tree.go`. On `Nat`, `(0 - 1) / 2 = 0`, which
agrees with Go's truncating division `(-1)/2 = 0`. -/
def parent (i : Nat) : Nat := (i - 1) / 2

/-- Left child, `tree.go`. -/
def left (i : Nat) : Nat := 2 * i + 1

/-- Right child, `tree.go`. -/
def right (i : Nat) : Nat := 2 * i + 2

/-- One `next()` call on a pulled batch iterator. -/
def pull2 {α ε : Type} :
    List (List α × Option ε) → (List α × Option ε × Bool) × List (List α × Option ε)
  | [] => (([], none, false), [])
  | y :: rest => ((y.1, y.2, true), rest)

/-- Go `nextNonEmptyValues` from `tree.go`: keep pulling until the yield has
values, carries an error, or the source is exhausted. -/
def nextNonEmptyValues {α ε : Type} :
    List (List α × Option ε) → (List α × Option ε × Bool) × List (List α × Option ε)
  | [] => (([], none, false), [])
  | (vs, e) :: rest =>
    if 0 < vs.length ∨ e.isSome then ((vs, e, true), rest)
    else nextNonEmptyValues rest

/-- Loop of Go `buffer` from `merge.go`: `acc` is `buf[:n]`. An error yield
passes `(nil, err)` through immediately and does not advance `n`. -/
def bufferAux {α ε : Type} (cap : Nat) :
    List (α × Option ε) → List α → List (List α × Option ε)
  | [], acc => if 0 < acc.length then [(acc, none)] else []
  | (v, e) :: rest, acc =>
    match e with
    | some err => ([], some err) :: bufferAux cap rest acc
    | none =>
      let acc' := acc ++ [v]
      if acc'.length = cap then (acc', none) :: bufferAux cap rest []
      else bufferAux cap rest acc'

/-- Go `buffer` from `merge.go` (the yields of the returned sequence, for an
always-accepting consumer). -/
def buffer {α ε : Type} (cap : Nat) (seq : List (α × Option ε)) :
    List (List α × Option ε) :=
  bufferAux cap seq []

/-- Go `unbuffer` from `merge.go`: an error yield becomes `(zero value, err)`,
then the batch elements are yielded one by one. -/
def unbuffer {α ε : Type} [Inhabited α] :
    List (List α × Option ε) → List (α × Option ε)
  | [] => []
  | (vs, e) :: rest =>
    (match e with
     | some err => [(default, some err)]
     | none => []) ++ vs.map (fun v => (v, none)) ++ unbuffer rest

/-- Inner loop of Go `merge2` (`merge.go` lines 232-260): merge the two
current batches by index until one is consumed. `buf` is `buffer[:offset]`;
when `offset + 1 ≥ bufferSize` the buffer is flushed to the output first.
The fuel dominates `(len values0 - i0) + (len values1 - i1)`, which shrinks
at every step, so the fuel branch is unreachable from `merge2`. -/
def merge2Inner {α ε : Type} [Inhabited α] (cmp : α → α → Int)
    (values0 values1 : List α) :
    Nat → Nat → Nat → List α → List (List α × Option ε) →
    Nat × Nat × List α × List (List α × Option ε)
  | 0, i0, i1, buf, out => (i0, i1, buf, out)
  | fuel + 1, i0, i1, buf, out =>
    if i0 < values0.length ∧ i1 < values1.length then
      let v0 := values0.getD i0 default
      let v1 := values1.getD i1 default
      let fl := if bufferSize ≤ buf.length + 1 then ([], out ++ [(buf, none)])
                else (buf, out)
      let d := cmp v0 v1
      if d < 0 then merge2Inner cmp values0 values1 fuel (i0 + 1) i1 (fl.1 ++ [v0]) fl.2
      else if 0 < d then merge2Inner cmp values0 values1 fuel i0 (i1 + 1) (fl.1 ++ [v1]) fl.2
      else merge2Inner cmp values0 values1 fuel (i0 + 1) (i1 + 1) (fl.1 ++ [v0, v1]) fl.2
    else (i0, i1, buf, out)

/-- Outer loop of Go `merge2` (`merge.go` lines 228-275). Note that the Go
code declares `i0 := 0` and `i1 := 0` inside this loop, so batch read
offsets restart from zero at every outer iteration. A pull that reports an
error yields `(nil, err)` to the consumer. The fuel dominates the number of
iterations (each iteration consumes a source yield or clears an `ok` flag). -/
def merge2Outer {α ε : Type} [Inhabited α] (cmp : α → α → Int) :
    Nat → List α → Bool → List (List α × Option ε) →
    List α → Bool → List (List α × Option ε) →
    List α → List (List α × Option ε) →
    (List α × Bool × List (List α × Option ε)) ×
      (List α × Bool × List (List α × Option ε)) ×
      List α × List (List α × Option ε)
  | 0, values0, ok0, src0, values1, ok1, src1, buf, out =>
    ((values0, ok0, src0), (values1, ok1, src1), buf, out)
  | fuel + 1, values0, ok0, src0, values1, ok1, src1, buf, out =>
    if ok0 ∧ ok1 then
      let r := merge2Inner cmp values0 values1
        (values0.length + values1.length + 1) 0 0 buf out
      let i0 := r.1
      let i1 := r.2.1
      let buf := r.2.2.1
      let out := r.2.2.2
      let s0 :=
        if i0 = values0.length then
          let p := pull2 src0
          (p.1.1, p.1.2.2, p.2,
            match p.1.2.1 with
            | some e => [(([] : List α), some e)]
            | none => [])
        else (values0, ok0, src0, [])
      let s1 :=
        if i1 = values1.length then
          let p := pull2 src1
          (p.1.1, p.1.2.2, p.2,
            match p.1.2.1 with
            | some e => [(([] : List α), some e)]
            | none => [])
        else (values1, ok1, src1, [])
      merge2Outer cmp fuel s0.1 s0.2.1 s0.2.2.1 s1.1 s1.2.1 s1.2.2.1 buf
        (out ++ s0.2.2.2 ++ s1.2.2.2)
    else ((values0, ok0, src0), (values1, ok1, src1), buf, out)

/-- Tail flush of Go `merge2` (`merge.go` lines 281-291): while the source is
not exhausted, yield its whole current batch, then pull the next one
(yielding `(nil, err)` for error pulls). -/
def merge2Flush {α ε : Type} :
    Nat → List α → Bool → List (List α × Option ε) →
    List (List α × Option ε) → List (List α × Option ε)
  | 0, _, _, _, out => out
  | fuel + 1, values, ok, src, out =>
    if ok then
      let out := out ++ [(values, none)]
      let p := pull2 src
      let out := out ++
        (match p.1.2.1 with
         | some e => [(([] : List α), some e)]
         | none => [])
      merge2Flush fuel p.1.1 p.1.2.2 p.2 out
    else out

/-- Go `merge2` from `merge.go`, for an always-accepting consumer: the list
of yields of the merged sequence. -/
def merge2 {α ε : Type} [Inhabited α] (cmp : α → α → Int)
    (seq0 seq1 : List (List α × Option ε)) : List (List α × Option ε) :=
  let p0 := pull2 seq0
  let out : List (List α × Option ε) :=
    match p0.1.2.1 with
    | some e => [([], some e)]
    | none => []
  let p1 := pull2 seq1
  let out := out ++
    (match p1.1.2.1 with
     | some e => [(([] : List α), some e)]
     | none => [])
  let r := merge2Outer cmp (seq0.length + seq1.length + 2)
    p0.1.1 p0.1.2.2 p0.2 p1.1.1 p1.1.2.2 p1.2 [] out
  let values0 := r.1.1
  let ok0 := r.1.2.1
  let src0 := r.1.2.2
  let values1 := r.2.1.1
  let ok1 := r.2.1.2.1
  let src1 := r.2.1.2.2
  let buf := r.2.2.1
  let out := r.2.2.2
  let out := if 0 < buf.length then out ++ [(buf, none)] else out
  let out := merge2Flush (src0.length + 2) values0 ok0 src0 out
  merge2Flush (src1.length + 2) values1 ok1 src1 out

/-- Go `makeTree` from `tree.go`: fresh cursors over the pulled sources, `2K`
nodes whose front half holds vacant sentinels and whose back half holds the
leaf for cursor `i` at slot `K + i`. -/
def makeTree {α ε : Type} (seqs : List (List (List α × Option ε))) : Tree α ε :=
  let K := seqs.length
  { cursors := seqs.map (fun s => { values := [], err := none, src := s, stops := 0 }),
    nodes := List.replicate K ⟨-1, -1⟩ ++
      (List.range K).map (fun i => Node.mk ((i + K : Nat) : Int) ((i : Nat) : Int)),
    count := K,
    winner := ⟨-1, -1⟩ }

/-- Go `tree.playGame` from `tree.go`: vacancy loses, then a pending error
wins, then the strictly smaller head wins, ties favouring `n2`. -/
def playGame {α ε : Type} [Inhabited α] (cursors : List (Cursor α ε))
    (n1 n2 : Node) (cmp : α → α → Int) : Node × Node :=
  if n1.value < 0 then (n1, n2)
  else if n2.value < 0 then (n2, n1)
  else
    let c1 := cursors.getD n1.value.toNat default
    let c2 := cursors.getD n2.value.toNat default
    if c1.err.isSome then (n2, n1)
    else if c2.err.isSome then (n1, n2)
    else if cmp (c1.values.headD default) (c2.values.headD default) < 0 then (n2, n1)
    else (n1, n2)

/-- Go `tree.initialize` from `tree.go`: recursively play the bracket below
slot `i`, store losers, return the winner. `N` is `len(t.nodes)` (constant
through the recursion, since stores preserve length). The fuel satisfies
`N ≤ fuel + i` at every reachable call, so with fuel `N` at the root the
fuel branch is unreachable. -/
def initializeAux {α ε : Type} [Inhabited α] (cmp : α → α → Int)
    (cursors : List (Cursor α ε)) (N : Nat) :
    Nat → List Node → Nat → List Node × Node
  | 0, nodes, _ => (nodes, ⟨-1, -1⟩)
  | fuel + 1, nodes, i =>
    if N ≤ i then (nodes, ⟨-1, -1⟩)
    else
      let r1 := initializeAux cmp cursors N fuel nodes (left i)
      let r2 := initializeAux cmp cursors N fuel r1.1 (right i)
      if r1.2.index < 0 ∧ r2.2.index < 0 then (r2.1, r2.1.getD i default)
      else
        let lw := playGame cursors r1.2 r2.2 cmp
        (r2.1.set i lw.1, lw.2)

/-- Body of one step of the replay loop in `tree.next` (`tree.go` lines
141-159): play the stored node at `offset` against the carried winner. -/
def replayStep {α ε : Type} [Inhabited α] (cmp : α → α → Int)
    (cursors : List (Cursor α ε)) (nodes : List Node) (offset : Nat)
    (winner : Node) : List Node × Node :=
  let player := nodes.getD offset default
  if 0 ≤ player.value then
    if winner.value < 0 then (nodes.set offset winner, player)
    else
      let c1 := cursors.getD player.value.toNat default
      let c2 := cursors.getD winner.value.toNat default
      if c1.values.length = 0 ∨
          (c2.values.length ≠ 0 ∧ cmp (c1.values.headD default) (c2.values.headD default) < 0) then
        (nodes.set offset winner, player)
      else (nodes, winner)
  else (nodes, winner)

/-- Replay loop of `tree.next`: walk `offset, parent offset, ...` down to the
root. The fuel satisfies `offset < fuel` at every reachable call, so with
fuel `offset + 1` the fuel branch is unreachable. -/
def replayAux {α ε : Type} [Inhabited α] (cmp : α → α → Int)
    (cursors : List (Cursor α ε)) :
    Nat → List Node → Nat → Node → List Node × Node
  | 0, nodes, _, winner => (nodes, winner)
  | fuel + 1, nodes, offset, winner =>
    let r := replayStep cmp cursors nodes offset winner
    if offset = 0 then r
    else replayAux cmp cursors fuel r.1 (parent offset) r.2

/-- Replay from the parent of the changed leaf to the root. -/
def replay {α ε : Type} [Inhabited α] (cmp : α → α → Int)
    (cursors : List (Cursor α ε)) (nodes : List Node) (offset : Nat)
    (winner : Node) : List Node × Node :=
  replayAux cmp cursors (offset + 1) nodes offset winner

/-- One step of the initial pull loop of `tree.next` (`tree.go` lines
95-106) at cursor `i`: load the first non-empty yield, or stop the cursor,
vacate its leaf and decrement the active count. -/
def initialPullStep {α ε : Type} (t : Tree α ε) (i : Nat) : Tree α ε :=
  let K := t.cursors.length
  let c := t.cursors.getD i default
  let r := nextNonEmptyValues c.src
  if r.1.2.2 then
    let c' : Cursor α ε := { c with values := r.1.1, err := r.1.2.1, src := r.2 }
    { t with cursors := t.cursors.set i c' }
  else
    let c' : Cursor α ε := { c with src := r.2, stops := c.stops + 1 }
    { t with
        cursors := t.cursors.set i c',
        nodes := t.nodes.set (i + K) ⟨-1, -1⟩,
        count := t.count - 1 }

/-- The initial pull loop of `tree.next`, iterating over all cursor
indices. -/
def initialPullGo {α ε : Type} (t : Tree α ε) : List Nat → Tree α ε
  | [] => t
  | i :: rest => initialPullGo (initialPullStep t i) rest

/-- The initial pull loop of `tree.next` over `range K`. -/
def initialPull {α ε : Type} (t : Tree α ε) : Tree α ε :=
  initialPullGo t (List.range t.cursors.length)

/-- Result of the main loop of `tree.next`: updated tree fields, the carried
winner, the emitted values `buf[:n]`, and the error to return. -/
structure NextRes (α ε : Type) where
  cursors : List (Cursor α ε)
  nodes : List Node
  count : Nat
  winner : Node
  acc : List α
  err : Option ε

/-- Weight of an optional error (one unit when present). -/
def errW {ε : Type} : Option ε → Nat
  | none => 0
  | some _ => 1

/-- Weight of a source yield: its values, its error, plus one for the yield
itself. -/
def yieldW {α ε : Type} (y : List α × Option ε) : Nat :=
  y.1.length + errW y.2 + 1

/-- Weight of a cursor: buffered values and error plus the weight of its
remaining source. -/
def cursorW {α ε : Type} (c : Cursor α ε) : Nat :=
  c.values.length + errW c.err + (c.src.map yieldW).sum

/-- Weight of the mutable loop state: total cursor weight plus the active
count. Every iteration of the main loop of `tree.next` strictly decreases
it, so it bounds the number of iterations. -/
def loopW {α ε : Type} (cursors : List (Cursor α ε)) (count : Nat) : Nat :=
  (cursors.map cursorW).sum + count

/-- Main loop of Go `tree.next` (`tree.go` lines 113-160): emit the winner's
head, refill or retire its cursor, surface a pending error, then replay the
bracket along the winner's leaf-to-root path. The fuel dominates
`loopW cursors count`, which strictly decreases at every iteration, so the
fuel branch is unreachable from `Tree.next`. -/
def nextLoop {α ε : Type} [Inhabited α] (cmp : α → α → Int) (cap : Nat) :
    Nat → List (Cursor α ε) → List Node → Nat → Node → List α → NextRes α ε
  | 0, cursors, nodes, count, winner, acc =>
    ⟨cursors, nodes, count, winner, acc, none⟩
  | fuel + 1, cursors, nodes, count, winner, acc =>
    if cap ≤ acc.length then ⟨cursors, nodes, count, winner, acc, none⟩
    else
      let c := cursors.getD winner.value.toNat default
      let emitted := 0 < c.values.length
      let acc := if emitted then acc ++ [c.values.headD default] else acc
      let c := if emitted then { c with values := c.values.tail } else c
      let cursors := cursors.set winner.value.toNat c
      if c.values.length = 0 then
        match c.err with
        | some e =>
          let cursors := cursors.set winner.value.toNat { c with err := none }
          ⟨cursors, nodes, count, winner, acc, some e⟩
        | none =>
          let r := nextNonEmptyValues c.src
          if r.1.2.2 then
            let cursors := cursors.set winner.value.toNat
              { c with values := r.1.1, err := r.1.2.1, src := r.2 }
            let rp := replay cmp cursors nodes (parent winner.index.toNat) winner
            nextLoop cmp cap fuel cursors rp.1 count rp.2 acc
          else
            let cursors := cursors.set winner.value.toNat
              { c with src := r.2, stops := c.stops + 1 }
            let winner := { winner with value := -1 }
            let nodes := nodes.set winner.index.toNat ⟨-1, -1⟩
            let count := count - 1
            if count = 0 then ⟨cursors, nodes, count, winner, acc, none⟩
            else
              let rp := replay cmp cursors nodes (parent winner.index.toNat) winner
              nextLoop cmp cap fuel cursors rp.1 count rp.2 acc
      else
        let rp := replay cmp cursors nodes (parent winner.index.toNat) winner
        nextLoop cmp cap fuel cursors rp.1 count rp.2 acc

/-- Assemble a `Tree` and the public result from a `NextRes`. -/
def nextAssemble {α ε : Type} (r : NextRes α ε) : List α × Option ε × Tree α ε :=
  (r.acc, r.err, ⟨r.cursors, r.nodes, r.count, r.winner⟩)

/-- Go `tree.next` from `tree.go`: returns the emitted values (`buf[:n]`),
the error, and the updated tree. -/
def Tree.next {α ε : Type} [Inhabited α] (cmp : α → α → Int) (cap : Nat)
    (t : Tree α ε) : List α × Option ε × Tree α ε :=
  if cap = 0 ∨ t.count = 0 then ([], none, t)
  else if t.winner.index < 0 then
    let t1 := initialPull t
    if t1.count = 0 then ([], none, t1)
    else
      let r := initializeAux cmp t1.cursors t1.nodes.length t1.nodes.length t1.nodes 0
      nextAssemble (nextLoop cmp cap (loopW t1.cursors t1.count + 1)
        t1.cursors r.1 t1.count r.2 [])
  else
    nextAssemble (nextLoop cmp cap (loopW t.cursors t.count + 1)
      t.cursors t.nodes t.count t.winner [])

/-- Go `tree.stop` from `tree.go`: invoke `stop` on every cursor. -/
def Tree.stop {α ε : Type} (t : Tree α ε) : Tree α ε :=
  { t with cursors := t.cursors.map (fun c => { c with stops := c.stops + 1 }) }

/-- Loop of Go `merge` from `merge.go`: repeatedly call `tree.next` with the
shared output buffer, stopping when it reports neither values nor an error.
The budget both bounds the consumer (a consumer that stops early is one that
exhausts the budget) and serves as fuel; `mergeBudget` below always
suffices for full consumption. -/
def mergeLoop {α ε : Type} [Inhabited α] (cmp : α → α → Int) :
    Nat → Tree α ε → List (List α × Option ε) × Tree α ε
  | 0, t => ([], t)
  | budget + 1, t =>
    let r := Tree.next cmp bufferSize t
    match r.1, r.2.1 with
    | [], none => ([], r.2.2)
    | vs, err =>
      let rest := mergeLoop cmp budget r.2.2
      ((vs, err) :: rest.1, rest.2)

/-- A budget under which `mergeLoop` always reaches natural exhaustion:
every productive `tree.next` call strictly decreases `loopW`. -/
def mergeBudget {α ε : Type} (t : Tree α ε) : Nat :=
  loopW t.cursors t.count + 1

/-- Go `merge` from `merge.go` driven by a consumer that accepts `budget`
yields: build the tree, extract, and release every cursor (the deferred
`tree.stop`), returning the yields and the final tree state. -/
def mergeTrace {α ε : Type} [Inhabited α] (cmp : α → α → Int) (budget : Nat)
    (seqs : List (List (List α × Option ε))) :
    List (List α × Option ε) × Tree α ε :=
  let t := makeTree seqs
  let r := mergeLoop cmp budget t
  (r.1, Tree.stop r.2)

/-- Go `merge` from `merge.go` for an always-accepting consumer: the yields
of the merged sequence. -/
def merge {α ε : Type} [Inhabited α] (cmp : α → α → Int)
    (seqs : List (List (List α × Option ε))) : List (List α × Option ε) :=
  (mergeTrace cmp (mergeBudget (makeTree seqs)) seqs).1

/-- Go `MergeFunc` from `merge.go`: dispatch on the number of sequences;
one sequence is returned as-is, two go through the buffered `merge2` fast
path, any other count through the buffered tree `merge`; the batched result
is un-batched. -/
def MergeFunc {α ε : Type} [Inhabited α] (cmp : α → α → Int)
    (seqs : List (List (α × Option ε))) : List (α × Option ε) :=
  if seqs.length = 1 then seqs.getD 0 []
  else if seqs.length = 2 then
    unbuffer (merge2 cmp (buffer bufferSize (seqs.getD 0 []))
      (buffer bufferSize (seqs.getD 1 [])))
  else
    unbuffer (merge cmp (seqs.map (buffer bufferSize)))

/-- Go `MergeSliceFunc` from `merge.go`: dispatch on the number of batch
sequences with no internal re-buffering. -/
def MergeSliceFunc {α ε : Type} [Inhabited α] (cmp : α → α → Int)
    (seqs : List (List (List α × Option ε))) : List (List α × Option ε) :=
  if seqs.length = 1 then seqs.getD 0 []
  else if seqs.length = 2 then merge2 cmp (seqs.getD 0 []) (seqs.getD 1 [])
  else merge cmp seqs

/-- An error-free single-element integer sequence. -/
def noerr (l : List Int) : List (Int × Option Nat) :=
  l.map (fun v => (v, none))

/-- Chunking behaviour of the `buffer` loop on error-free input, generalized
over the running buffer contents `acc` (`buf[:n]`). -/
theorem bufferAux_noerr_spec {α ε : Type} (cap : Nat) (hcap : 0 < cap) :
    ∀ (xs acc : List α), acc.length < cap →
    (∀ b ∈ bufferAux (ε := ε) cap (xs.map fun v => (v, none)) acc, b.2 = none) ∧
    ((bufferAux (ε := ε) cap (xs.map fun v => (v, none)) acc).map Prod.fst).flatten
      = acc ++ xs ∧
    (∀ b ∈ (bufferAux (ε := ε) cap (xs.map fun v => (v, none)) acc).dropLast,
      b.1.length = cap) ∧
    (∀ b ∈ bufferAux (ε := ε) cap (xs.map fun v => (v, none)) acc,
      0 < b.1.length ∧ b.1.length ≤ cap) := by
  intro xs
  induction xs with
  | nil =>
    intro acc hacc
    simp only [List.map_nil, bufferAux]
    by_cases h : 0 < acc.length
    · rw [if_pos h]
      refine ⟨by simp, by simp, by simp, ?_⟩
      intro b hb
      simp only [List.mem_singleton] at hb
      subst hb
      exact ⟨h, le_of_lt hacc⟩
    · rw [if_neg h]
      have hnil : acc = [] := List.eq_nil_of_length_eq_zero (by omega)
      subst hnil
      simp
  | cons x rest ih =>
    intro acc hacc
    simp only [List.map_cons, bufferAux]
    by_cases h : (acc ++ [x]).length = cap
    · rw [if_pos h]
      obtain ⟨ih1, ih2, ih3, ih4⟩ := ih [] hcap
      refine ⟨?_, ?_, ?_, ?_⟩
      · intro b hb
        rcases List.mem_cons.mp hb with hb | hb
        · subst hb; rfl
        · exact ih1 b hb
      · simp only [List.map_cons, List.flatten_cons, ih2]
        simp
      · intro b hb
        rcases List.eq_nil_or_concat (bufferAux (ε := ε) cap (rest.map fun v => (v, none)) []) with
          hnil | ⟨l', e', hsplit⟩
        · rw [hnil] at hb
          simp only [List.dropLast_single] at hb
          exact absurd hb (List.not_mem_nil b)
        · rw [List.concat_eq_append] at hsplit
          rw [hsplit] at hb ih3
          rw [List.dropLast_concat] at ih3
          have : ((acc ++ [x], (none : Option ε)) :: (l' ++ [e'])).dropLast
              = (acc ++ [x], (none : Option ε)) :: l' := by
            rw [← List.cons_append, List.dropLast_concat]
          rw [this] at hb
          rcases List.mem_cons.mp hb with hb | hb
          · subst hb; exact h
          · exact ih3 b hb
      · intro b hb
        rcases List.mem_cons.mp hb with hb | hb
        · subst hb
          exact ⟨by simp, le_of_eq h⟩
        · exact ih4 b hb
    · rw [if_neg h]
      have hlt : (acc ++ [x]).length < cap := by
        simp only [List.length_append, List.length_singleton] at h ⊢
        omega
      obtain ⟨ih1, ih2, ih3, ih4⟩ := ih (acc ++ [x]) hlt
      exact ⟨ih1, by rw [ih2]; simp, ih3, ih4⟩

/-- C8: on a finite, error-free single-element sequence, `buffer` with the
reference capacity `bufferSize = 128` yields only error-free batches whose
concatenation is exactly the input; every batch except possibly the last is
exactly full, and no batch is empty (so a final partial batch appears
exactly when `0 < n < 128` elements remain at exhaustion). -/
theorem buffer_chunks_128 {α ε : Type} (xs : List α) :
    (∀ b ∈ buffer (ε := ε) bufferSize (xs.map fun v => (v, none)), b.2 = none) ∧
    ((buffer (ε := ε) bufferSize (xs.map fun v => (v, none))).map Prod.fst).flatten
      = xs ∧
    (∀ b ∈ (buffer (ε := ε) bufferSize (xs.map fun v => (v, none))).dropLast,
      b.1.length = bufferSize) ∧
    (∀ b ∈ buffer (ε := ε) bufferSize (xs.map fun v => (v, none)),
      0 < b.1.length ∧ b.1.length ≤ bufferSize) := by
  have h := bufferAux_noerr_spec (α := α) (ε := ε) bufferSize (by decide) xs []
    (by simp [bufferSize])
  simpa [buffer] using h

/-- C9: merging exactly one sequence is the identity, both for the
single-element API (`MergeFunc`) and for the batched API
(`MergeSliceFunc`): the input sequence is returned unchanged, values,
errors and order included. -/
theorem mergeFunc_single_identity {α ε : Type} [Inhabited α] (cmp : α → α → Int)
    (s : List (α × Option ε)) (t : List (List α × Option ε)) :
    MergeFunc cmp [s] = s ∧ MergeSliceFunc cmp [t] = t := by
  constructor
  · simp [MergeFunc]
  · simp [MergeSliceFunc]

/-- C3 counterexample: both nodes are non-vacant and both cursors expose a
head value (5 and 3), the comparison of the heads is positive, yet `n1`
wins the match because its cursor carries a pending error, which `playGame`
checks before comparing heads. The claim as stated (winner decided by the
head comparison alone) is therefore false. -/
theorem playGame_err_beats_smaller_head :
    playGame (ε := Nat) [⟨[5], some 7, [], 0⟩, ⟨[3], none, [], 0⟩]
        ⟨3, 0⟩ ⟨4, 1⟩ intCmp = (⟨4, 1⟩, ⟨3, 0⟩) ∧
    0 < intCmp 5 3 ∧ (0:Int) ≤ (3:Int) ∧ (0:Int) ≤ (4:Int) := by
  decide

/-- C3 amended: for a match between two non-vacant nodes whose cursors both
expose a head value and neither of which has a pending error, `playGame`
returns `n1` as winner exactly when the head comparison is negative and
`n2` otherwise (equality included); a vacant node always loses to a
non-vacant node. -/
theorem playGame_cmp_decides {α ε : Type} [Inhabited α] (cmp : α → α → Int)
    (cursors : List (Cursor α ε)) (n1 n2 : Node)
    (h1 : 0 ≤ n1.value) (h2 : 0 ≤ n2.value)
    (hv1 : (cursors.getD n1.value.toNat default).values ≠ [])
    (hv2 : (cursors.getD n2.value.toNat default).values ≠ [])
    (he1 : (cursors.getD n1.value.toNat default).err = none)
    (he2 : (cursors.getD n2.value.toNat default).err = none) :
    (playGame cursors n1 n2 cmp =
      if cmp ((cursors.getD n1.value.toNat default).values.headD default)
             ((cursors.getD n2.value.toNat default).values.headD default) < 0
      then (n2, n1) else (n1, n2)) ∧
    (∀ m1 m2 : Node, m1.value < 0 → playGame cursors m1 m2 cmp = (m1, m2)) ∧
    (∀ m1 m2 : Node, 0 ≤ m1.value → m2.value < 0 →
      playGame cursors m1 m2 cmp = (m2, m1)) := by
  refine ⟨?_, ?_, ?_⟩
  · unfold playGame
    rw [if_neg (by omega : ¬ n1.value < 0), if_neg (by omega : ¬ n2.value < 0)]
    simp only [he1, he2, Option.isSome_none, Bool.false_eq_true, if_false]
  · intro m1 m2 hm1
    unfold playGame
    rw [if_pos hm1]
  · intro m1 m2 hm1 hm2
    unfold playGame
    rw [if_neg (by omega), if_pos hm2]

/-- Witness for the amended C3 theorem at a concrete match: cursor heads 1
and 2, no pending errors; `n1` wins since `intCmp 1 2 < 0`. -/
theorem playGame_cmp_decides_witness :
    playGame (ε := Nat) [⟨[1], none, [], 0⟩, ⟨[2], none, [], 0⟩]
        ⟨2, 0⟩ ⟨3, 1⟩ intCmp =
      (if intCmp 1 2 < 0 then (⟨3, 1⟩, ⟨2, 0⟩) else (⟨2, 0⟩, ⟨3, 1⟩)) := by
  have h := (playGame_cmp_decides (ε := Nat) intCmp
    [⟨[1], none, [], 0⟩, ⟨[2], none, [], 0⟩] ⟨2, 0⟩ ⟨3, 1⟩
    (by decide) (by decide) (by decide) (by decide) (by decide) (by decide)).1
  simpa using h

/-- Leaf node representing cursor `v` in a tree over `K` cursors, as built
by `makeTree` (slot `v + K`). -/
def reprNode (K v : Nat) : Node := ⟨((v + K : Nat) : Int), ((v : Nat) : Int)⟩

/-- k-fold application of `parent`. -/
def parentIter : Nat → Nat → Nat
  | 0, p => p
  | k + 1, p => parentIter k (parent p)

theorem parent_left (i : Nat) : parent (left i) = i := by
  unfold parent left
  omega

theorem parent_right (i : Nat) : parent (right i) = i := by
  unfold parent right
  omega

theorem parent_lt (i : Nat) (h : i ≠ 0) : parent i < i := by
  unfold parent
  omega

theorem parent_le (i : Nat) : parent i ≤ i := by
  unfold parent
  omega

theorem lt_left (i : Nat) : i < left i := by
  unfold left
  omega

theorem lt_right (i : Nat) : i < right i := by
  unfold right
  omega

theorem child_of_parent (p : Nat) (h : p ≠ 0) :
    p = left (parent p) ∨ p = right (parent p) := by
  unfold parent left right
  omega

theorem parentIter_succ_outer (k p : Nat) :
    parentIter (k + 1) p = parent (parentIter k p) := by
  induction k generalizing p with
  | zero => rfl
  | succ k ih =>
    show parentIter (k + 1) (parent p) = parent (parentIter (k + 1) p)
    rw [ih (parent p)]
    rfl

theorem parentIter_le (k p : Nat) : parentIter k p ≤ p := by
  induction k generalizing p with
  | zero => exact le_refl p
  | succ k ih => exact le_trans (ih (parent p)) (parent_le p)

theorem parentIter_add (a b p : Nat) :
    parentIter (a + b) p = parentIter b (parentIter a p) := by
  induction a generalizing p with
  | zero => rw [Nat.zero_add]; rfl
  | succ a ih =>
    rw [show a + 1 + b = (a + b) + 1 by omega]
    show parentIter (a + b) (parent p) = parentIter b (parentIter (a + 1) p)
    rw [ih (parent p)]
    rfl

theorem parentIter_zero_exists (p : Nat) : ∃ k, parentIter k p = 0 := by
  induction p using Nat.strong_induction_on with
  | _ p ih =>
    rcases Nat.eq_zero_or_pos p with hz | hp
    · exact ⟨0, hz⟩
    · obtain ⟨k, hk⟩ := ih (parent p) (parent_lt p (by omega))
      exact ⟨k + 1, hk⟩

/-- A position cannot lie in the subtrees of both children of `i`. -/
theorem sibling_disjoint (i p k1 k2 : Nat)
    (h1 : parentIter k1 p = left i) (h2 : parentIter k2 p = right i) : False := by
  rcases le_or_lt k1 k2 with hle | hlt
  · obtain ⟨d, hd⟩ : ∃ d, k2 = k1 + d := ⟨k2 - k1, by omega⟩
    subst hd
    rw [parentIter_add, h1] at h2
    cases d with
    | zero =>
      simp only [parentIter] at h2
      unfold left right at h2
      omega
    | succ d =>
      have : parentIter (d + 1) (left i) = parentIter d (parent (left i)) := rfl
      rw [this, parent_left] at h2
      have hle2 := parentIter_le d i
      unfold right at h2
      omega
  · obtain ⟨d, hd⟩ : ∃ d, k1 = k2 + d := ⟨k1 - k2, by omega⟩
    subst hd
    rw [parentIter_add, h2] at h1
    cases d with
    | zero =>
      simp only [parentIter] at h1
      unfold left right at h1
      omega
    | succ d =>
      have : parentIter (d + 1) (right i) = parentIter d (parent (right i)) := rfl
      rw [this, parent_right] at h1
      have hle2 := parentIter_le d i
      unfold left at h1
      omega

/-- Cursor indices held by the active leaves of the subtree rooted at `i`. -/
def collectLeaves (nodes : List Node) (N K : Nat) (i : Nat) : List Nat :=
  if _h : N ≤ i then []
  else if K ≤ i then
    (if 0 ≤ (nodes.getD i default).value then [(nodes.getD i default).value.toNat] else [])
  else collectLeaves nodes N K (left i) ++ collectLeaves nodes N K (right i)
termination_by N - i
decreasing_by
  all_goals
    first
      | omega
      | (unfold left; omega)
      | (unfold right; omega)

/-- Outcome constraint of one bracket match: given the champions `c1`, `c2`
of the two children, `c` is the escaped champion and `stored` the node left
in the slot; `wins v w` abstracts that cursor `v` beat cursor `w`. -/
def matchInv (wins : Nat → Nat → Prop) (K : Nat) (stored : Node)
    (c1 c2 c : Option Nat) : Prop :=
  match c1, c2 with
  | none, none => c = none ∧ stored.value < 0
  | some v, none => c = some v ∧ stored.value < 0
  | none, some v => c = some v ∧ stored.value < 0
  | some v1, some v2 =>
    (c = some v1 ∧ stored = reprNode K v2 ∧ wins v1 v2) ∨
    (c = some v2 ∧ stored = reprNode K v1 ∧ wins v2 v1)

/-- The loser-bracket invariant for the subtree rooted at `i` with escaped
champion `c`: every leaf holds its own representative or a vacant sentinel,
and every internal slot holds the loser of the match between its children's
champions, the winner escaping upward. -/
def SubInv (wins : Nat → Nat → Prop) (nodes : List Node) (N K : Nat)
    (i : Nat) (c : Option Nat) : Prop :=
  if _h : N ≤ i then c = none
  else if K ≤ i then
    (nodes.getD i default = ⟨-1, -1⟩ ∧ c = none) ∨
    (nodes.getD i default = reprNode K (i - K) ∧ c = some (i - K))
  else
    ∃ c1 c2, SubInv wins nodes N K (left i) c1 ∧ SubInv wins nodes N K (right i) c2 ∧
      matchInv wins K (nodes.getD i default) c1 c2 c
termination_by N - i
decreasing_by
  all_goals
    first
      | omega
      | (unfold left; omega)
      | (unfold right; omega)

/-- Induction over the array-backed subtree structure: positions at or
beyond `N` are base cases, and each position below `N` follows from its two
children. -/
theorem subtree_induction (N : Nat) (P : Nat → Prop)
    (hbase : ∀ i, N ≤ i → P i)
    (hstep : ∀ i, i < N → P (left i) → P (right i) → P i) :
    ∀ i, P i := by
  have H : ∀ d i, N - i ≤ d → P i := by
    intro d
    induction d with
    | zero => intro i h; exact hbase i (by omega)
    | succ d ih =>
      intro i h
      by_cases hi : N ≤ i
      · exact hbase i hi
      · exact hstep i (by omega) (ih (left i) (by unfold left; omega))
          (ih (right i) (by unfold right; omega))
  exact fun i => H N i (by omega)

theorem getD_set_ne {β : Type} [Inhabited β] (l : List β) (q p : Nat) (x : β)
    (h : q ≠ p) : (l.set q x).getD p default = l.getD p default := by
  induction l generalizing q p with
  | nil => rfl
  | cons a l ih =>
    cases q with
    | zero => cases p with
      | zero => omega
      | succ p => rfl
    | succ q =>
      cases p with
      | zero => rfl
      | succ p => exact ih q p (by omega)

theorem getD_set_self {β : Type} [Inhabited β] (l : List β) (q : Nat) (x : β)
    (h : q < l.length) : (l.set q x).getD q default = x := by
  induction l generalizing q with
  | nil => simp at h
  | cons a l ih =>
    cases q with
    | zero => rfl
    | succ q => exact ih q (by simpa using h)

/-- Position `p` lies in the subtree rooted at `i`. -/
def Reach (p i : Nat) : Prop := ∃ k, parentIter k p = i

theorem Reach.refl (p : Nat) : Reach p p := ⟨0, rfl⟩

theorem Reach.of_child_left (p i : Nat) (h : Reach p (left i)) : Reach p i := by
  obtain ⟨k, hk⟩ := h
  exact ⟨k + 1, by rw [parentIter_succ_outer, hk, parent_left]⟩

theorem Reach.of_child_right (p i : Nat) (h : Reach p (right i)) : Reach p i := by
  obtain ⟨k, hk⟩ := h
  exact ⟨k + 1, by rw [parentIter_succ_outer, hk, parent_right]⟩

theorem Reach.le (p i : Nat) (h : Reach p i) : i ≤ p := by
  obtain ⟨k, hk⟩ := h
  exact hk ▸ parentIter_le k p

/-- Every leaf slot holds its own representative or the vacant sentinel. -/
def LeafWF (nodes : List Node) (N K : Nat) : Prop :=
  ∀ p, K ≤ p → p < N → nodes.getD p default = reprNode K (p - K) ∨
    nodes.getD p default = ⟨-1, -1⟩

/-- Cursor `v` is active: its leaf slot holds its representative. -/
def ActiveAt (nodes : List Node) (K v : Nat) : Prop :=
  nodes.getD (v + K) default = reprNode K v

/-- Membership in `collectLeaves` identifies the leaf: the collected cursor
is active, its leaf position is in range and reaches `i`. -/
theorem mem_collectLeaves_reach (nodes : List Node) (N K : Nat)
    (hWF : LeafWF nodes N K) :
    ∀ i, ∀ v ∈ collectLeaves nodes N K i,
      Reach (v + K) i ∧ v + K < N ∧ ActiveAt nodes K v := by
  refine subtree_induction N
    (fun i => ∀ v ∈ collectLeaves nodes N K i,
      Reach (v + K) i ∧ v + K < N ∧ ActiveAt nodes K v) ?_ ?_
  · intro i hi v hv
    rw [collectLeaves] at hv
    rw [dif_pos hi] at hv
    exact absurd hv (List.not_mem_nil v)
  · intro i hiN ihl ihr v hv
    rw [collectLeaves, dif_neg (by omega : ¬ N ≤ i)] at hv
    by_cases hK : K ≤ i
    · rw [if_pos hK] at hv
      by_cases hval : 0 ≤ (nodes.getD i default).value
      · rw [if_pos hval] at hv
        simp only [List.mem_singleton] at hv
        rcases hWF i hK hiN with hrep | hvac
        · have hvi : v = i - K := by
            rw [hrep] at hv
            subst hv
            simp [reprNode]
          subst hvi
          refine ⟨?_, by omega, ?_⟩
          · rw [show i - K + K = i by omega]
            exact Reach.refl i
          · unfold ActiveAt
            rw [show i - K + K = i by omega]
            rw [hrep]
        · rw [hvac] at hval
          simp at hval
      · rw [if_neg hval] at hv
        exact absurd hv (List.not_mem_nil v)
    · rw [if_neg hK] at hv
      rcases List.mem_append.mp hv with hv | hv
      · obtain ⟨hr, hb, ha⟩ := ihl v hv
        exact ⟨Reach.of_child_left _ _ hr, hb, ha⟩
      · obtain ⟨hr, hb, ha⟩ := ihr v hv
        exact ⟨Reach.of_child_right _ _ hr, hb, ha⟩

/-- Completeness: an active cursor whose leaf reaches `i` is collected at
`i`. Requires `N = 2 * K` so that positions in the leaf region have no
children inside the array. -/
theorem reach_mem_collectLeaves (nodes : List Node) (N K : Nat)
    (hN2 : N = 2 * K) (v : Nat) (hvN : v + K < N) (ha : ActiveAt nodes K v) :
    ∀ k i, parentIter k (v + K) = i → v ∈ collectLeaves nodes N K i := by
  intro k
  induction k with
  | zero =>
    intro i hi
    simp only [parentIter] at hi
    subst hi
    rw [collectLeaves, dif_neg (by omega : ¬ N ≤ v + K), if_pos (by omega : K ≤ v + K)]
    unfold ActiveAt at ha
    rw [ha]
    simp [reprNode]
  | succ k ih =>
    intro i hi
    rw [parentIter_succ_outer] at hi
    set p' := parentIter k (v + K) with hp'
    have hrec := ih p' rfl
    have hp'N : p' < N := by
      have := parentIter_le k (v + K)
      omega
    by_cases hz : p' = 0
    · rw [hz] at hi
      have : i = 0 := by unfold parent at hi; omega
      subst this
      rw [← hz]
      exact hrec
    · have hchild := child_of_parent p' hz
      rw [hi] at hchild
      have hiK : i < K := by
        have h1 : left i ≤ p' ∨ right i ≤ p' := by
          rcases hchild with hc | hc
          · exact Or.inl (le_of_eq hc.symm)
          · exact Or.inr (le_of_eq hc.symm)
        unfold left right at h1
        omega
      rw [collectLeaves, dif_neg (by omega : ¬ N ≤ i), if_neg (by omega : ¬ K ≤ i)]
      rcases hchild with hc | hc
      · refine List.mem_append.mpr (Or.inl ?_)
        rw [← hc]
        exact hrec
      · refine List.mem_append.mpr (Or.inr ?_)
        rw [← hc]
        exact hrec

/-- Every active cursor in range appears in the root collection. -/
theorem active_mem_root (nodes : List Node) (N K : Nat) (hN2 : N = 2 * K)
    (v : Nat) (hvN : v + K < N) (ha : ActiveAt nodes K v) :
    v ∈ collectLeaves nodes N K 0 := by
  obtain ⟨k, hk⟩ := parentIter_zero_exists (v + K)
  exact reach_mem_collectLeaves nodes N K hN2 v hvN ha k 0 hk

/-- The collected cursor indices of a subtree are distinct. -/
theorem collectLeaves_nodup (nodes : List Node) (N K : Nat)
    (hWF : LeafWF nodes N K) :
    ∀ i, (collectLeaves nodes N K i).Nodup := by
  refine subtree_induction N (fun i => (collectLeaves nodes N K i).Nodup) ?_ ?_
  · intro i hi
    rw [collectLeaves, dif_pos hi]
    exact List.nodup_nil
  · intro i hiN ihl ihr
    rw [collectLeaves, dif_neg (by omega : ¬ N ≤ i)]
    by_cases hK : K ≤ i
    · rw [if_pos hK]
      by_cases hval : 0 ≤ (nodes.getD i default).value
      · rw [if_pos hval]
        exact List.nodup_singleton _
      · rw [if_neg hval]
        exact List.nodup_nil
    · rw [if_neg hK]
      refine List.Nodup.append ihl ihr ?_
      intro v hvl hvr
      obtain ⟨⟨k1, hk1⟩, _, _⟩ := mem_collectLeaves_reach nodes N K hWF (left i) v hvl
      obtain ⟨⟨k2, hk2⟩, _, _⟩ := mem_collectLeaves_reach nodes N K hWF (right i) v hvr
      exact sibling_disjoint i (v + K) k1 k2 hk1 hk2

/-- `collectLeaves` reads only leaf slots. -/
theorem collectLeaves_congr (nodes nodes' : List Node) (N K : Nat)
    (hsame : ∀ p, K ≤ p → p < N → nodes'.getD p default = nodes.getD p default) :
    ∀ i, collectLeaves nodes' N K i = collectLeaves nodes N K i := by
  refine subtree_induction N
    (fun i => collectLeaves nodes' N K i = collectLeaves nodes N K i) ?_ ?_
  · intro i hi
    rw [collectLeaves, dif_pos hi, collectLeaves, dif_pos hi]
  · intro i hiN ihl ihr
    conv_rhs => rw [collectLeaves]
    rw [collectLeaves, dif_neg (by omega : ¬ N ≤ i), dif_neg (by omega : ¬ N ≤ i)]
    by_cases hK : K ≤ i
    · rw [if_pos hK, if_pos hK, hsame i hK hiN]
    · rw [if_neg hK, if_neg hK, ihl, ihr]

/-- Writing an internal slot leaves every subtree collection unchanged. -/
theorem collectLeaves_set_internal (nodes : List Node) (N K : Nat) (q : Nat)
    (hq : q < K) (x : Node) :
    ∀ i, collectLeaves (nodes.set q x) N K i = collectLeaves nodes N K i :=
  collectLeaves_congr nodes (nodes.set q x) N K
    (fun p hp _ => getD_set_ne nodes q p x (by omega))

/-- Vacating the leaf of cursor `v0` removes exactly `v0` from every
subtree collection. -/
theorem collectLeaves_vacate (nodes : List Node) (N K : Nat)
    (hWF : LeafWF nodes N K) (v0 : Nat) (hlen : nodes.length = N)
    (hv0 : v0 + K < N) :
    ∀ i, collectLeaves (nodes.set (v0 + K) ⟨-1, -1⟩) N K i
      = (collectLeaves nodes N K i).filter (fun w => decide (w ≠ v0)) := by
  refine subtree_induction N
    (fun i => collectLeaves (nodes.set (v0 + K) ⟨-1, -1⟩) N K i
      = (collectLeaves nodes N K i).filter (fun w => decide (w ≠ v0))) ?_ ?_
  · intro i hi
    rw [collectLeaves, dif_pos hi, collectLeaves, dif_pos hi]
    rfl
  · intro i hiN ihl ihr
    conv_rhs => rw [collectLeaves]
    rw [collectLeaves, dif_neg (by omega : ¬ N ≤ i), dif_neg (by omega : ¬ N ≤ i)]
    by_cases hK : K ≤ i
    · rw [if_pos hK, if_pos hK]
      by_cases hvl : i = v0 + K
      · subst hvl
        rw [getD_set_self nodes _ _ (by omega)]
        rw [if_neg (by decide : ¬ (0:Int) ≤ Node.value ⟨-1, -1⟩)]
        rcases hWF (v0 + K) hK hiN with hrep | hvac
        · rw [hrep]
          rw [if_pos (by simp [reprNode] : 0 ≤ (reprNode K (v0 + K - K)).value)]
          have h1 : (reprNode K (v0 + K - K)).value.toNat = v0 := by
            simp [reprNode]
          rw [h1]
          simp
        · rw [hvac]
          rw [if_neg (by decide : ¬ (0:Int) ≤ Node.value ⟨-1, -1⟩)]
          rfl
      · rw [getD_set_ne nodes _ _ _ (by omega)]
        by_cases hval : 0 ≤ (nodes.getD i default).value
        · rw [if_pos hval]
          rcases hWF i hK hiN with hrep | hvac
          · rw [hrep]
            have h1 : (reprNode K (i - K)).value.toNat = i - K := by simp [reprNode]
            rw [h1]
            simp [show ¬ i - K = v0 by omega]
          · rw [hvac] at hval
            simp at hval
        · rw [if_neg hval]
          rfl
    · rw [if_neg hK, if_neg hK, ihl, ihr, List.filter_append]

/-- A subtree champion is one of its collected cursors. -/
theorem SubInv_champ_mem (wins : Nat → Nat → Prop) (nodes : List Node)
    (N K : Nat) :
    ∀ i, ∀ c, SubInv wins nodes N K i c → ∀ v, c = some v →
      v ∈ collectLeaves nodes N K i := by
  refine subtree_induction N (fun i => ∀ c, SubInv wins nodes N K i c →
    ∀ v, c = some v → v ∈ collectLeaves nodes N K i) ?_ ?_
  · intro i hi c hs v hc
    rw [SubInv, dif_pos hi] at hs
    rw [hc] at hs
    cases hs
  · intro i hiN ihl ihr c hs v hc
    subst hc
    rw [SubInv, dif_neg (by omega : ¬ N ≤ i)] at hs
    rw [collectLeaves, dif_neg (by omega : ¬ N ≤ i)]
    by_cases hK : K ≤ i
    · rw [if_pos hK] at hs ⊢
      rcases hs with ⟨_, h2⟩ | ⟨h1, h2⟩
      · cases h2
      · injection h2 with h2
        rw [h1]
        rw [if_pos (by simp [reprNode] : 0 ≤ (reprNode K (i - K)).value)]
        have h3 : (reprNode K (i - K)).value.toNat = i - K := by simp [reprNode]
        rw [h3, h2]
        exact List.mem_singleton.mpr rfl
    · rw [if_neg hK] at hs ⊢
      obtain ⟨c1, c2, hl, hr, hm⟩ := hs
      cases c1 with
      | none =>
        cases c2 with
        | none =>
          simp only [matchInv] at hm
          cases hm.1
        | some v2 =>
          simp only [matchInv] at hm
          have hv : v = v2 := Option.some.inj hm.1
          subst hv
          exact List.mem_append.mpr (Or.inr (ihr (some v) hr v rfl))
      | some v1 =>
        cases c2 with
        | none =>
          simp only [matchInv] at hm
          have hv : v = v1 := Option.some.inj hm.1
          subst hv
          exact List.mem_append.mpr (Or.inl (ihl (some v) hl v rfl))
        | some v2 =>
          simp only [matchInv] at hm
          rcases hm with ⟨h1, _, _⟩ | ⟨h1, _, _⟩
          · have hv : v = v1 := Option.some.inj h1
            subst hv
            exact List.mem_append.mpr (Or.inl (ihl (some v) hl v rfl))
          · have hv : v = v2 := Option.some.inj h1
            subst hv
            exact List.mem_append.mpr (Or.inr (ihr (some v) hr v rfl))

/-- A subtree with no champion has no active leaves. -/
theorem SubInv_champ_none (wins : Nat → Nat → Prop) (nodes : List Node)
    (N K : Nat) :
    ∀ i, SubInv wins nodes N K i none → collectLeaves nodes N K i = [] := by
  refine subtree_induction N
    (fun i => SubInv wins nodes N K i none → collectLeaves nodes N K i = []) ?_ ?_
  · intro i hi _
    rw [collectLeaves, dif_pos hi]
  · intro i hiN ihl ihr hs
    rw [SubInv, dif_neg (by omega : ¬ N ≤ i)] at hs
    rw [collectLeaves, dif_neg (by omega : ¬ N ≤ i)]
    by_cases hK : K ≤ i
    · rw [if_pos hK] at hs ⊢
      rcases hs with ⟨h1, _⟩ | ⟨_, h2⟩
      · rw [h1]
        rw [if_neg (by decide : ¬ (0:Int) ≤ Node.value ⟨-1, -1⟩)]
      · cases h2
    · rw [if_neg hK] at hs ⊢
      obtain ⟨c1, c2, hl, hr, hm⟩ := hs
      cases c1 with
      | none =>
        cases c2 with
        | none => rw [ihl hl, ihr hr]; rfl
        | some v2 => simp only [matchInv] at hm; cases hm.1
      | some v1 =>
        cases c2 with
        | none => simp only [matchInv] at hm; cases hm.1
        | some v2 =>
          simp only [matchInv] at hm
          rcases hm with ⟨h1, _, _⟩ | ⟨h1, _, _⟩ <;> cases h1

/-- `SubInv` only constrains `wins` on collected members of the subtree. -/
theorem SubInv_mono (wins wins' : Nat → Nat → Prop) (nodes : List Node)
    (N K : Nat) :
    ∀ i, ∀ c, (∀ a b, a ∈ collectLeaves nodes N K i →
        b ∈ collectLeaves nodes N K i → wins a b → wins' a b) →
      SubInv wins nodes N K i c → SubInv wins' nodes N K i c := by
  refine subtree_induction N (fun i => ∀ c, (∀ a b, a ∈ collectLeaves nodes N K i →
      b ∈ collectLeaves nodes N K i → wins a b → wins' a b) →
    SubInv wins nodes N K i c → SubInv wins' nodes N K i c) ?_ ?_
  · intro i hi c _ hs
    rw [SubInv, dif_pos hi] at hs
    rw [SubInv, dif_pos hi]
    exact hs
  · intro i hiN ihl ihr c hmono hs
    rw [SubInv, dif_neg (by omega : ¬ N ≤ i)] at hs
    rw [SubInv, dif_neg (by omega : ¬ N ≤ i)]
    by_cases hK : K ≤ i
    · rw [if_pos hK] at hs ⊢
      exact hs
    · rw [if_neg hK] at hs ⊢
      obtain ⟨c1, c2, hl, hr, hm⟩ := hs
      have hsubl : ∀ w, w ∈ collectLeaves nodes N K (left i) →
          w ∈ collectLeaves nodes N K i := by
        intro w hw
        rw [collectLeaves, dif_neg (by omega : ¬ N ≤ i), if_neg hK]
        exact List.mem_append.mpr (Or.inl hw)
      have hsubr : ∀ w, w ∈ collectLeaves nodes N K (right i) →
          w ∈ collectLeaves nodes N K i := by
        intro w hw
        rw [collectLeaves, dif_neg (by omega : ¬ N ≤ i), if_neg hK]
        exact List.mem_append.mpr (Or.inr hw)
      refine ⟨c1, c2, ihl c1 (fun a b ha hb => hmono a b (hsubl a ha) (hsubl b hb)) hl,
        ihr c2 (fun a b ha hb => hmono a b (hsubr a ha) (hsubr b hb)) hr, ?_⟩
      cases c1 with
      | none => cases c2 with
        | none => exact hm
        | some v2 => exact hm
      | some v1 =>
        cases c2 with
        | none => exact hm
        | some v2 =>
          simp only [matchInv] at hm ⊢
          have hm1 : v1 ∈ collectLeaves nodes N K i :=
            hsubl v1 (SubInv_champ_mem wins nodes N K (left i) (some v1) hl v1 rfl)
          have hm2 : v2 ∈ collectLeaves nodes N K i :=
            hsubr v2 (SubInv_champ_mem wins nodes N K (right i) (some v2) hr v2 rfl)
          rcases hm with ⟨h1, h2, h3⟩ | ⟨h1, h2, h3⟩
          · exact Or.inl ⟨h1, h2, hmono v1 v2 hm1 hm2 h3⟩
          · exact Or.inr ⟨h1, h2, hmono v2 v1 hm2 hm1 h3⟩

/-- `SubInv` reads only slots inside its subtree. -/
theorem SubInv_congr (wins : Nat → Nat → Prop) (nodes nodes' : List Node)
    (N K : Nat) :
    ∀ i, ∀ c, (∀ p, Reach p i →
        nodes'.getD p default = nodes.getD p default) →
      SubInv wins nodes N K i c → SubInv wins nodes' N K i c := by
  refine subtree_induction N (fun i => ∀ c, (∀ p, Reach p i →
      nodes'.getD p default = nodes.getD p default) →
    SubInv wins nodes N K i c → SubInv wins nodes' N K i c) ?_ ?_
  · intro i hi c _ hs
    rw [SubInv, dif_pos hi] at hs
    rw [SubInv, dif_pos hi]
    exact hs
  · intro i hiN ihl ihr c hsame hs
    rw [SubInv, dif_neg (by omega : ¬ N ≤ i)] at hs
    rw [SubInv, dif_neg (by omega : ¬ N ≤ i)]
    have hself := hsame i (Reach.refl i)
    by_cases hK : K ≤ i
    · rw [if_pos hK] at hs ⊢
      rw [hself]
      exact hs
    · rw [if_neg hK] at hs ⊢
      obtain ⟨c1, c2, hl, hr, hm⟩ := hs
      exact ⟨c1, c2,
        ihl c1 (fun p hp => hsame p (Reach.of_child_left p i hp)) hl,
        ihr c2 (fun p hp => hsame p (Reach.of_child_right p i hp)) hr,
        by rw [hself]; exact hm⟩

/-- The champion beats every collected cursor of its subtree, given that
`wins` is reflexive and transitive. -/
theorem SubInv_champ_min (wins : Nat → Nat → Prop)
    (hrefl : ∀ v, wins v v)
    (htrans : ∀ a b c, wins a b → wins b c → wins a c)
    (nodes : List Node) (N K : Nat) :
    ∀ i, ∀ c, SubInv wins nodes N K i c → ∀ v, c = some v →
      ∀ w ∈ collectLeaves nodes N K i, wins v w := by
  refine subtree_induction N (fun i => ∀ c, SubInv wins nodes N K i c →
    ∀ v, c = some v → ∀ w ∈ collectLeaves nodes N K i, wins v w) ?_ ?_
  · intro i hi c _ v _ w hw
    rw [collectLeaves, dif_pos hi] at hw
    exact absurd hw (List.not_mem_nil w)
  · intro i hiN ihl ihr c hs v hc w hw
    subst hc
    rw [SubInv, dif_neg (by omega : ¬ N ≤ i)] at hs
    rw [collectLeaves, dif_neg (by omega : ¬ N ≤ i)] at hw
    by_cases hK : K ≤ i
    · rw [if_pos hK] at hs hw
      rcases hs with ⟨_, h2⟩ | ⟨h1, h2⟩
      · cases h2
      · injection h2 with h2
        rw [h1] at hw
        rw [if_pos (by simp [reprNode] : 0 ≤ (reprNode K (i - K)).value)] at hw
        have h3 : (reprNode K (i - K)).value.toNat = i - K := by simp [reprNode]
        rw [h3] at hw
        have : w = i - K := List.mem_singleton.mp hw
        rw [this, h2]
        exact hrefl _
    · rw [if_neg hK] at hs hw
      obtain ⟨c1, c2, hl, hr, hm⟩ := hs
      cases c1 with
      | none =>
        cases c2 with
        | none => simp only [matchInv] at hm; cases hm.1
        | some v2 =>
          simp only [matchInv] at hm
          have hv : v = v2 := Option.some.inj hm.1
          subst hv
          rcases List.mem_append.mp hw with hw | hw
          · rw [SubInv_champ_none wins nodes N K (left i) hl] at hw
            exact absurd hw (List.not_mem_nil w)
          · exact ihr (some v) hr v rfl w hw
      | some v1 =>
        cases c2 with
        | none =>
          simp only [matchInv] at hm
          have hv : v = v1 := Option.some.inj hm.1
          subst hv
          rcases List.mem_append.mp hw with hw | hw
          · exact ihl (some v) hl v rfl w hw
          · rw [SubInv_champ_none wins nodes N K (right i) hr] at hw
            exact absurd hw (List.not_mem_nil w)
        | some v2 =>
          simp only [matchInv] at hm
          rcases hm with ⟨h1, _, h3⟩ | ⟨h1, _, h3⟩
          · have hv : v = v1 := Option.some.inj h1
            subst hv
            rcases List.mem_append.mp hw with hw | hw
            · exact ihl (some v) hl v rfl w hw
            · exact htrans v v2 w h3 (ihr (some v2) hr v2 rfl w hw)
          · have hv : v = v2 := Option.some.inj h1
            subst hv
            rcases List.mem_append.mp hw with hw | hw
            · exact htrans v v1 w h3 (ihl (some v1) hl v1 rfl w hw)
            · exact ihr (some v) hr v rfl w hw

theorem playGame_vac_left {α ε : Type} [Inhabited α] (cursors : List (Cursor α ε))
    (n1 n2 : Node) (cmp : α → α → Int) (h : n1.value < 0) :
    playGame cursors n1 n2 cmp = (n1, n2) := by
  unfold playGame
  rw [if_pos h]

theorem playGame_vac_right {α ε : Type} [Inhabited α] (cursors : List (Cursor α ε))
    (n1 n2 : Node) (cmp : α → α → Int) (h1 : ¬ n1.value < 0) (h2 : n2.value < 0) :
    playGame cursors n1 n2 cmp = (n2, n1) := by
  unfold playGame
  rw [if_neg h1, if_pos h2]

theorem initializeAux_out_of_range {α ε : Type} [Inhabited α] (cmp : α → α → Int)
    (cursors : List (Cursor α ε)) (N : Nat) (fuel : Nat) (nodes : List Node)
    (i : Nat) (h : N ≤ i) :
    initializeAux cmp cursors N fuel nodes i = (nodes, ⟨-1, -1⟩) := by
  cases fuel with
  | zero => rfl
  | succ fuel =>
    unfold initializeAux
    rw [if_pos h]

/-- Hypothesis tying `playGame` outcomes on two active representatives to
the abstract `wins` relation. -/
def PlayGameOk {α ε : Type} [Inhabited α] (cmp : α → α → Int)
    (cursors : List (Cursor α ε)) (K : Nat) (wins : Nat → Nat → Prop) : Prop :=
  ∀ v w : Nat, v < K → w < K →
    (playGame cursors (reprNode K v) (reprNode K w) cmp
        = (reprNode K w, reprNode K v) ∧ wins v w) ∨
    (playGame cursors (reprNode K v) (reprNode K w) cmp
        = (reprNode K v, reprNode K w) ∧ wins w v)

/-- One-step unfolding of `initializeAux` at positive fuel. -/
theorem initializeAux_succ {α ε : Type} [Inhabited α] (cmp : α → α → Int)
    (cursors : List (Cursor α ε)) (N fuel : Nat) (nodes : List Node) (i : Nat) :
    initializeAux cmp cursors N (fuel + 1) nodes i
      = if N ≤ i then (nodes, ⟨-1, -1⟩)
        else if (initializeAux cmp cursors N fuel nodes (left i)).2.index < 0 ∧
            (initializeAux cmp cursors N fuel
              (initializeAux cmp cursors N fuel nodes (left i)).1 (right i)).2.index < 0
        then
          ((initializeAux cmp cursors N fuel
              (initializeAux cmp cursors N fuel nodes (left i)).1 (right i)).1,
            (initializeAux cmp cursors N fuel
              (initializeAux cmp cursors N fuel nodes (left i)).1 (right i)).1.getD
              i default)
        else
          ((initializeAux cmp cursors N fuel
              (initializeAux cmp cursors N fuel nodes (left i)).1 (right i)).1.set i
            (playGame cursors (initializeAux cmp cursors N fuel nodes (left i)).2
              (initializeAux cmp cursors N fuel
                (initializeAux cmp cursors N fuel nodes (left i)).1 (right i)).2
              cmp).1,
            (playGame cursors (initializeAux cmp cursors N fuel nodes (left i)).2
              (initializeAux cmp cursors N fuel
                (initializeAux cmp cursors N fuel nodes (left i)).1 (right i)).2
              cmp).2) := rfl

/-- `initialize` establishes the bracket invariant on a state whose internal
slots inside the initialized subtree are vacant sentinels, returning the
subtree champion (its representative node, or the vacant sentinel). It
writes only internal slots of that subtree. -/
theorem initializeAux_spec {α ε : Type} [Inhabited α] (cmp : α → α → Int)
    (cursors : List (Cursor α ε)) (wins : Nat → Nat → Prop) (N K : Nat)
    (hN2 : N = 2 * K)
    (hpg : PlayGameOk cmp cursors K wins) :
    ∀ fuel i nodes, N ≤ fuel + i →
    (∀ q, q < K → Reach q i → nodes.getD q default = ⟨-1, -1⟩) →
    LeafWF nodes N K → nodes.length = N →
    ∃ c, SubInv wins (initializeAux cmp cursors N fuel nodes i).1 N K i c ∧
      (∀ v, c = some v →
        (initializeAux cmp cursors N fuel nodes i).2 = reprNode K v ∧ v < K) ∧
      (c = none → (initializeAux cmp cursors N fuel nodes i).2 = ⟨-1, -1⟩) ∧
      (initializeAux cmp cursors N fuel nodes i).1.length = nodes.length ∧
      (∀ q, ¬ (q < K ∧ Reach q i) →
        (initializeAux cmp cursors N fuel nodes i).1.getD q default
          = nodes.getD q default) := by
  intro fuel
  induction fuel with
  | zero =>
    intro i nodes hfuel hvac hWF hlen
    refine ⟨none, ?_, ?_, ?_, ?_, ?_⟩
    · rw [SubInv, dif_pos (by omega : N ≤ i)]
    · intro v h; cases h
    · intro _; rfl
    · rfl
    · intro q _; rfl
  | succ fuel ih =>
    intro i nodes hfuel hvac hWF hlen
    by_cases hiN : N ≤ i
    · rw [initializeAux_out_of_range cmp cursors N _ nodes i hiN]
      refine ⟨none, ?_, ?_, ?_, ?_, ?_⟩
      · rw [SubInv, dif_pos hiN]
      · intro v h; cases h
      · intro _; rfl
      · rfl
      · intro q _; rfl
    · by_cases hKi : K ≤ i
      · -- leaf slot: both children are outside the array
        rw [initializeAux_succ, if_neg hiN,
          initializeAux_out_of_range cmp cursors N fuel nodes (left i)
            (by unfold left; omega),
          initializeAux_out_of_range cmp cursors N fuel _ (right i)
            (by unfold right; omega)]
        dsimp only
        rw [if_pos (⟨by decide, by decide⟩ :
          (Node.index ⟨-1, -1⟩ < 0 ∧ Node.index ⟨-1, -1⟩ < 0))]
        rcases hWF i hKi (by omega) with hrep | hvc
        · refine ⟨some (i - K), ?_, ?_, ?_, ?_, ?_⟩
          · rw [SubInv, dif_neg hiN, if_pos hKi]
            exact Or.inr ⟨hrep, rfl⟩
          · intro v hv
            injection hv with hv
            subst hv
            exact ⟨hrep, by omega⟩
          · intro h; cases h
          · rfl
          · intro q _; rfl
        · refine ⟨none, ?_, ?_, ?_, ?_, ?_⟩
          · rw [SubInv, dif_neg hiN, if_pos hKi]
            exact Or.inl ⟨hvc, rfl⟩
          · intro v h; cases h
          · intro _; exact hvc
          · rfl
          · intro q _; rfl
      · -- internal slot
        obtain ⟨c1, hs1, hsome1, hnone1, hlen1, hfr1⟩ :=
          ih (left i) nodes (by unfold left; omega)
            (fun q hq hr => hvac q hq (Reach.of_child_left q i hr)) hWF hlen
        set r1 := initializeAux cmp cursors N fuel nodes (left i) with hr1def
        obtain ⟨c2, hs2, hsome2, hnone2, hlen2, hfr2⟩ :=
          ih (right i) r1.1 (by unfold right; omega)
            (fun q hq hr => by
              rw [hfr1 q ?_]
              · exact hvac q hq (Reach.of_child_right q i hr)
              · rintro ⟨-, ⟨k1, hk1⟩⟩
                obtain ⟨k2, hk2⟩ := hr
                exact sibling_disjoint i q k1 k2 hk1 hk2)
            (fun p hp hpN => by
              rw [hfr1 p (fun hcon => absurd hcon.1 (by omega))]
              exact hWF p hp hpN)
            (hlen1.trans hlen)
        set r2 := initializeAux cmp cursors N fuel r1.1 (right i) with hr2def
        have hs1' : SubInv wins r2.1 N K (left i) c1 := by
          refine SubInv_congr wins r1.1 r2.1 N K (left i) c1 ?_ hs1
          intro p hp
          refine hfr2 p ?_
          rintro ⟨hpK, ⟨k2, hk2⟩⟩
          obtain ⟨k1, hk1⟩ := hp
          exact sibling_disjoint i p k1 k2 hk1 hk2
        have hslot : r2.1.getD i default = ⟨-1, -1⟩ := by
          rw [hfr2 i ?_, hfr1 i ?_]
          · exact hvac i (by omega) (Reach.refl i)
          · rintro ⟨-, hri⟩
            have h1 := Reach.le i (left i) hri
            have h2 := lt_left i
            omega
          · rintro ⟨-, hri⟩
            have h1 := Reach.le i (right i) hri
            have h2 := lt_right i
            omega
        have hlen2N : r2.1.length = N := by rw [hlen2, hlen1, hlen]
        have hframe12 : ∀ q, ¬ (q < K ∧ Reach q i) →
            r2.1.getD q default = nodes.getD q default := by
          intro q hq
          rw [hfr2 q (fun hcon => hq ⟨hcon.1, Reach.of_child_right q i hcon.2⟩),
            hfr1 q (fun hcon => hq ⟨hcon.1, Reach.of_child_left q i hcon.2⟩)]
        rw [initializeAux_succ, if_neg hiN, ← hr1def, ← hr2def]
        by_cases hvacb : r1.2.index < 0 ∧ r2.2.index < 0
        · rw [if_pos hvacb]
          have hc1 : c1 = none := by
            cases c1 with
            | none => rfl
            | some v1 =>
              obtain ⟨h1, h2⟩ := hsome1 v1 rfl
              rw [h1] at hvacb
              have h3 : (reprNode K v1).index = ((v1 + K : Nat) : Int) := rfl
              omega
          have hc2 : c2 = none := by
            cases c2 with
            | none => rfl
            | some v2 =>
              obtain ⟨h1, h2⟩ := hsome2 v2 rfl
              rw [h1] at hvacb
              have h3 : (reprNode K v2).index = ((v2 + K : Nat) : Int) := rfl
              omega
          subst hc1
          subst hc2
          refine ⟨none, ?_, ?_, ?_, ?_, ?_⟩
          · rw [SubInv, dif_neg hiN, if_neg hKi]
            refine ⟨none, none, hs1', hs2, ?_⟩
            simp only [matchInv]
            rw [hslot]
            exact ⟨by trivial, by decide⟩
          · intro v h; cases h
          · intro _; exact hslot
          · exact hlen2N.trans hlen.symm
          · intro q hq; exact hframe12 q hq
        · rw [if_neg hvacb]
          have hiK2 : i < K := by omega
          have hilen : i < r2.1.length := by omega
          have hfr_set : ∀ x : Node, ∀ q, ¬ (q < K ∧ Reach q i) →
              (r2.1.set i x).getD q default = nodes.getD q default := by
            intro x q hq
            rw [getD_set_ne r2.1 i q x (fun h =>
              hq (h ▸ ⟨hiK2, Reach.refl i⟩)), hframe12 q hq]
          have hsub_setl : ∀ x : Node, ∀ c', SubInv wins r2.1 N K (left i) c' →
              SubInv wins (r2.1.set i x) N K (left i) c' := by
            intro x c' hc'
            refine SubInv_congr wins r2.1 _ N K (left i) c' ?_ hc'
            intro p hp
            refine getD_set_ne r2.1 i p x ?_
            intro h
            subst h
            have h1 := Reach.le i (left i) hp
            have h2 := lt_left i
            omega
          have hsub_setr : ∀ x : Node, ∀ c', SubInv wins r2.1 N K (right i) c' →
              SubInv wins (r2.1.set i x) N K (right i) c' := by
            intro x c' hc'
            refine SubInv_congr wins r2.1 _ N K (right i) c' ?_ hc'
            intro p hp
            refine getD_set_ne r2.1 i p x ?_
            intro h
            subst h
            have h1 := Reach.le i (right i) hp
            have h2 := lt_right i
            omega
          cases c1 with
          | none =>
            cases c2 with
            | none =>
              obtain h1 := hnone1 rfl
              obtain h2 := hnone2 rfl
              exact absurd ⟨by rw [h1]; decide, by rw [h2]; decide⟩ hvacb
            | some v2 =>
              obtain h1 := hnone1 rfl
              obtain ⟨h2, hv2K⟩ := hsome2 v2 rfl
              have hpgv : playGame cursors r1.2 r2.2 cmp = (r1.2, r2.2) :=
                playGame_vac_left cursors r1.2 r2.2 cmp (by rw [h1]; decide)
              rw [hpgv]
              refine ⟨some v2, ?_, ?_, ?_, ?_, ?_⟩
              · rw [SubInv, dif_neg hiN, if_neg hKi]
                refine ⟨none, some v2, hsub_setl r1.2 none hs1',
                  hsub_setr r1.2 (some v2) hs2, ?_⟩
                simp only [matchInv]
                rw [getD_set_self r2.1 i r1.2 hilen, h1]
                exact ⟨by trivial, by decide⟩
              · intro v hv
                injection hv with hv
                subst hv
                exact ⟨h2, hv2K⟩
              · intro h; cases h
              · rw [List.length_set]
                exact hlen2N.trans hlen.symm
              · intro q hq
                exact hfr_set r1.2 q hq
          | some v1 =>
            obtain ⟨h1, hv1K⟩ := hsome1 v1 rfl
            cases c2 with
            | none =>
              obtain h2 := hnone2 rfl
              have hpgv : playGame cursors r1.2 r2.2 cmp = (r2.2, r1.2) := by
                refine playGame_vac_right cursors r1.2 r2.2 cmp ?_ (by rw [h2]; decide)
                rw [h1]
                have h3 : (reprNode K v1).value = ((v1 : Nat) : Int) := rfl
                omega
              rw [hpgv]
              refine ⟨some v1, ?_, ?_, ?_, ?_, ?_⟩
              · rw [SubInv, dif_neg hiN, if_neg hKi]
                refine ⟨some v1, none, hsub_setl r2.2 (some v1) hs1',
                  hsub_setr r2.2 none hs2, ?_⟩
                simp only [matchInv]
                rw [getD_set_self r2.1 i r2.2 hilen, h2]
                exact ⟨by trivial, by decide⟩
              · intro v hv
                injection hv with hv
                subst hv
                exact ⟨h1, hv1K⟩
              · intro h; cases h
              · rw [List.length_set]
                exact hlen2N.trans hlen.symm
              · intro q hq
                exact hfr_set r2.2 q hq
            | some v2 =>
              obtain ⟨h2, hv2K⟩ := hsome2 v2 rfl
              rcases hpg v1 v2 hv1K hv2K with ⟨hpgw, hw⟩ | ⟨hpgw, hw⟩
              · have hpgv : playGame cursors r1.2 r2.2 cmp
                    = (reprNode K v2, reprNode K v1) := by rw [h1, h2, hpgw]
                rw [hpgv]
                refine ⟨some v1, ?_, ?_, ?_, ?_, ?_⟩
                · rw [SubInv, dif_neg hiN, if_neg hKi]
                  refine ⟨some v1, some v2, hsub_setl (reprNode K v2) (some v1) hs1',
                    hsub_setr (reprNode K v2) (some v2) hs2, ?_⟩
                  simp only [matchInv]
                  rw [getD_set_self r2.1 i (reprNode K v2) hilen]
                  exact Or.inl ⟨by trivial, by trivial, hw⟩
                · intro v hv
                  injection hv with hv
                  subst hv
                  exact ⟨rfl, hv1K⟩
                · intro h; cases h
                · rw [List.length_set]
                  exact hlen2N.trans hlen.symm
                · intro q hq
                  exact hfr_set (reprNode K v2) q hq
              · have hpgv : playGame cursors r1.2 r2.2 cmp
                    = (reprNode K v1, reprNode K v2) := by rw [h1, h2, hpgw]
                rw [hpgv]
                refine ⟨some v2, ?_, ?_, ?_, ?_, ?_⟩
                · rw [SubInv, dif_neg hiN, if_neg hKi]
                  refine ⟨some v1, some v2, hsub_setl (reprNode K v1) (some v1) hs1',
                    hsub_setr (reprNode K v1) (some v2) hs2, ?_⟩
                  simp only [matchInv]
                  rw [getD_set_self r2.1 i (reprNode K v1) hilen]
                  exact Or.inr ⟨by trivial, by trivial, hw⟩
                · intro v hv
                  injection hv with hv
                  subst hv
                  exact ⟨rfl, hv2K⟩
                · intro h; cases h
                · rw [List.length_set]
                  exact hlen2N.trans hlen.symm
                · intro q hq
                  exact hfr_set (reprNode K v1) q hq

/-- The sibling of child `ch` under slot `o`. -/
def sibOf (o ch : Nat) : Nat := if ch = left o then right o else left o

/-- The champion denoted by a carried node: its cursor index when
non-vacant. -/
def champOf (w : Node) : Option Nat :=
  if 0 ≤ w.value then some w.value.toNat else none

/-- Facts available at slot `o` when the replay climb arrives from child
`ch`: the sibling subtree satisfies the bracket invariant with some
champion, and the slot holds that champion's representative (the previous
loser at `o`), or a vacant-valued node when the sibling subtree is empty. -/
def SlotFacts (wins : Nat → Nat → Prop) (nodes : List Node) (N K : Nat)
    (o ch : Nat) : Prop :=
  ∃ csib, SubInv wins nodes N K (sibOf o ch) csib ∧
    (∀ s, csib = some s → nodes.getD o default = reprNode K s ∧ s < K) ∧
    (csib = none → (nodes.getD o default).value < 0)

/-- The climb invariant: slot facts at `o` (arrived from `ch`) and,
recursively, at every ancestor of `o`. -/
def ChainInv (wins : Nat → Nat → Prop) (nodes : List Node) (N K : Nat) :
    Nat → Nat → Prop
  | o, ch =>
    SlotFacts wins nodes N K o ch ∧
    (o ≠ 0 → ChainInv wins nodes N K (parent o) o)
termination_by o _ => o
decreasing_by exact parent_lt o (by assumption)

theorem sibOf_or (o ch : Nat) (h : ch = left o ∨ ch = right o) :
    (ch = left o ∧ sibOf o ch = right o) ∨ (ch = right o ∧ sibOf o ch = left o) := by
  rcases h with h | h
  · exact Or.inl ⟨h, by rw [sibOf, if_pos h]⟩
  · refine Or.inr ⟨h, ?_⟩
    rw [sibOf, if_neg]
    rw [h]
    unfold left right
    omega

/-- Positions inside the arrival child are disjoint from everything the
chain invariant reads, so writes there preserve it. -/
theorem ChainInv_frame_set (wins : Nat → Nat → Prop) (nodes : List Node)
    (N K : Nat) (q : Nat) (x : Node) :
    ∀ o, ∀ ch, (ch = left o ∨ ch = right o) → Reach q ch →
      ChainInv wins nodes N K o ch → ChainInv wins (nodes.set q x) N K o ch := by
  intro o
  induction o using Nat.strong_induction_on with
  | _ o ih =>
    intro ch hch hq hci
    rw [ChainInv] at hci
    rw [ChainInv]
    obtain ⟨⟨csib, hsib, hsome, hnone⟩, hup⟩ := hci
    have hqch : ch ≤ q := Reach.le q ch hq
    have holt : o < ch := by
      rcases hch with h | h
      · rw [h]; unfold left; omega
      · rw [h]; unfold right; omega
    have hslot : (nodes.set q x).getD o default = nodes.getD o default :=
      getD_set_ne nodes q o x (by omega)
    refine ⟨⟨csib, ?_, ?_, ?_⟩, ?_⟩
    · refine SubInv_congr wins nodes _ N K (sibOf o ch) csib ?_ hsib
      intro p hp
      refine getD_set_ne nodes q p x ?_
      intro h
      subst h
      obtain ⟨k1, hk1⟩ := hq
      obtain ⟨k2, hk2⟩ := hp
      rcases sibOf_or o ch hch with ⟨h1, h2⟩ | ⟨h1, h2⟩
      · rw [h1] at hk1
        rw [h2] at hk2
        exact sibling_disjoint o q k1 k2 hk1 hk2
      · rw [h1] at hk1
        rw [h2] at hk2
        exact sibling_disjoint o q k2 k1 hk2 hk1
    · intro s hs
      rw [hslot]
      exact hsome s hs
    · intro hs
      rw [hslot]
      exact hnone hs
    · intro ho
      refine ih (parent o) (parent_lt o ho) o (child_of_parent o ho) ?_ (hup ho)
      rcases hch with h | h
      · exact Reach.of_child_left q o (h ▸ hq)
      · exact Reach.of_child_right q o (h ▸ hq)

/-- `ChainInv` constrains `wins` only away from the escaping cursor `v0`,
whose leaf lies inside the arrival child at every level. -/
theorem ChainInv_mono (wins wins' : Nat → Nat → Prop) (nodes : List Node)
    (N K : Nat) (hWF : LeafWF nodes N K) (v0 : Nat)
    (hmono : ∀ a b, a ≠ v0 → b ≠ v0 → wins a b → wins' a b) :
    ∀ o, ∀ ch, (ch = left o ∨ ch = right o) → Reach (v0 + K) ch →
      ChainInv wins nodes N K o ch → ChainInv wins' nodes N K o ch := by
  intro o
  induction o using Nat.strong_induction_on with
  | _ o ih =>
    intro ch hch hq hci
    rw [ChainInv] at hci
    rw [ChainInv]
    obtain ⟨⟨csib, hsib, hsome, hnone⟩, hup⟩ := hci
    have hne : ∀ a, a ∈ collectLeaves nodes N K (sibOf o ch) → a ≠ v0 := by
      intro a ha hav
      subst hav
      obtain ⟨⟨k2, hk2⟩, _, _⟩ := mem_collectLeaves_reach nodes N K hWF (sibOf o ch) a ha
      obtain ⟨k1, hk1⟩ := hq
      rcases sibOf_or o ch hch with ⟨h1, h2⟩ | ⟨h1, h2⟩
      · rw [h1] at hk1
        rw [h2] at hk2
        exact sibling_disjoint o (a + K) k1 k2 hk1 hk2
      · rw [h1] at hk1
        rw [h2] at hk2
        exact sibling_disjoint o (a + K) k2 k1 hk2 hk1
    refine ⟨⟨csib, ?_, hsome, hnone⟩, ?_⟩
    · exact SubInv_mono wins wins' nodes N K (sibOf o ch) csib
        (fun a b ha hb hw => hmono a b (hne a ha) (hne b hb) hw) hsib
    · intro ho
      refine ih (parent o) (parent_lt o ho) o (child_of_parent o ho) ?_ (hup ho)
      rcases hch with h | h
      · exact Reach.of_child_left _ o (h ▸ hq)
      · exact Reach.of_child_right _ o (h ▸ hq)

/-- Walking down the winner's leaf-to-root chain in a tree whose root
satisfies the bracket invariant with champion `v0` yields the chain
invariant at the winner's leaf. -/
theorem chain_decomp (wins : Nat → Nat → Prop) (nodes : List Node)
    (N K : Nat) (hN2 : N = 2 * K) (hWF : LeafWF nodes N K)
    (v0 : Nat) (hv0 : v0 + K < N) :
    ∀ k, ∀ i, parentIter k (v0 + K) = i →
      SubInv wins nodes N K i (some v0) →
      (i ≠ 0 → ChainInv wins nodes N K (parent i) i) →
      ChainInv wins nodes N K (parent (v0 + K)) (v0 + K) := by
  intro k
  induction k with
  | zero =>
    intro i hi hs hup
    simp only [parentIter] at hi
    subst hi
    exact hup (by omega)
  | succ k ih =>
    intro i hi hs hup
    rw [parentIter_succ_outer] at hi
    by_cases hp0 : parentIter k (v0 + K) = 0
    · refine ih i ?_ hs hup
      rw [hp0]
      rw [hp0] at hi
      rw [← hi]
      unfold parent
      omega
    · set p' := parentIter k (v0 + K) with hp'
      have hchild : p' = left i ∨ p' = right i := by
        rw [← hi]
        exact child_of_parent p' hp0
      have hreach : Reach (v0 + K) p' := ⟨k, hp'.symm⟩
      have hp'N : p' < N := lt_of_le_of_lt (Reach.le _ _ hreach) hv0
      have hiK : i < K := by
        by_contra hiK
        rcases hchild with h | h
        · rw [h] at hp'N
          unfold left at hp'N
          omega
        · rw [h] at hp'N
          unfold right at hp'N
          omega
      rw [SubInv, dif_neg (by omega : ¬ N ≤ i), if_neg (by omega : ¬ K ≤ i)] at hs
      obtain ⟨c1, c2, hl, hr, hm⟩ := hs
      have hnot : ∀ j, (j = left i ∧ p' = right i) ∨ (j = right i ∧ p' = left i) →
          ∀ cj, SubInv wins nodes N K j cj → cj ≠ some v0 := by
        intro j hj cj hcj hjv
        have hv0mem := SubInv_champ_mem wins nodes N K j cj hcj v0 hjv
        obtain ⟨⟨k2, hk2⟩, _, _⟩ := mem_collectLeaves_reach nodes N K hWF j v0 hv0mem
        obtain ⟨k1, hk1⟩ := hreach
        rcases hj with ⟨hj1, hj2⟩ | ⟨hj1, hj2⟩
        · rw [hj2] at hk1
          rw [hj1] at hk2
          exact sibling_disjoint i (v0 + K) k2 k1 hk2 hk1
        · rw [hj2] at hk1
          rw [hj1] at hk2
          exact sibling_disjoint i (v0 + K) k1 k2 hk1 hk2
      have hbound : ∀ j, ∀ s, SubInv wins nodes N K j (some s) → s < K := by
        intro j s hcj
        have hmem := SubInv_champ_mem wins nodes N K j (some s) hcj s rfl
        obtain ⟨_, hb, _⟩ := mem_collectLeaves_reach nodes N K hWF j s hmem
        omega
      have hkey : SubInv wins nodes N K p' (some v0) ∧
          SlotFacts wins nodes N K i p' := by
        rcases hchild with hc | hc
        · have hsib : sibOf i p' = right i := by
            rw [sibOf, if_pos hc]
          cases c1 with
          | none =>
            cases c2 with
            | none =>
              simp only [matchInv] at hm
              cases hm.1
            | some v2 =>
              simp only [matchInv] at hm
              exact absurd hm.1.symm (hnot (right i) (Or.inr ⟨rfl, hc⟩) (some v2) hr)
          | some v1 =>
            cases c2 with
            | none =>
              simp only [matchInv] at hm
              have hv : v0 = v1 := Option.some.inj hm.1
              subst hv
              constructor
              · rw [hc]
                exact hl
              · unfold SlotFacts
                rw [hsib]
                refine ⟨none, hr, ?_, ?_⟩
                · intro s hs
                  cases hs
                · intro _
                  exact hm.2
            | some v2 =>
              simp only [matchInv] at hm
              rcases hm with ⟨h1, h2, _⟩ | ⟨h1, _, _⟩
              · have hv : v0 = v1 := Option.some.inj h1
                subst hv
                constructor
                · rw [hc]
                  exact hl
                · unfold SlotFacts
                  rw [hsib]
                  refine ⟨some v2, hr, ?_, ?_⟩
                  · intro s hs
                    have hsv : v2 = s := Option.some.inj hs
                    subst hsv
                    exact ⟨h2, hbound (right i) v2 hr⟩
                  · intro hs
                    cases hs
              · exact absurd h1.symm (hnot (right i) (Or.inr ⟨rfl, hc⟩) (some v2) hr)
        · have hsib : sibOf i p' = left i := by
            rw [sibOf, if_neg]
            rw [hc]
            unfold left right
            omega
          cases c2 with
          | none =>
            cases c1 with
            | none =>
              simp only [matchInv] at hm
              cases hm.1
            | some v1 =>
              simp only [matchInv] at hm
              exact absurd hm.1.symm (hnot (left i) (Or.inl ⟨rfl, hc⟩) (some v1) hl)
          | some v2 =>
            cases c1 with
            | none =>
              simp only [matchInv] at hm
              have hv : v0 = v2 := Option.some.inj hm.1
              subst hv
              constructor
              · rw [hc]
                exact hr
              · unfold SlotFacts
                rw [hsib]
                refine ⟨none, hl, ?_, ?_⟩
                · intro s hs
                  cases hs
                · intro _
                  exact hm.2
            | some v1 =>
              simp only [matchInv] at hm
              rcases hm with ⟨h1, _, _⟩ | ⟨h1, h2, _⟩
              · exact absurd h1.symm (hnot (left i) (Or.inl ⟨rfl, hc⟩) (some v1) hl)
              · have hv : v0 = v2 := Option.some.inj h1
                subst hv
                constructor
                · rw [hc]
                  exact hr
                · unfold SlotFacts
                  rw [hsib]
                  refine ⟨some v1, hl, ?_, ?_⟩
                  · intro s hs
                    have hsv : v1 = s := Option.some.inj hs
                    subst hsv
                    exact ⟨h2, hbound (left i) v1 hl⟩
                  · intro hs
                    cases hs
      refine ih p' hp'.symm hkey.1 ?_
      intro _
      rw [hi]
      rw [ChainInv]
      exact ⟨hkey.2, hup⟩

theorem reprNode_value_nonneg (K v : Nat) : 0 ≤ (reprNode K v).value := by
  simp [reprNode]

theorem reprNode_value_toNat (K v : Nat) : (reprNode K v).value.toNat = v := by
  simp [reprNode]

theorem champOf_neg (w : Node) (h : w.value < 0) : champOf w = none := by
  unfold champOf
  rw [if_neg (by omega)]

theorem champOf_nonneg (w : Node) (h : 0 ≤ w.value) :
    champOf w = some w.value.toNat := by
  unfold champOf
  rw [if_pos h]

theorem champOf_repr (K v : Nat) : champOf (reprNode K v) = some v := by
  rw [champOf_nonneg _ (reprNode_value_nonneg K v), reprNode_value_toNat]

/-- The comparison performed by the replay step between the stored player's
cursor `s` and the carried winner's cursor `t`: the player escapes upward
exactly when this holds. -/
@[reducible]
def replayRule {α ε : Type} [Inhabited α] (cmp : α → α → Int)
    (cursors : List (Cursor α ε)) (s t : Nat) : Prop :=
  (cursors.getD s default).values.length = 0 ∨
    ((cursors.getD t default).values.length ≠ 0 ∧
      cmp ((cursors.getD s default).values.headD default)
        ((cursors.getD t default).values.headD default) < 0)

/-- Hypothesis tying the replay comparison on two active cursors to the
abstract `wins` relation. -/
def ReplayOk {α ε : Type} [Inhabited α] (cmp : α → α → Int)
    (cursors : List (Cursor α ε)) (nodes : List Node) (K : Nat)
    (wins : Nat → Nat → Prop) : Prop :=
  ∀ s t : Nat, s < K → t < K → ActiveAt nodes K s → ActiveAt nodes K t →
    (replayRule cmp cursors s t → wins s t) ∧
    (¬ replayRule cmp cursors s t → wins t s)

/-- Case characterization of `replayStep`. -/
theorem replayStep_eq {α ε : Type} [Inhabited α] (cmp : α → α → Int)
    (cursors : List (Cursor α ε)) (nodes : List Node) (offset : Nat)
    (winner : Node) :
    replayStep cmp cursors nodes offset winner =
      if 0 ≤ (nodes.getD offset default).value then
        if winner.value < 0 then
          (nodes.set offset winner, nodes.getD offset default)
        else if replayRule cmp cursors (nodes.getD offset default).value.toNat
            winner.value.toNat then
          (nodes.set offset winner, nodes.getD offset default)
        else (nodes, winner)
      else (nodes, winner) := rfl

/-- One-step unfolding of `replayAux` at positive fuel. -/
theorem replayAux_succ {α ε : Type} [Inhabited α] (cmp : α → α → Int)
    (cursors : List (Cursor α ε)) (fuel : Nat) (nodes : List Node)
    (offset : Nat) (winner : Node) :
    replayAux cmp cursors (fuel + 1) nodes offset winner =
      if offset = 0 then replayStep cmp cursors nodes offset winner
      else replayAux cmp cursors fuel
        (replayStep cmp cursors nodes offset winner).1 (parent offset)
        (replayStep cmp cursors nodes offset winner).2 := rfl

/-- The replay climb restores the bracket invariant at the root: with the
carried node the champion of child `ch` and the chain invariant holding at
slot `o`, walking the parent chain to the root yields `SubInv` at the root
with the final carried node as champion; writes stay on internal slots. -/
theorem replayAux_spec {α ε : Type} [Inhabited α] (cmp : α → α → Int)
    (cursors : List (Cursor α ε)) (wins : Nat → Nat → Prop) (N K : Nat)
    (hN2 : N = 2 * K) (nodes0 : List Node) (hWF0 : LeafWF nodes0 N K)
    (hro : ReplayOk cmp cursors nodes0 K wins) :
    ∀ fuel, ∀ o ch nodes w, o < fuel → o < K →
      nodes.length = N →
      (∀ p, K ≤ p → nodes.getD p default = nodes0.getD p default) →
      (ch = left o ∨ ch = right o) →
      SubInv wins nodes N K ch (champOf w) →
      (0 ≤ w.value → w = reprNode K w.value.toNat ∧ w.value.toNat < K ∧
        ActiveAt nodes K w.value.toNat) →
      ChainInv wins nodes N K o ch →
      SubInv wins (replayAux cmp cursors fuel nodes o w).1 N K 0
          (champOf (replayAux cmp cursors fuel nodes o w).2) ∧
      (0 ≤ (replayAux cmp cursors fuel nodes o w).2.value →
        (replayAux cmp cursors fuel nodes o w).2
            = reprNode K (replayAux cmp cursors fuel nodes o w).2.value.toNat ∧
        (replayAux cmp cursors fuel nodes o w).2.value.toNat < K ∧
        ActiveAt (replayAux cmp cursors fuel nodes o w).1 K
          (replayAux cmp cursors fuel nodes o w).2.value.toNat) ∧
      (replayAux cmp cursors fuel nodes o w).1.length = N ∧
      (∀ p, K ≤ p → (replayAux cmp cursors fuel nodes o w).1.getD p default
        = nodes0.getD p default) := by
  intro fuel
  induction fuel with
  | zero =>
    intro o ch nodes w hfo
    exact absurd hfo (Nat.not_lt_zero o)
  | succ fuel ih =>
    intro o ch nodes w hfo hoK hlen hleaf hch hsub hwOK hci
    rw [ChainInv] at hci
    obtain ⟨⟨csib, hsib, hsome, hnone⟩, hup⟩ := hci
    have hWFn : LeafWF nodes N K := by
      intro p hp hpN
      rw [hleaf p hp]
      exact hWF0 p hp hpN
    have hchgt : o < ch := by
      rcases hch with h | h
      · rw [h]; unfold left; omega
      · rw [h]; unfold right; omega
    have hsibgt : o < sibOf o ch := by
      rcases sibOf_or o ch hch with ⟨_, h2⟩ | ⟨_, h2⟩
      · rw [h2]; unfold right; omega
      · rw [h2]; unfold left; omega
    have hchsub : ∀ (x : Node), ∀ c, SubInv wins nodes N K ch c →
        SubInv wins (nodes.set o x) N K ch c := by
      intro x c hc
      refine SubInv_congr wins nodes _ N K ch c ?_ hc
      intro p hp
      exact getD_set_ne nodes o p x (by have := Reach.le p ch hp; omega)
    have hsibsub : ∀ (x : Node), ∀ c, SubInv wins nodes N K (sibOf o ch) c →
        SubInv wins (nodes.set o x) N K (sibOf o ch) c := by
      intro x c hc
      refine SubInv_congr wins nodes _ N K (sibOf o ch) c ?_ hc
      intro p hp
      exact getD_set_ne nodes o p x (by have := Reach.le p (sibOf o ch) hp; omega)
    have hstep : ∃ ns nw, replayStep cmp cursors nodes o w = (ns, nw) ∧
        SubInv wins ns N K o (champOf nw) ∧
        (0 ≤ nw.value → nw = reprNode K nw.value.toNat ∧ nw.value.toNat < K ∧
          ActiveAt ns K nw.value.toNat) ∧
        ns.length = N ∧
        (∀ p, K ≤ p → ns.getD p default = nodes.getD p default) ∧
        (o ≠ 0 → ChainInv wins ns N K (parent o) o) := by
      cases csib with
      | none =>
        have hval : (nodes.getD o default).value < 0 := hnone rfl
        refine ⟨nodes, w, ?_, ?_, hwOK, hlen, fun p _ => rfl, fun ho => hup ho⟩
        · rw [replayStep_eq, if_neg (by omega)]
        · rw [SubInv, dif_neg (by omega : ¬ N ≤ o), if_neg (by omega : ¬ K ≤ o)]
          rcases sibOf_or o ch hch with ⟨hch_eq, hsib_eq⟩ | ⟨hch_eq, hsib_eq⟩
          · refine ⟨champOf w, none, ?_, ?_, ?_⟩
            · rw [← hch_eq]; exact hsub
            · rw [← hsib_eq]; exact hsib
            · cases hw0 : champOf w with
              | none => simp only [matchInv]; exact ⟨by trivial, hval⟩
              | some v => simp only [matchInv]; exact ⟨by trivial, hval⟩
          · refine ⟨none, champOf w, ?_, ?_, ?_⟩
            · rw [← hsib_eq]; exact hsib
            · rw [← hch_eq]; exact hsub
            · cases hw0 : champOf w with
              | none => simp only [matchInv]; exact ⟨by trivial, hval⟩
              | some v => simp only [matchInv]; exact ⟨by trivial, hval⟩
      | some s =>
        obtain ⟨hsval, hsK⟩ := hsome s rfl
        have hsmem := SubInv_champ_mem wins nodes N K (sibOf o ch) (some s) hsib s rfl
        obtain ⟨hsreach, hsN, hsact⟩ :=
          mem_collectLeaves_reach nodes N K hWFn (sibOf o ch) s hsmem
        have hval0 : 0 ≤ (nodes.getD o default).value := by
          rw [hsval]; exact reprNode_value_nonneg K s
        have htn : (nodes.getD o default).value.toNat = s := by
          rw [hsval]; exact reprNode_value_toNat K s
        have hstored : ∀ (x : Node), (nodes.set o x).getD o default = x :=
          fun x => getD_set_self nodes o x (by omega)
        by_cases hwneg : w.value < 0
        · refine ⟨nodes.set o w, nodes.getD o default, ?_, ?_, ?_, ?_, ?_, ?_⟩
          · rw [replayStep_eq, if_pos hval0, if_pos hwneg]
          · rw [hsval, champOf_repr]
            rw [SubInv, dif_neg (by omega : ¬ N ≤ o), if_neg (by omega : ¬ K ≤ o)]
            rcases sibOf_or o ch hch with ⟨hch_eq, hsib_eq⟩ | ⟨hch_eq, hsib_eq⟩
            · refine ⟨none, some s, ?_, ?_, ?_⟩
              · rw [← hch_eq]
                have h := hchsub w _ hsub
                rwa [champOf_neg w hwneg] at h
              · rw [← hsib_eq]; exact hsibsub w _ hsib
              · simp only [matchInv]
                exact ⟨by trivial, by rw [hstored]; exact hwneg⟩
            · refine ⟨some s, none, ?_, ?_, ?_⟩
              · rw [← hsib_eq]; exact hsibsub w _ hsib
              · rw [← hch_eq]
                have h := hchsub w _ hsub
                rwa [champOf_neg w hwneg] at h
              · simp only [matchInv]
                exact ⟨by trivial, by rw [hstored]; exact hwneg⟩
          · intro _
            rw [hsval, reprNode_value_toNat]
            refine ⟨rfl, hsK, ?_⟩
            unfold ActiveAt
            rw [getD_set_ne nodes o (s + K) w (by omega)]
            exact hsact
          · rw [List.length_set]; exact hlen
          · intro p hp
            exact getD_set_ne nodes o p w (by omega)
          · intro ho
            exact ChainInv_frame_set wins nodes N K o w (parent o) o
              (child_of_parent o ho) (Reach.refl o) (hup ho)
        · obtain ⟨hwrepr, hwK, hwact⟩ := hwOK (by omega)
          have hsact0 : ActiveAt nodes0 K s := by
            unfold ActiveAt at hsact ⊢
            rw [← hleaf (s + K) (by omega)]
            exact hsact
          have hwact0 : ActiveAt nodes0 K w.value.toNat := by
            unfold ActiveAt at hwact ⊢
            rw [← hleaf (w.value.toNat + K) (by omega)]
            exact hwact
          have hrules := hro s w.value.toNat hsK hwK hsact0 hwact0
          by_cases hrule : replayRule cmp cursors s w.value.toNat
          · have hwins : wins s w.value.toNat := hrules.1 hrule
            refine ⟨nodes.set o w, nodes.getD o default, ?_, ?_, ?_, ?_, ?_, ?_⟩
            · rw [replayStep_eq, if_pos hval0, if_neg hwneg, htn, if_pos hrule]
            · rw [hsval, champOf_repr]
              rw [SubInv, dif_neg (by omega : ¬ N ≤ o), if_neg (by omega : ¬ K ≤ o)]
              rcases sibOf_or o ch hch with ⟨hch_eq, hsib_eq⟩ | ⟨hch_eq, hsib_eq⟩
              · refine ⟨some w.value.toNat, some s, ?_, ?_, ?_⟩
                · rw [← hch_eq]
                  have h := hchsub w _ hsub
                  rwa [champOf_nonneg w (by omega)] at h
                · rw [← hsib_eq]; exact hsibsub w _ hsib
                · simp only [matchInv]
                  refine Or.inr ⟨by trivial, ?_, hwins⟩
                  rw [hstored]
                  exact hwrepr
              · refine ⟨some s, some w.value.toNat, ?_, ?_, ?_⟩
                · rw [← hsib_eq]; exact hsibsub w _ hsib
                · rw [← hch_eq]
                  have h := hchsub w _ hsub
                  rwa [champOf_nonneg w (by omega)] at h
                · simp only [matchInv]
                  refine Or.inl ⟨by trivial, ?_, hwins⟩
                  rw [hstored]
                  exact hwrepr
            · intro _
              rw [hsval, reprNode_value_toNat]
              refine ⟨rfl, hsK, ?_⟩
              unfold ActiveAt
              rw [getD_set_ne nodes o (s + K) w (by omega)]
              exact hsact
            · rw [List.length_set]; exact hlen
            · intro p hp
              exact getD_set_ne nodes o p w (by omega)
            · intro ho
              exact ChainInv_frame_set wins nodes N K o w (parent o) o
                (child_of_parent o ho) (Reach.refl o) (hup ho)
          · have hwins : wins w.value.toNat s := hrules.2 hrule
            refine ⟨nodes, w, ?_, ?_, hwOK, hlen, fun p _ => rfl, fun ho => hup ho⟩
            · rw [replayStep_eq, if_pos hval0, if_neg hwneg, htn, if_neg hrule]
            · rw [champOf_nonneg w (by omega)]
              rw [SubInv, dif_neg (by omega : ¬ N ≤ o), if_neg (by omega : ¬ K ≤ o)]
              rcases sibOf_or o ch hch with ⟨hch_eq, hsib_eq⟩ | ⟨hch_eq, hsib_eq⟩
              · refine ⟨some w.value.toNat, some s, ?_, ?_, ?_⟩
                · rw [← hch_eq]
                  have h := hsub
                  rwa [champOf_nonneg w (by omega)] at h
                · rw [← hsib_eq]; exact hsib
                · simp only [matchInv]
                  exact Or.inl ⟨by trivial, hsval, hwins⟩
              · refine ⟨some s, some w.value.toNat, ?_, ?_, ?_⟩
                · rw [← hsib_eq]; exact hsib
                · rw [← hch_eq]
                  have h := hsub
                  rwa [champOf_nonneg w (by omega)] at h
                · simp only [matchInv]
                  exact Or.inr ⟨by trivial, hsval, hwins⟩
    obtain ⟨ns, nw, heq, hSo, hnwOK, hnslen, hnspres, hnschain⟩ := hstep
    by_cases ho : o = 0
    · subst ho
      rw [replayAux_succ, if_pos rfl, heq]
      exact ⟨hSo, hnwOK, hnslen, fun p hp => by rw [hnspres p hp]; exact hleaf p hp⟩
    · rw [replayAux_succ, if_neg ho, heq]
      dsimp only
      have hplt := parent_lt o ho
      refine ih (parent o) o ns nw (by omega) (by omega) hnslen ?_
        (child_of_parent o ho) hSo hnwOK (hnschain ho)
      intro p hp
      rw [hnspres p hp]
      exact hleaf p hp

/-- Cursor `a` beats cursor `b` when `a`'s head is not greater: the
comparison of `b`'s head against `a`'s head is not negative. -/
def winsLE {α ε : Type} [Inhabited α] (cmp : α → α → Int)
    (cursors : List (Cursor α ε)) (a b : Nat) : Prop :=
  ¬ cmp ((cursors.getD b default).values.headD default)
      ((cursors.getD a default).values.headD default) < 0

theorem winsLE_refl {α ε : Type} [Inhabited α] (cmp : α → α → Int)
    (hcmp : IsTotalCmp cmp) (cursors : List (Cursor α ε)) (v : Nat) :
    winsLE cmp cursors v v := by
  unfold winsLE
  have h := hcmp.flip ((cursors.getD v default).values.headD default)
    ((cursors.getD v default).values.headD default)
  omega

theorem winsLE_trans {α ε : Type} [Inhabited α] (cmp : α → α → Int)
    (hcmp : IsTotalCmp cmp) (cursors : List (Cursor α ε)) (a b c : Nat) :
    winsLE cmp cursors a b → winsLE cmp cursors b c → winsLE cmp cursors a c := by
  unfold winsLE
  intro hab hbc
  set ha := (cursors.getD a default).values.headD default with hha
  set hb := (cursors.getD b default).values.headD default with hhb
  set hc := (cursors.getD c default).values.headD default with hhc
  have h1 := hcmp.flip hb ha
  have h2 := hcmp.flip hc hb
  have h3 := hcmp.flip ha hc
  have h4 := hcmp.le_trans ha hb hc (by omega) (by omega)
  omega

theorem winsLE_set_ne {α ε : Type} [Inhabited α] (cmp : α → α → Int)
    (cursors : List (Cursor α ε)) (x : Cursor α ε) (v0 a b : Nat)
    (ha : a ≠ v0) (hb : b ≠ v0) (h : winsLE cmp cursors a b) :
    winsLE cmp (cursors.set v0 x) a b := by
  unfold winsLE at h ⊢
  rw [getD_set_ne cursors v0 a x (by omega), getD_set_ne cursors v0 b x (by omega)]
  exact h

/-- On an error-free source, `nextNonEmptyValues` reports no error, returns
a non-empty batch on success, and leaves an error-free remainder. -/
theorem nextNonEmptyValues_noerr {α ε : Type} :
    ∀ (src : List (List α × Option ε)), (∀ y ∈ src, y.2 = none) →
      ((nextNonEmptyValues src).1.2.2 = true →
        0 < (nextNonEmptyValues src).1.1.length) ∧
      (nextNonEmptyValues src).1.2.1 = none ∧
      (∀ y ∈ (nextNonEmptyValues src).2, y.2 = none) := by
  intro src
  induction src with
  | nil =>
    intro _
    refine ⟨?_, rfl, ?_⟩
    · intro h; cases h
    · intro y hy; exact absurd hy (List.not_mem_nil y)
  | cons y rest ih =>
    intro herr
    have hy2 : y.2 = none := herr y (List.mem_cons_self y rest)
    have hrest : ∀ z ∈ rest, z.2 = none := fun z hz => herr z (List.mem_cons_of_mem y hz)
    obtain ⟨y1, y2⟩ := y
    simp only at hy2
    subst hy2
    rw [show nextNonEmptyValues ((y1, (none : Option ε)) :: rest)
        = if 0 < y1.length ∨ (none : Option ε).isSome then ((y1, none, true), rest)
          else nextNonEmptyValues rest from rfl]
    by_cases h1 : 0 < y1.length
    · rw [if_pos (Or.inl h1)]
      exact ⟨fun _ => h1, rfl, hrest⟩
    · rw [if_neg (by simp [h1])]
      exact ih hrest

/-- Removing one occurrence from a duplicate-free list shortens it by
exactly one. -/
theorem length_filter_ne_of_nodup :
    ∀ (l : List Nat) (v : Nat), l.Nodup → v ∈ l →
      (l.filter (fun w => decide (w ≠ v))).length + 1 = l.length := by
  intro l
  induction l with
  | nil => intro v _ hv; exact absurd hv (List.not_mem_nil v)
  | cons a l ih =>
    intro v hnd hv
    by_cases hav : a = v
    · subst hav
      rw [List.filter_cons_of_neg (by simp)]
      have hnotin : a ∉ l := (List.nodup_cons.mp hnd).1
      rw [List.filter_eq_self.mpr ?_]
      · simp
      · intro b hb
        simp only [ne_eq, decide_eq_true_eq]
        intro hba
        subst hba
        exact hnotin hb
    · rw [List.filter_cons_of_pos (by simp [hav])]
      have hvl : v ∈ l := by
        rcases List.mem_cons.mp hv with h | h
        · exact absurd h.symm hav
        · exact h
      have := ih v (List.nodup_cons.mp hnd).2 hvl
      simp only [List.length_cons]
      omega

theorem champOf_some (w : Node) (x : Nat) (h : champOf w = some x) :
    0 ≤ w.value ∧ w.value.toNat = x := by
  unfold champOf at h
  by_cases hw : 0 ≤ w.value
  · rw [if_pos hw] at h
    exact ⟨hw, Option.some.inj h⟩
  · rw [if_neg hw] at h
    cases h

theorem nextLoop_cap {α ε : Type} [Inhabited α] (cmp : α → α → Int)
    (cap fuel : Nat) (cursors : List (Cursor α ε)) (nodes : List Node)
    (count : Nat) (winner : Node) (acc : List α) (hcap : cap ≤ acc.length) :
    nextLoop cmp cap (fuel + 1) cursors nodes count winner acc
      = ⟨cursors, nodes, count, winner, acc, none⟩ := by
  unfold nextLoop
  rw [if_pos hcap]

/-- The emit step of one `tree.next` loop iteration on the winning cursor:
pop the head if the batch is non-empty. -/
def emitCursor {α ε : Type} (c : Cursor α ε) : Cursor α ε :=
  if 0 < c.values.length then { c with values := c.values.tail } else c

/-- The output accumulator after the emit step. -/
def emitAcc {α ε : Type} [Inhabited α] (acc : List α) (c : Cursor α ε) :
    List α :=
  if 0 < c.values.length then acc ++ [c.values.headD default] else acc

/-- Rest of one `tree.next` loop iteration after the emit step, with `c` the
emitted winning cursor (already stored back into `cursors`). -/
def nextLoopAfterEmit {α ε : Type} [Inhabited α] (cmp : α → α → Int)
    (cap fuel : Nat) (cursors : List (Cursor α ε)) (nodes : List Node)
    (count : Nat) (winner : Node) (acc : List α) (c : Cursor α ε) :
    NextRes α ε :=
  if c.values.length = 0 then
    match c.err with
    | some e =>
      ⟨cursors.set winner.value.toNat { c with err := none }, nodes, count,
        winner, acc, some e⟩
    | none =>
      if (nextNonEmptyValues c.src).1.2.2 then
        nextLoop cmp cap fuel
          (cursors.set winner.value.toNat
            { c with
                values := (nextNonEmptyValues c.src).1.1
                err := (nextNonEmptyValues c.src).1.2.1
                src := (nextNonEmptyValues c.src).2 })
          (replay cmp
            (cursors.set winner.value.toNat
              { c with
                  values := (nextNonEmptyValues c.src).1.1
                  err := (nextNonEmptyValues c.src).1.2.1
                  src := (nextNonEmptyValues c.src).2 })
            nodes (parent winner.index.toNat) winner).1
          count
          (replay cmp
            (cursors.set winner.value.toNat
              { c with
                  values := (nextNonEmptyValues c.src).1.1
                  err := (nextNonEmptyValues c.src).1.2.1
                  src := (nextNonEmptyValues c.src).2 })
            nodes (parent winner.index.toNat) winner).2
          acc
      else
        if count - 1 = 0 then
          ⟨cursors.set winner.value.toNat
              { c with
                  src := (nextNonEmptyValues c.src).2
                  stops := c.stops + 1 },
            nodes.set winner.index.toNat ⟨-1, -1⟩, count - 1,
            { winner with value := -1 }, acc, none⟩
        else
          nextLoop cmp cap fuel
            (cursors.set winner.value.toNat
              { c with
                  src := (nextNonEmptyValues c.src).2
                  stops := c.stops + 1 })
            (replay cmp
              (cursors.set winner.value.toNat
                { c with
                    src := (nextNonEmptyValues c.src).2
                    stops := c.stops + 1 })
              (nodes.set winner.index.toNat ⟨-1, -1⟩)
              (parent winner.index.toNat) { winner with value := -1 }).1
            (count - 1)
            (replay cmp
              (cursors.set winner.value.toNat
                { c with
                    src := (nextNonEmptyValues c.src).2
                    stops := c.stops + 1 })
              (nodes.set winner.index.toNat ⟨-1, -1⟩)
              (parent winner.index.toNat) { winner with value := -1 }).2
            acc
  else
    nextLoop cmp cap fuel cursors
      (replay cmp cursors nodes (parent winner.index.toNat) winner).1 count
      (replay cmp cursors nodes (parent winner.index.toNat) winner).2 acc

/-- One `nextLoop` iteration factored through the emit step. -/
theorem nextLoop_succ {α ε : Type} [Inhabited α] (cmp : α → α → Int)
    (cap fuel : Nat) (cursors : List (Cursor α ε)) (nodes : List Node)
    (count : Nat) (winner : Node) (acc : List α) :
    nextLoop cmp cap (fuel + 1) cursors nodes count winner acc =
      if cap ≤ acc.length then ⟨cursors, nodes, count, winner, acc, none⟩
      else
        nextLoopAfterEmit cmp cap fuel
          (cursors.set winner.value.toNat
            (emitCursor (cursors.getD winner.value.toNat default)))
          nodes count winner
          (emitAcc acc (cursors.getD winner.value.toNat default))
          (emitCursor (cursors.getD winner.value.toNat default)) := rfl

/-- An active leaf satisfies the bracket invariant with itself as champion. -/
theorem leaf_SubInv (wins : Nat → Nat → Prop) (nodes : List Node) (N K : Nat)
    (v0 : Nat) (hv0N : v0 + K < N) (ha : ActiveAt nodes K v0) :
    SubInv wins nodes N K (v0 + K) (some v0) := by
  rw [SubInv, dif_neg (by omega : ¬ N ≤ v0 + K), if_pos (by omega : K ≤ v0 + K)]
  right
  constructor
  · rw [show v0 + K - K = v0 by omega]
    exact ha
  · rw [show v0 + K - K = v0 by omega]

/-- A vacated leaf satisfies the bracket invariant with no champion. -/
theorem leaf_SubInv_vacant (wins : Nat → Nat → Prop) (nodes : List Node)
    (N K : Nat) (p : Nat) (hp : K ≤ p) (hpN : p < N)
    (hvac : nodes.getD p default = ⟨-1, -1⟩) :
    SubInv wins nodes N K p none := by
  rw [SubInv, dif_neg (by omega : ¬ N ≤ p), if_pos hp]
  left
  exact ⟨hvac, rfl⟩

/-- From the root invariant, the chain invariant holds along the champion's
leaf-to-root path. -/
theorem root_to_chain (wins : Nat → Nat → Prop) (nodes : List Node)
    (N K : Nat) (hN2 : N = 2 * K) (hWF : LeafWF nodes N K) (v0 : Nat)
    (hv0 : v0 + K < N) (hroot : SubInv wins nodes N K 0 (some v0)) :
    ChainInv wins nodes N K (parent (v0 + K)) (v0 + K) := by
  obtain ⟨k, hk⟩ := parentIter_zero_exists (v0 + K)
  exact chain_decomp wins nodes N K hN2 hWF v0 hv0 k 0 hk hroot
    (fun h => absurd rfl h)

/-- `replay` from the changed leaf's parent re-establishes the root
invariant. -/
theorem replay_state {α ε : Type} [Inhabited α] (cmp : α → α → Int)
    (wins : Nat → Nat → Prop) (N K : Nat) (hN2 : N = 2 * K)
    (cursors : List (Cursor α ε)) (nodes : List Node)
    (hlen : nodes.length = N) (hWF : LeafWF nodes N K)
    (hro : ReplayOk cmp cursors nodes K wins)
    (v0 : Nat) (hv0K : v0 < K) (w : Node)
    (hsubleaf : SubInv wins nodes N K (v0 + K) (champOf w))
    (hwOK : 0 ≤ w.value → w = reprNode K w.value.toNat ∧ w.value.toNat < K ∧
      ActiveAt nodes K w.value.toNat) :
    ChainInv wins nodes N K (parent (v0 + K)) (v0 + K) →
    SubInv wins (replay cmp cursors nodes (parent (v0 + K)) w).1 N K 0
        (champOf (replay cmp cursors nodes (parent (v0 + K)) w).2) ∧
    (0 ≤ (replay cmp cursors nodes (parent (v0 + K)) w).2.value →
      (replay cmp cursors nodes (parent (v0 + K)) w).2
          = reprNode K (replay cmp cursors nodes (parent (v0 + K)) w).2.value.toNat ∧
      (replay cmp cursors nodes (parent (v0 + K)) w).2.value.toNat < K ∧
      ActiveAt (replay cmp cursors nodes (parent (v0 + K)) w).1 K
        (replay cmp cursors nodes (parent (v0 + K)) w).2.value.toNat) ∧
    (replay cmp cursors nodes (parent (v0 + K)) w).1.length = N ∧
    (∀ p, K ≤ p → (replay cmp cursors nodes (parent (v0 + K)) w).1.getD p default
      = nodes.getD p default) := by
  intro hci
  have hpK : parent (v0 + K) < K := by
    unfold parent
    omega
  exact replayAux_spec cmp cursors wins N K hN2 nodes hWF hro
    (parent (v0 + K) + 1) (parent (v0 + K)) (v0 + K) nodes w
    (by omega) hpK hlen (fun p _ => rfl)
    (child_of_parent (v0 + K) (by omega)) hsubleaf hwOK hci

/-- Loop-state invariant of `tree.next`, parametric in a cursor-indexed win
relation family `W` and a cursor/leaf invariant `CI`. -/
@[reducible]
def StateInv {α ε : Type} [Inhabited α]
    (W : List (Cursor α ε) → Nat → Nat → Prop)
    (CI : List (Cursor α ε) → List Node → Prop) (K N : Nat)
    (cursors : List (Cursor α ε)) (nodes : List Node) (count : Nat)
    (winner : Node) : Prop :=
  cursors.length = K ∧ nodes.length = N ∧ LeafWF nodes N K ∧
  count = (collectLeaves nodes N K 0).length ∧
  CI cursors nodes ∧
  (0 < count → ∃ v0, v0 < K ∧ winner = reprNode K v0 ∧
    SubInv (W cursors) nodes N K 0 (some v0)) ∧
  (count = 0 → winner.value = -1)

theorem nextLoopAfterEmit_keep {α ε : Type} [Inhabited α] (cmp : α → α → Int)
    (cap fuel : Nat) (cursors : List (Cursor α ε)) (nodes : List Node)
    (count : Nat) (winner : Node) (acc : List α) (c : Cursor α ε)
    (hl0 : ¬ c.values.length = 0) :
    nextLoopAfterEmit cmp cap fuel cursors nodes count winner acc c =
      nextLoop cmp cap fuel cursors
        (replay cmp cursors nodes (parent winner.index.toNat) winner).1 count
        (replay cmp cursors nodes (parent winner.index.toNat) winner).2 acc := by
  unfold nextLoopAfterEmit
  rw [if_neg hl0]

theorem nextLoopAfterEmit_err {α ε : Type} [Inhabited α] (cmp : α → α → Int)
    (cap fuel : Nat) (cursors : List (Cursor α ε)) (nodes : List Node)
    (count : Nat) (winner : Node) (acc : List α) (c : Cursor α ε)
    (hl0 : c.values.length = 0) (e : ε) (herr : c.err = some e) :
    nextLoopAfterEmit cmp cap fuel cursors nodes count winner acc c =
      ⟨cursors.set winner.value.toNat { c with err := none }, nodes, count,
        winner, acc, some e⟩ := by
  unfold nextLoopAfterEmit
  rw [if_pos hl0]
  simp only [herr]

theorem nextLoopAfterEmit_refill {α ε : Type} [Inhabited α] (cmp : α → α → Int)
    (cap fuel : Nat) (cursors : List (Cursor α ε)) (nodes : List Node)
    (count : Nat) (winner : Node) (acc : List α) (c : Cursor α ε)
    (hl0 : c.values.length = 0) (herr : c.err = none)
    (hok : (nextNonEmptyValues c.src).1.2.2 = true) :
    nextLoopAfterEmit cmp cap fuel cursors nodes count winner acc c =
      nextLoop cmp cap fuel
        (cursors.set winner.value.toNat
          { c with
              values := (nextNonEmptyValues c.src).1.1
              err := (nextNonEmptyValues c.src).1.2.1
              src := (nextNonEmptyValues c.src).2 })
        (replay cmp
          (cursors.set winner.value.toNat
            { c with
                values := (nextNonEmptyValues c.src).1.1
                err := (nextNonEmptyValues c.src).1.2.1
                src := (nextNonEmptyValues c.src).2 })
          nodes (parent winner.index.toNat) winner).1
        count
        (replay cmp
          (cursors.set winner.value.toNat
            { c with
                values := (nextNonEmptyValues c.src).1.1
                err := (nextNonEmptyValues c.src).1.2.1
                src := (nextNonEmptyValues c.src).2 })
          nodes (parent winner.index.toNat) winner).2
        acc := by
  unfold nextLoopAfterEmit
  rw [if_pos hl0]
  simp only [herr]
  rw [if_pos hok]

theorem nextLoopAfterEmit_retire {α ε : Type} [Inhabited α] (cmp : α → α → Int)
    (cap fuel : Nat) (cursors : List (Cursor α ε)) (nodes : List Node)
    (count : Nat) (winner : Node) (acc : List α) (c : Cursor α ε)
    (hl0 : c.values.length = 0) (herr : c.err = none)
    (hok : (nextNonEmptyValues c.src).1.2.2 = false) :
    nextLoopAfterEmit cmp cap fuel cursors nodes count winner acc c =
      if count - 1 = 0 then
        ⟨cursors.set winner.value.toNat
            { c with
                src := (nextNonEmptyValues c.src).2
                stops := c.stops + 1 },
          nodes.set winner.index.toNat ⟨-1, -1⟩, count - 1,
          { winner with value := -1 }, acc, none⟩
      else
        nextLoop cmp cap fuel
          (cursors.set winner.value.toNat
            { c with
                src := (nextNonEmptyValues c.src).2
                stops := c.stops + 1 })
          (replay cmp
            (cursors.set winner.value.toNat
              { c with
                  src := (nextNonEmptyValues c.src).2
                  stops := c.stops + 1 })
            (nodes.set winner.index.toNat ⟨-1, -1⟩)
            (parent winner.index.toNat) { winner with value := -1 }).1
          (count - 1)
          (replay cmp
            (cursors.set winner.value.toNat
              { c with
                  src := (nextNonEmptyValues c.src).2
                  stops := c.stops + 1 })
            (nodes.set winner.index.toNat ⟨-1, -1⟩)
            (parent winner.index.toNat) { winner with value := -1 }).2
          acc := by
  unfold nextLoopAfterEmit
  rw [if_pos hl0]
  simp only [herr]
  rw [if_neg (by simp [hok])]

theorem emitCursor_err {α ε : Type} (c : Cursor α ε) :
    (emitCursor c).err = c.err := by
  unfold emitCursor
  split <;> rfl

theorem emitCursor_form {α ε : Type} (c : Cursor α ε) :
    (0 < c.values.length ∧
      emitCursor c = { c with values := c.values.tail }) ∨
    (c.values.length = 0 ∧ emitCursor c = c) := by
  unfold emitCursor
  by_cases h : 0 < c.values.length
  · rw [if_pos h]
    exact Or.inl ⟨h, rfl⟩
  · rw [if_neg h]
    exact Or.inr ⟨by omega, rfl⟩

/-- After one replay, the loop state again satisfies the invariant. -/
theorem nextLoop_preserves_step {α ε : Type} [Inhabited α] (cmp : α → α → Int)
    (K N : Nat) (hN2 : N = 2 * K)
    (W : List (Cursor α ε) → Nat → Nat → Prop)
    (CI : List (Cursor α ε) → List Node → Prop)
    (Hcongr : ∀ (cursors : List (Cursor α ε)) (nodes nodes' : List Node),
      (∀ p, K ≤ p → nodes'.getD p default = nodes.getD p default) →
      CI cursors nodes → CI cursors nodes')
    (cursors : List (Cursor α ε)) (nodes : List Node) (count : Nat) (w : Node)
    (hcl : cursors.length = K) (hlen : nodes.length = N)
    (hWF : LeafWF nodes N K)
    (hcnt : count = (collectLeaves nodes N K 0).length)
    (hcpos : 0 < count)
    (hCI : CI cursors nodes)
    (hro : ReplayOk cmp cursors nodes K (W cursors))
    (v0 : Nat) (hv0K : v0 < K)
    (hsubleaf : SubInv (W cursors) nodes N K (v0 + K) (champOf w))
    (hwOK : 0 ≤ w.value → w = reprNode K w.value.toNat ∧ w.value.toNat < K ∧
      ActiveAt nodes K w.value.toNat)
    (hci : ChainInv (W cursors) nodes N K (parent (v0 + K)) (v0 + K)) :
    StateInv W CI K N cursors
      (replay cmp cursors nodes (parent (v0 + K)) w).1 count
      (replay cmp cursors nodes (parent (v0 + K)) w).2 := by
  obtain ⟨hroot, hw2, hlenr, hpres⟩ := replay_state cmp (W cursors) N K hN2
    cursors nodes hlen hWF hro v0 hv0K w hsubleaf hwOK hci
  have hcongr0 := collectLeaves_congr nodes
    (replay cmp cursors nodes (parent (v0 + K)) w).1 N K
    (fun p hp _ => hpres p hp) 0
  refine ⟨hcl, hlenr, ?_, ?_, ?_, ?_, ?_⟩
  · intro p hp hpN
    rw [hpres p hp]
    exact hWF p hp hpN
  · rw [hcongr0]
    exact hcnt
  · exact Hcongr cursors nodes _ hpres hCI
  · intro _
    rcases hx : champOf (replay cmp cursors nodes (parent (v0 + K)) w).2 with _ | x
    · exfalso
      have h0 := SubInv_champ_none (W cursors) _ N K 0 (hx ▸ hroot)
      rw [← hcongr0, h0] at hcnt
      simp only [List.length_nil] at hcnt
      omega
    · obtain ⟨hge, htn⟩ := champOf_some _ x hx
      obtain ⟨hrepr, hK, _⟩ := hw2 hge
      refine ⟨x, by omega, ?_, ?_⟩
      · rw [hrepr, htn]
      · rw [hx] at hroot
        exact hroot
  · intro h0
    exact absurd h0 (by omega)

/-- Main preservation lemma for the loop of `tree.next`: the loop-state
invariant is preserved by any number of iterations, for any win-relation
family `W` and cursor invariant `CI` closed under the loop's cursor
updates. -/
theorem nextLoop_preserves {α ε : Type} [Inhabited α] (cmp : α → α → Int)
    (K N : Nat) (hN2 : N = 2 * K)
    (W : List (Cursor α ε) → Nat → Nat → Prop)
    (CI : List (Cursor α ε) → List Node → Prop)
    (HmonoW : ∀ (cursors : List (Cursor α ε)) (x : Cursor α ε) (v0 a b : Nat),
      a ≠ v0 → b ≠ v0 → W cursors a b → W (cursors.set v0 x) a b)
    (HRO : ∀ (cursors : List (Cursor α ε)) (nodes : List Node),
      nodes.length = N → LeafWF nodes N K → CI cursors nodes →
      ReplayOk cmp cursors nodes K (W cursors))
    (Hcongr : ∀ (cursors : List (Cursor α ε)) (nodes nodes' : List Node),
      (∀ p, K ≤ p → nodes'.getD p default = nodes.getD p default) →
      CI cursors nodes → CI cursors nodes')
    (Hkeep : ∀ (cursors : List (Cursor α ε)) (nodes : List Node) (v0 : Nat),
      CI cursors nodes → v0 < K → ActiveAt nodes K v0 →
      0 < (cursors.getD v0 default).values.length →
      0 < (cursors.getD v0 default).values.tail.length →
      CI (cursors.set v0 { cursors.getD v0 default with
        values := (cursors.getD v0 default).values.tail }) nodes)
    (Hrefill : ∀ (cursors : List (Cursor α ε)) (nodes : List Node) (v0 : Nat)
      (c1 : Cursor α ε), CI cursors nodes → v0 < K → ActiveAt nodes K v0 →
      (c1 = cursors.getD v0 default ∨
        c1 = { cursors.getD v0 default with
          values := (cursors.getD v0 default).values.tail }) →
      c1.values.length = 0 → c1.err = none →
      (nextNonEmptyValues c1.src).1.2.2 = true →
      CI (cursors.set v0 { c1 with
        values := (nextNonEmptyValues c1.src).1.1
        err := (nextNonEmptyValues c1.src).1.2.1
        src := (nextNonEmptyValues c1.src).2 }) nodes)
    (Hretire : ∀ (cursors : List (Cursor α ε)) (nodes : List Node) (v0 : Nat)
      (c1 : Cursor α ε), CI cursors nodes → v0 < K → cursors.length = K →
      nodes.length = N →
      ActiveAt nodes K v0 →
      (c1 = cursors.getD v0 default ∨
        c1 = { cursors.getD v0 default with
          values := (cursors.getD v0 default).values.tail }) →
      c1.values.length = 0 → c1.err = none →
      (nextNonEmptyValues c1.src).1.2.2 = false →
      CI (cursors.set v0 { c1 with
        src := (nextNonEmptyValues c1.src).2
        stops := c1.stops + 1 }) (nodes.set (v0 + K) ⟨-1, -1⟩))
    (Herr : ∀ (cursors : List (Cursor α ε)) (nodes : List Node) (v0 : Nat)
      (c1 : Cursor α ε) (e : ε), CI cursors nodes → v0 < K →
      ActiveAt nodes K v0 →
      (c1 = cursors.getD v0 default ∨
        c1 = { cursors.getD v0 default with
          values := (cursors.getD v0 default).values.tail }) →
      c1.values.length = 0 → c1.err = some e →
      CI (cursors.set v0 { c1 with err := none }) nodes ∧
      ∀ a b, W cursors a b → W (cursors.set v0 { c1 with err := none }) a b) :
    ∀ (fuel : Nat), ∀ (cap : Nat) (cursors : List (Cursor α ε))
      (nodes : List Node) (count : Nat) (winner : Node) (acc : List α),
      StateInv W CI K N cursors nodes count winner → 0 < count →
      StateInv W CI K N
        (nextLoop cmp cap fuel cursors nodes count winner acc).cursors
        (nextLoop cmp cap fuel cursors nodes count winner acc).nodes
        (nextLoop cmp cap fuel cursors nodes count winner acc).count
        (nextLoop cmp cap fuel cursors nodes count winner acc).winner := by
  intro fuel
  induction fuel with
  | zero =>
    intro cap cursors nodes count winner acc hSI _
    exact hSI
  | succ fuel ih =>
    intro cap cursors nodes count winner acc hSI hcount
    obtain ⟨hcl, hnl, hWF, hcnt, hCI, hwin, hzero⟩ := hSI
    obtain ⟨v0, hv0K, hwv, hsub⟩ := hwin hcount
    subst hwv
    rw [nextLoop_succ]
    by_cases hcap : cap ≤ acc.length
    · rw [if_pos hcap]
      exact ⟨hcl, hnl, hWF, hcnt, hCI, fun _ => ⟨v0, hv0K, rfl, hsub⟩, hzero⟩
    · rw [if_neg hcap]
      have hvt : (reprNode K v0).value.toNat = v0 := reprNode_value_toNat K v0
      have hit : (reprNode K v0).index.toNat = v0 + K := by
        simp only [reprNode]
        omega
      rw [hvt]
      have hmem := SubInv_champ_mem (W cursors) nodes N K 0 (some v0) hsub v0 rfl
      obtain ⟨_, hv0N, hactive⟩ := mem_collectLeaves_reach nodes N K hWF 0 v0 hmem
      have hwOKr : 0 ≤ (reprNode K v0).value →
          reprNode K v0 = reprNode K (reprNode K v0).value.toNat ∧
          (reprNode K v0).value.toNat < K ∧
          ActiveAt nodes K (reprNode K v0).value.toNat :=
        fun _ => ⟨by rw [hvt], by rw [hvt]; exact hv0K, by rw [hvt]; exact hactive⟩
      have hchain0 : ChainInv (W cursors) nodes N K (parent (v0 + K)) (v0 + K) :=
        root_to_chain (W cursors) nodes N K hN2 hWF v0 hv0N hsub
      have hchainX : ∀ x : Cursor α ε,
          ChainInv (W (cursors.set v0 x)) nodes N K (parent (v0 + K)) (v0 + K) :=
        fun x => ChainInv_mono (W cursors) (W (cursors.set v0 x)) nodes N K hWF v0
          (fun a b ha hb => HmonoW cursors x v0 a b ha hb)
          (parent (v0 + K)) (v0 + K) (child_of_parent _ (by omega)) ⟨0, rfl⟩
          hchain0
      have hchainV : ∀ x : Cursor α ε,
          ChainInv (W (cursors.set v0 x)) (nodes.set (v0 + K) ⟨-1, -1⟩) N K
            (parent (v0 + K)) (v0 + K) :=
        fun x => ChainInv_frame_set (W (cursors.set v0 x)) nodes N K (v0 + K)
          ⟨-1, -1⟩ (parent (v0 + K)) (v0 + K) (child_of_parent _ (by omega))
          ⟨0, rfl⟩ (hchainX x)
      have hecd : emitCursor (cursors.getD v0 default) = cursors.getD v0 default ∨
          emitCursor (cursors.getD v0 default)
            = { cursors.getD v0 default with
                values := (cursors.getD v0 default).values.tail } := by
        rcases emitCursor_form (cursors.getD v0 default) with ⟨_, h⟩ | ⟨_, h⟩
        · exact Or.inr h
        · exact Or.inl h
      by_cases hl0 : (emitCursor (cursors.getD v0 default)).values.length = 0
      · cases hcase : (emitCursor (cursors.getD v0 default)).err with
        | some e =>
          rw [nextLoopAfterEmit_err cmp cap fuel _ nodes count _ _ _ hl0 e hcase]
          rw [hvt, List.set_set]
          obtain ⟨hCIe, hWe⟩ := Herr cursors nodes v0 _ e hCI hv0K hactive hecd hl0 hcase
          refine ⟨?_, hnl, hWF, hcnt, hCIe, ?_, hzero⟩
          · rw [List.length_set]
            exact hcl
          · intro _
            exact ⟨v0, hv0K, rfl, SubInv_mono (W cursors) _ nodes N K 0 (some v0)
              (fun a b _ _ => hWe a b) hsub⟩
        | none =>
          by_cases hok : (nextNonEmptyValues
              (emitCursor (cursors.getD v0 default)).src).1.2.2 = true
          · rw [nextLoopAfterEmit_refill cmp cap fuel _ nodes count _ _ _ hl0 hcase hok]
            rw [hvt, hit, List.set_set]
            have hCI2 := Hrefill cursors nodes v0 _ hCI hv0K hactive hecd hl0 hcase hok
            refine ih cap _ _ count _ _
              (nextLoop_preserves_step cmp K N hN2 W CI Hcongr _ nodes count _
                (by rw [List.length_set]; exact hcl) hnl hWF hcnt hcount hCI2
                (HRO _ nodes hnl hWF hCI2) v0 hv0K ?_ hwOKr (hchainX _)) hcount
            rw [champOf_repr]
            exact leaf_SubInv _ nodes N K v0 hv0N hactive
          · rw [nextLoopAfterEmit_retire cmp cap fuel _ nodes count _ _ _ hl0 hcase
              (by revert hok; cases (nextNonEmptyValues
                (emitCursor (cursors.getD v0 default)).src).1.2.2 <;> simp)]
            rw [hvt, hit, List.set_set]
            have hCI2 := Hretire cursors nodes v0 _ hCI hv0K hcl hnl hactive hecd hl0 hcase
              (by revert hok; cases (nextNonEmptyValues
                (emitCursor (cursors.getD v0 default)).src).1.2.2 <;> simp)
            have hWF2 : LeafWF (nodes.set (v0 + K) ⟨-1, -1⟩) N K := by
              intro p hp hpN
              by_cases hpv : v0 + K = p
              · rw [← hpv, getD_set_self nodes _ _ (by omega)]
                right
                rfl
              · rw [getD_set_ne nodes _ _ _ hpv]
                exact hWF p hp hpN
            have hlen2 : (nodes.set (v0 + K) (⟨-1, -1⟩ : Node)).length = N := by
              rw [List.length_set]
              exact hnl
            have hcnt2 : count - 1
                = (collectLeaves (nodes.set (v0 + K) ⟨-1, -1⟩) N K 0).length := by
              rw [collectLeaves_vacate nodes N K hWF v0 hnl hv0N 0]
              have hnd := collectLeaves_nodup nodes N K hWF 0
              have hfl := length_filter_ne_of_nodup (collectLeaves nodes N K 0) v0 hnd hmem
              omega
            by_cases hct : count - 1 = 0
            · rw [if_pos hct]
              dsimp only
              refine ⟨?_, hlen2, hWF2, ?_, hCI2, ?_, ?_⟩
              · rw [List.length_set]
                exact hcl
              · exact hcnt2
              · intro h0
                exact absurd h0 (by omega)
              · intro _
                rfl
            · rw [if_neg hct]
              refine ih cap _ _ (count - 1) _ _
                (nextLoop_preserves_step cmp K N hN2 W CI Hcongr _ _ (count - 1) _
                  (by rw [List.length_set]; exact hcl) hlen2 hWF2 hcnt2 (by omega) hCI2
                  (HRO _ _ hlen2 hWF2 hCI2) v0 hv0K ?_ ?_ (hchainV _)) (by omega)
              · rw [champOf_neg _ (by show (-1 : Int) < 0; decide)]
                exact leaf_SubInv_vacant _ _ N K (v0 + K) (by omega) (by omega)
                  (getD_set_self nodes _ _ (by omega))
              · intro h
                exact absurd h (by show ¬ (0 : Int) ≤ -1; decide)
      · rw [nextLoopAfterEmit_keep cmp cap fuel _ nodes count _ _ _ hl0]
        rw [hit]
        have hem : 0 < (cursors.getD v0 default).values.length := by
          rcases emitCursor_form (cursors.getD v0 default) with ⟨h1, _⟩ | ⟨h1, h2⟩
          · exact h1
          · exact absurd (by rw [h2]; exact h1) hl0
        have hecform : emitCursor (cursors.getD v0 default)
            = { cursors.getD v0 default with
                values := (cursors.getD v0 default).values.tail } := by
          rcases emitCursor_form (cursors.getD v0 default) with ⟨_, h2⟩ | ⟨h1, _⟩
          · exact h2
          · exact absurd h1 (by omega)
        have htail : 0 < (cursors.getD v0 default).values.tail.length := by
          rw [hecform] at hl0
          simp only [List.length_tail] at hl0 ⊢
          omega
        have hCI2 : CI (cursors.set v0 (emitCursor (cursors.getD v0 default))) nodes := by
          rw [hecform]
          exact Hkeep cursors nodes v0 hCI hv0K hactive hem htail
        refine ih cap _ _ count _ _
          (nextLoop_preserves_step cmp K N hN2 W CI Hcongr _ nodes count _
            (by rw [List.length_set]; exact hcl) hnl hWF hcnt hcount hCI2
            (HRO _ nodes hnl hWF hCI2) v0 hv0K ?_ hwOKr (hchainX _)) hcount
        rw [champOf_repr]
        exact leaf_SubInv _ nodes N K v0 hv0N hactive

theorem getD_map_lt {β γ : Type} [Inhabited γ] (f : β → γ) (l : List β)
    (d : β) (i : Nat) (h : i < l.length) :
    (l.map f).getD i default = f (l.getD i d) := by
  induction l generalizing i with
  | nil => simp at h
  | cons a l ih =>
    cases i with
    | zero => rfl
    | succ i => exact ih i (by simpa using h)

theorem makeTree_cursors_length {α ε : Type}
    (seqs : List (List (List α × Option ε))) :
    (makeTree (α := α) (ε := ε) seqs).cursors.length = seqs.length := by
  unfold makeTree
  simp

theorem makeTree_nodes_length {α ε : Type}
    (seqs : List (List (List α × Option ε))) :
    (makeTree (α := α) (ε := ε) seqs).nodes.length = 2 * seqs.length := by
  unfold makeTree
  simp only [List.length_append, List.length_replicate, List.length_map,
    List.length_range]
  omega

theorem makeTree_cursors_getD {α ε : Type}
    (seqs : List (List (List α × Option ε))) (i : Nat) (h : i < seqs.length) :
    (makeTree (α := α) (ε := ε) seqs).cursors.getD i default
      = ⟨[], none, seqs.getD i [], 0⟩ := by
  unfold makeTree
  exact getD_map_lt _ seqs [] i h

theorem makeTree_nodes_internal {α ε : Type}
    (seqs : List (List (List α × Option ε))) (q : Nat) (h : q < seqs.length) :
    (makeTree (α := α) (ε := ε) seqs).nodes.getD q default = ⟨-1, -1⟩ := by
  unfold makeTree
  rw [List.getD_eq_getElem?_getD, List.getElem?_append_left
    (by simp only [List.length_replicate]; omega :
      q < (List.replicate seqs.length (⟨-1, -1⟩ : Node)).length)]
  rw [List.getElem?_replicate]
  simp [h]

theorem makeTree_nodes_leaf {α ε : Type}
    (seqs : List (List (List α × Option ε))) (i : Nat) (h : i < seqs.length) :
    (makeTree (α := α) (ε := ε) seqs).nodes.getD (i + seqs.length) default
      = reprNode seqs.length i := by
  unfold makeTree
  rw [List.getD_eq_getElem?_getD, List.getElem?_append_right
    (by simp only [List.length_replicate]; omega :
      (List.replicate seqs.length (⟨-1, -1⟩ : Node)).length ≤ i + seqs.length)]
  simp only [List.length_replicate]
  rw [show i + seqs.length - seqs.length = i by omega]
  rw [List.getElem?_map, List.getElem?_range h]
  rfl

theorem makeTree_winner {α ε : Type}
    (seqs : List (List (List α × Option ε))) :
    (makeTree (α := α) (ε := ε) seqs).winner = ⟨-1, -1⟩ := rfl

theorem makeTree_count {α ε : Type}
    (seqs : List (List (List α × Option ε))) :
    (makeTree (α := α) (ε := ε) seqs).count = seqs.length := rfl

theorem initialPullStep_load {α ε : Type} (t : Tree α ε) (i : Nat)
    (hok : (nextNonEmptyValues (t.cursors.getD i default).src).1.2.2 = true) :
    initialPullStep t i
      = { t with
          cursors := t.cursors.set i
            { t.cursors.getD i default with
                values := (nextNonEmptyValues (t.cursors.getD i default).src).1.1
                err := (nextNonEmptyValues (t.cursors.getD i default).src).1.2.1
                src := (nextNonEmptyValues (t.cursors.getD i default).src).2 } } := by
  simp only [initialPullStep]
  rw [if_pos hok]

theorem initialPullStep_fail {α ε : Type} (t : Tree α ε) (i : Nat)
    (hok : (nextNonEmptyValues (t.cursors.getD i default).src).1.2.2 = false) :
    initialPullStep t i
      = { t with
          cursors := t.cursors.set i
            { t.cursors.getD i default with
                src := (nextNonEmptyValues (t.cursors.getD i default).src).2
                stops := (t.cursors.getD i default).stops + 1 }
          nodes := t.nodes.set (i + t.cursors.length) ⟨-1, -1⟩
          count := t.count - 1 } := by
  simp only [initialPullStep]
  rw [if_neg (by simp only [Bool.not_eq_true]; exact hok)]

/-- Pointwise description of cursor `i` after the initial pull loop of
`tree.next` has processed it. -/
@[reducible]
def PulledAt {α ε : Type} (seqs : List (List (List α × Option ε))) (K : Nat)
    (t : Tree α ε) (i : Nat) : Prop :=
  ((nextNonEmptyValues (seqs.getD i [])).1.2.2 = true ∧
    t.cursors.getD i default
      = ⟨(nextNonEmptyValues (seqs.getD i [])).1.1,
          (nextNonEmptyValues (seqs.getD i [])).1.2.1,
          (nextNonEmptyValues (seqs.getD i [])).2, 0⟩ ∧
    ActiveAt t.nodes K i) ∨
  ((nextNonEmptyValues (seqs.getD i [])).1.2.2 = false ∧
    t.cursors.getD i default
      = ⟨[], none, (nextNonEmptyValues (seqs.getD i [])).2, 1⟩ ∧
    t.nodes.getD (i + K) default = ⟨-1, -1⟩)

/-- Structural state invariant shared by the phases of `tree.next` before
the bracket is built. -/
@[reducible]
def PullInv {α ε : Type} (K : Nat) (t : Tree α ε) : Prop :=
  t.cursors.length = K ∧ t.nodes.length = 2 * K ∧
  (∀ q, q < K → t.nodes.getD q default = ⟨-1, -1⟩) ∧
  LeafWF t.nodes (2 * K) K ∧
  t.count = (collectLeaves t.nodes (2 * K) K 0).length ∧
  t.winner = ⟨-1, -1⟩

theorem initialPullGo_spec {α ε : Type} (K : Nat)
    (seqs : List (List (List α × Option ε))) :
    ∀ (n m : Nat), m + n = K → ∀ (t : Tree α ε),
      PullInv K t →
      (∀ i, m ≤ i → i < K →
        t.cursors.getD i default = ⟨[], none, seqs.getD i [], 0⟩ ∧
        ActiveAt t.nodes K i) →
      (∀ i, i < m → PulledAt seqs K t i) →
      PullInv K (initialPullGo t (List.range' m n)) ∧
      (∀ i, i < K → PulledAt seqs K (initialPullGo t (List.range' m n)) i) := by
  intro n
  induction n with
  | zero =>
    intro m hm t hPI hun hdone
    exact ⟨hPI, fun i hi => hdone i (by omega)⟩
  | succ n ih =>
    intro m hm t hPI hun hdone
    obtain ⟨hcl, hnl, hint, hWF, hcnt, hwin⟩ := hPI
    obtain ⟨hcm, ham⟩ := hun m (by omega) (by omega)
    have hsrc : (t.cursors.getD m default).src = seqs.getD m [] := by
      rw [hcm]
    rw [List.range'_succ]
    show PullInv K (initialPullGo (initialPullStep t m) (List.range' (m + 1) n)) ∧
      (∀ i, i < K →
        PulledAt seqs K (initialPullGo (initialPullStep t m) (List.range' (m + 1) n)) i)
    by_cases hok : (nextNonEmptyValues (t.cursors.getD m default).src).1.2.2 = true
    · rw [initialPullStep_load t m hok]
      rw [hsrc] at hok
      refine ih (m + 1) (by omega) _ ?_ ?_ ?_
      · exact ⟨by simp only [List.length_set]; exact hcl, hnl, hint, hWF, hcnt, hwin⟩
      · intro i hi1 hi2
        refine ⟨?_, hun i (by omega) hi2 |>.2⟩
        simp only
        rw [getD_set_ne t.cursors m i _ (by omega)]
        exact (hun i (by omega) hi2).1
      · intro i hi
        by_cases him : i = m
        · subst him
          refine Or.inl ⟨hok, ?_, ham⟩
          simp only
          rw [getD_set_self t.cursors i _ (by omega), hcm]
        · have hp := hdone i (by omega)
          unfold PulledAt at hp ⊢
          simp only
          rw [getD_set_ne t.cursors m i _ (by omega)]
          exact hp
    · have hok2 : (nextNonEmptyValues (t.cursors.getD m default).src).1.2.2 = false := by
        revert hok
        cases (nextNonEmptyValues (t.cursors.getD m default).src).1.2.2 <;> simp
      rw [initialPullStep_fail t m hok2]
      rw [hsrc] at hok2
      have hmK : m + K < 2 * K := by omega
      have hWF2 : LeafWF (t.nodes.set (m + K) ⟨-1, -1⟩) (2 * K) K := by
        intro p hp hpN
        by_cases hpv : m + K = p
        · rw [← hpv, getD_set_self t.nodes _ _ (by omega)]
          right
          rfl
        · rw [getD_set_ne t.nodes _ _ _ hpv]
          exact hWF p hp hpN
      have hmmem : m ∈ collectLeaves t.nodes (2 * K) K 0 :=
        active_mem_root t.nodes (2 * K) K rfl m (by omega) ham
      refine ih (m + 1) (by omega) _ ?_ ?_ ?_
      · refine ⟨?_, ?_, ?_, ?_, ?_, hwin⟩
        · simp only [List.length_set]
          exact hcl
        · simp only [List.length_set]
          exact hnl
        · intro q hq
          simp only
          rw [getD_set_ne t.nodes _ _ _ (by omega)]
          exact hint q hq
        · simp only [hcl]
          exact hWF2
        · simp only [hcl]
          rw [collectLeaves_vacate t.nodes (2 * K) K hWF m hnl (by omega) 0]
          have hnd := collectLeaves_nodup t.nodes (2 * K) K hWF 0
          have hfl := length_filter_ne_of_nodup _ m hnd hmmem
          omega
      · intro i hi1 hi2
        obtain ⟨hci, hai⟩ := hun i (by omega) hi2
        refine ⟨?_, ?_⟩
        · simp only
          rw [getD_set_ne t.cursors m i _ (by omega)]
          exact hci
        · unfold ActiveAt at hai ⊢
          simp only [hcl]
          rw [getD_set_ne t.nodes _ _ _ (by omega)]
          exact hai
      · intro i hi
        by_cases him : i = m
        · subst him
          refine Or.inr ⟨hok2, ?_, ?_⟩
          · simp only
            rw [getD_set_self t.cursors i _ (by omega), hcm]
          · simp only [hcl]
            rw [getD_set_self t.nodes _ _ (by omega)]
        · have hp := hdone i (by omega)
          unfold PulledAt at hp ⊢
          simp only [hcl]
          rw [getD_set_ne t.cursors m i _ (by omega),
            getD_set_ne t.nodes _ _ _ (by omega)]
          rcases hp with ⟨h1, h2, h3⟩ | ⟨h1, h2, h3⟩
          · refine Or.inl ⟨h1, h2, ?_⟩
            unfold ActiveAt at h3 ⊢
            rw [getD_set_ne t.nodes _ _ _ (by omega)]
            exact h3
          · exact Or.inr ⟨h1, h2, h3⟩

/-- A tree whose leaves are all active collects every cursor exactly once. -/
theorem collect_length_all_active (nodes : List Node) (N K : Nat)
    (hN2 : N = 2 * K) (hWF : LeafWF nodes N K)
    (hall : ∀ i, i < K → ActiveAt nodes K i) :
    (collectLeaves nodes N K 0).length = K := by
  have h1 : collectLeaves nodes N K 0 ⊆ List.range K := by
    intro v hv
    obtain ⟨_, hb, _⟩ := mem_collectLeaves_reach nodes N K hWF 0 v hv
    exact List.mem_range.mpr (by omega)
  have h2 : List.range K ⊆ collectLeaves nodes N K 0 := by
    intro v hv
    have hvK := List.mem_range.mp hv
    exact active_mem_root nodes N K hN2 v (by omega) (hall v hvK)
  have hnd := collectLeaves_nodup nodes N K hWF 0
  have hle1 := (List.subperm_of_subset hnd h1).length_le
  have hle2 := (List.subperm_of_subset (List.nodup_range K) h2).length_le
  simp only [List.length_range] at hle1 hle2
  omega

/-- The initial pull loop, described pointwise from `makeTree`. -/
theorem initialPull_spec {α ε : Type} (seqs : List (List (List α × Option ε))) :
    PullInv seqs.length (initialPull (makeTree (α := α) (ε := ε) seqs)) ∧
    (∀ i, i < seqs.length →
      PulledAt seqs seqs.length (initialPull (makeTree (α := α) (ε := ε) seqs)) i) := by
  have hallact : ∀ i, i < seqs.length →
      ActiveAt (makeTree (α := α) (ε := ε) seqs).nodes seqs.length i := by
    intro i hi
    unfold ActiveAt
    exact makeTree_nodes_leaf seqs i hi
  have hWF0 : LeafWF (makeTree (α := α) (ε := ε) seqs).nodes
      (2 * seqs.length) seqs.length := by
    intro p hp hpN
    left
    have hpi : p = (p - seqs.length) + seqs.length := by omega
    rw [hpi, makeTree_nodes_leaf seqs _ (by omega)]
    rw [show p - seqs.length + seqs.length - seqs.length = p - seqs.length by omega]
  have h0 : PullInv seqs.length (makeTree (α := α) (ε := ε) seqs) := by
    refine ⟨makeTree_cursors_length seqs, makeTree_nodes_length seqs, ?_, hWF0, ?_,
      makeTree_winner seqs⟩
    · intro q hq
      exact makeTree_nodes_internal seqs q hq
    · rw [makeTree_count,
        collect_length_all_active _ (2 * seqs.length) seqs.length rfl hWF0 hallact]
  have hrange : initialPull (makeTree (α := α) (ε := ε) seqs)
      = initialPullGo (makeTree (α := α) (ε := ε) seqs)
          (List.range' 0 seqs.length) := by
    unfold initialPull
    rw [makeTree_cursors_length seqs, List.range_eq_range']
  rw [hrange]
  refine initialPullGo_spec seqs.length seqs seqs.length 0 (by omega) _ h0 ?_ ?_
  · intro i _ hi
    exact ⟨makeTree_cursors_getD seqs i hi, hallact i hi⟩
  · intro i hi
    exact absurd hi (by omega)

/-- A built tree state: the loop invariant holds of the fields, and a
non-exhausted tree has a non-vacant winner index (so later calls take the
already-built path). -/
@[reducible]
def TreeOk {α ε : Type} [Inhabited α] (W : List (Cursor α ε) → Nat → Nat → Prop)
    (CI : List (Cursor α ε) → List Node → Prop) (K : Nat) (t : Tree α ε) : Prop :=
  StateInv W CI K (2 * K) t.cursors t.nodes t.count t.winner ∧
  (0 < t.count → 0 ≤ t.winner.index)

/-- Bundle of closure hypotheses on the win-relation family `W` and the
cursor invariant `CI` under which `tree.next` preserves the tree
invariant. -/
structure MergeHyps {α ε : Type} [Inhabited α] (cmp : α → α → Int) (K : Nat)
    (seqs : List (List (List α × Option ε)))
    (W : List (Cursor α ε) → Nat → Nat → Prop)
    (CI : List (Cursor α ε) → List Node → Prop) : Prop where
  monoW : ∀ (cursors : List (Cursor α ε)) (x : Cursor α ε) (v0 a b : Nat),
    a ≠ v0 → b ≠ v0 → W cursors a b → W (cursors.set v0 x) a b
  ro : ∀ (cursors : List (Cursor α ε)) (nodes : List Node),
    nodes.length = 2 * K → LeafWF nodes (2 * K) K → CI cursors nodes →
    ReplayOk cmp cursors nodes K (W cursors)
  ci_congr : ∀ (cursors : List (Cursor α ε)) (nodes nodes' : List Node),
    (∀ p, K ≤ p → nodes'.getD p default = nodes.getD p default) →
    CI cursors nodes → CI cursors nodes'
  keep : ∀ (cursors : List (Cursor α ε)) (nodes : List Node) (v0 : Nat),
    CI cursors nodes → v0 < K → ActiveAt nodes K v0 →
    0 < (cursors.getD v0 default).values.length →
    0 < (cursors.getD v0 default).values.tail.length →
    CI (cursors.set v0 { cursors.getD v0 default with
      values := (cursors.getD v0 default).values.tail }) nodes
  refill : ∀ (cursors : List (Cursor α ε)) (nodes : List Node) (v0 : Nat)
    (c1 : Cursor α ε), CI cursors nodes → v0 < K → ActiveAt nodes K v0 →
    (c1 = cursors.getD v0 default ∨
      c1 = { cursors.getD v0 default with
        values := (cursors.getD v0 default).values.tail }) →
    c1.values.length = 0 → c1.err = none →
    (nextNonEmptyValues c1.src).1.2.2 = true →
    CI (cursors.set v0 { c1 with
      values := (nextNonEmptyValues c1.src).1.1
      err := (nextNonEmptyValues c1.src).1.2.1
      src := (nextNonEmptyValues c1.src).2 }) nodes
  retire : ∀ (cursors : List (Cursor α ε)) (nodes : List Node) (v0 : Nat)
    (c1 : Cursor α ε), CI cursors nodes → v0 < K → cursors.length = K →
    nodes.length = 2 * K →
    ActiveAt nodes K v0 →
    (c1 = cursors.getD v0 default ∨
      c1 = { cursors.getD v0 default with
        values := (cursors.getD v0 default).values.tail }) →
    c1.values.length = 0 → c1.err = none →
    (nextNonEmptyValues c1.src).1.2.2 = false →
    CI (cursors.set v0 { c1 with
      src := (nextNonEmptyValues c1.src).2
      stops := c1.stops + 1 }) (nodes.set (v0 + K) ⟨-1, -1⟩)
  errexit : ∀ (cursors : List (Cursor α ε)) (nodes : List Node) (v0 : Nat)
    (c1 : Cursor α ε) (e : ε), CI cursors nodes → v0 < K →
    ActiveAt nodes K v0 →
    (c1 = cursors.getD v0 default ∨
      c1 = { cursors.getD v0 default with
        values := (cursors.getD v0 default).values.tail }) →
    c1.values.length = 0 → c1.err = some e →
    CI (cursors.set v0 { c1 with err := none }) nodes ∧
    ∀ a b, W cursors a b → W (cursors.set v0 { c1 with err := none }) a b
  pg : ∀ (cursors : List (Cursor α ε)) (nodes : List Node),
    CI cursors nodes → PlayGameOk cmp cursors K (W cursors)
  ci_init : ∀ t : Tree α ε, PullInv K t →
    (∀ i, i < K → PulledAt seqs K t i) → CI t.cursors t.nodes

theorem TreeNext_of_stop {α ε : Type} [Inhabited α] (cmp : α → α → Int)
    (cap : Nat) (t : Tree α ε) (h : cap = 0 ∨ t.count = 0) :
    Tree.next cmp cap t = ([], none, t) := by
  unfold Tree.next
  rw [if_pos h]

theorem TreeNext_built_eq {α ε : Type} [Inhabited α] (cmp : α → α → Int)
    (cap : Nat) (t : Tree α ε) (h1 : ¬ (cap = 0 ∨ t.count = 0))
    (h2 : ¬ t.winner.index < 0) :
    Tree.next cmp cap t = nextAssemble (nextLoop cmp cap
      (loopW t.cursors t.count + 1) t.cursors t.nodes t.count t.winner []) := by
  unfold Tree.next
  rw [if_neg h1, if_neg h2]

theorem TreeNext_build_eq {α ε : Type} [Inhabited α] (cmp : α → α → Int)
    (cap : Nat) (t : Tree α ε) (h1 : ¬ (cap = 0 ∨ t.count = 0))
    (h2 : t.winner.index < 0) :
    Tree.next cmp cap t =
      if (initialPull t).count = 0 then ([], none, initialPull t)
      else nextAssemble (nextLoop cmp cap
        (loopW (initialPull t).cursors (initialPull t).count + 1)
        (initialPull t).cursors
        (initializeAux cmp (initialPull t).cursors (initialPull t).nodes.length
          (initialPull t).nodes.length (initialPull t).nodes 0).1
        (initialPull t).count
        (initializeAux cmp (initialPull t).cursors (initialPull t).nodes.length
          (initialPull t).nodes.length (initialPull t).nodes 0).2 []) := by
  unfold Tree.next
  rw [if_neg h1, if_pos h2]

/-- `tree.next` on a built state keeps the tree invariant. -/
theorem TreeNext_preserves_built {α ε : Type} [Inhabited α] (cmp : α → α → Int)
    (K : Nat) (seqs : List (List (List α × Option ε)))
    (W : List (Cursor α ε) → Nat → Nat → Prop)
    (CI : List (Cursor α ε) → List Node → Prop)
    (H : MergeHyps cmp K seqs W CI) :
    ∀ (cap : Nat) (t : Tree α ε), TreeOk W CI K t →
      TreeOk W CI K (Tree.next cmp cap t).2.2 := by
  intro cap t hok
  by_cases h0 : cap = 0 ∨ t.count = 0
  · rw [TreeNext_of_stop cmp cap t h0]
    exact hok
  · have hcpos : 0 < t.count := by
      rcases Nat.eq_zero_or_pos t.count with h | h
      · exact absurd (Or.inr h) h0
      · exact h
    have hidx : ¬ t.winner.index < 0 := by
      have := hok.2 hcpos
      omega
    rw [TreeNext_built_eq cmp cap t h0 hidx]
    have hr := nextLoop_preserves cmp K (2 * K) rfl W CI H.monoW H.ro H.ci_congr
      H.keep H.refill H.retire H.errexit (loopW t.cursors t.count + 1) cap
      t.cursors t.nodes t.count t.winner [] hok.1 hcpos
    refine ⟨hr, ?_⟩
    simp only [nextAssemble]
    intro hc
    obtain ⟨v0, hv0K, hwv, _⟩ := hr.2.2.2.2.2.1 hc
    rw [hwv]
    simp only [reprNode]
    omega

/-- `tree.next` on the freshly made tree either does nothing (zero budget or
no sources) or builds a state satisfying the tree invariant. -/
theorem TreeNext_build {α ε : Type} [Inhabited α] (cmp : α → α → Int)
    (K : Nat) (seqs : List (List (List α × Option ε))) (hK : K = seqs.length)
    (W : List (Cursor α ε) → Nat → Nat → Prop)
    (CI : List (Cursor α ε) → List Node → Prop)
    (H : MergeHyps cmp K seqs W CI) :
    ∀ cap : Nat, (Tree.next cmp cap (makeTree seqs)).2.2 = makeTree seqs ∨
      TreeOk W CI K (Tree.next cmp cap (makeTree seqs)).2.2 := by
  intro cap
  by_cases h0 : cap = 0 ∨ (makeTree (α := α) (ε := ε) seqs).count = 0
  · rw [TreeNext_of_stop cmp cap _ h0]
    exact Or.inl rfl
  · subst hK
    obtain ⟨hPI, hPT⟩ := initialPull_spec (α := α) (ε := ε) seqs
    obtain ⟨hcl, hnl, hint, hWF, hcnt, hwin⟩ := hPI
    have hCI1 := H.ci_init _ ⟨hcl, hnl, hint, hWF, hcnt, hwin⟩ hPT
    rw [TreeNext_build_eq cmp cap _ h0 (by rw [makeTree_winner]; decide)]
    by_cases hc1 : (initialPull (makeTree (α := α) (ε := ε) seqs)).count = 0
    · rw [if_pos hc1]
      refine Or.inr ?_
      show TreeOk W CI seqs.length (initialPull (makeTree (α := α) (ε := ε) seqs))
      refine ⟨⟨hcl, hnl, hWF, hcnt, hCI1, ?_, ?_⟩, ?_⟩
      · intro hc
        omega
      · intro _
        rw [hwin]
      · intro hc
        omega
    · rw [if_neg hc1]
      set t1 := initialPull (makeTree (α := α) (ε := ε) seqs) with ht1
      obtain ⟨c, hsub, hcsome, hcnone, hrlen, hframe⟩ :=
        initializeAux_spec cmp t1.cursors (W t1.cursors) t1.nodes.length
          seqs.length (by omega) (H.pg t1.cursors t1.nodes hCI1)
          t1.nodes.length 0 t1.nodes (by omega)
          (fun q hq _ => hint q hq) (by rw [hnl]; exact hWF) rfl
      set r := initializeAux cmp t1.cursors t1.nodes.length t1.nodes.length
        t1.nodes 0 with hrdef
      have hframe2 : ∀ p, seqs.length ≤ p →
          r.1.getD p default = t1.nodes.getD p default := by
        intro p hp
        exact hframe p (fun hcon => by omega)
      have hWFr : LeafWF r.1 (2 * seqs.length) seqs.length := by
        intro p hp hpN
        rw [hframe2 p hp]
        exact hWF p hp hpN
      have hsub2 : SubInv (W t1.cursors) r.1 (2 * seqs.length) seqs.length 0 c := by
        rw [← hnl]
        exact hsub
      have hcntr : t1.count = (collectLeaves r.1 (2 * seqs.length) seqs.length 0).length := by
        rw [collectLeaves_congr t1.nodes r.1 (2 * seqs.length) seqs.length
          (fun p hp _ => hframe2 p hp) 0]
        exact hcnt
      have hcsome2 : ∃ v0, v0 < seqs.length ∧ r.2 = reprNode seqs.length v0 ∧
          SubInv (W t1.cursors) r.1 (2 * seqs.length) seqs.length 0 (some v0) := by
        cases hc : c with
        | none =>
          exfalso
          have h0 := SubInv_champ_none (W t1.cursors) r.1 (2 * seqs.length)
            seqs.length 0 (hc ▸ hsub2)
          rw [h0] at hcntr
          simp only [List.length_nil] at hcntr
          omega
        | some v0 =>
          obtain ⟨hrv, hvK⟩ := hcsome v0 hc
          exact ⟨v0, hvK, hrv, hc ▸ hsub2⟩
      have hSI : StateInv W CI seqs.length (2 * seqs.length) t1.cursors r.1
          t1.count r.2 :=
        ⟨hcl, by rw [hrlen, hnl], hWFr, hcntr,
          H.ci_congr t1.cursors t1.nodes r.1 hframe2 hCI1,
          fun _ => hcsome2, fun h0 => absurd h0 hc1⟩
      have hr := nextLoop_preserves cmp seqs.length (2 * seqs.length) rfl W CI
        H.monoW H.ro H.ci_congr H.keep H.refill H.retire H.errexit
        (loopW t1.cursors t1.count + 1) cap t1.cursors r.1 t1.count r.2 [] hSI
        (by omega)
      refine Or.inr ⟨hr, ?_⟩
      simp only [nextAssemble]
      intro hc
      obtain ⟨v0, hv0K, hwv, _⟩ := hr.2.2.2.2.2.1 hc
      rw [hwv]
      simp only [reprNode]
      omega

/-- A sequence of `tree.next` calls with arbitrary buffer capacities. -/
def nextFold {α ε : Type} [Inhabited α] (cmp : α → α → Int) (caps : List Nat)
    (t : Tree α ε) : Tree α ε :=
  caps.foldl (fun t cap => (Tree.next cmp cap t).2.2) t

/-- Every state reachable from the fresh tree by `tree.next` calls is the
fresh tree itself or satisfies the tree invariant. -/
theorem nextFold_inv {α ε : Type} [Inhabited α] (cmp : α → α → Int)
    (K : Nat) (seqs : List (List (List α × Option ε))) (hK : K = seqs.length)
    (W : List (Cursor α ε) → Nat → Nat → Prop)
    (CI : List (Cursor α ε) → List Node → Prop)
    (H : MergeHyps cmp K seqs W CI) :
    ∀ (caps : List Nat) (t : Tree α ε),
      (t = makeTree seqs ∨ TreeOk W CI K t) →
      (nextFold cmp caps t = makeTree seqs ∨
        TreeOk W CI K (nextFold cmp caps t)) := by
  intro caps
  induction caps with
  | nil => intro t h; exact h
  | cons cap caps ih =>
    intro t h
    show nextFold cmp caps (Tree.next cmp cap t).2.2 = makeTree seqs ∨ _
    refine ih (Tree.next cmp cap t).2.2 ?_
    rcases h with h | h
    · subst h
      exact TreeNext_build cmp K seqs hK W CI H cap
    · exact Or.inr (TreeNext_preserves_built cmp K seqs W CI H cap t h)

/-- Cursor invariant for error-free merges: no pending errors, error-free
remaining sources, and every active cursor holds a non-empty batch. -/
@[reducible]
def CI2 {α ε : Type} [Inhabited α] (K : Nat) (cursors : List (Cursor α ε))
    (nodes : List Node) : Prop :=
  ∀ i, i < K →
    (cursors.getD i default).err = none ∧
    (∀ y ∈ (cursors.getD i default).src, y.2 = none) ∧
    (ActiveAt nodes K i → 0 < (cursors.getD i default).values.length)

theorem reprNode_ne_vac (K v : Nat) : reprNode K v ≠ ⟨-1, -1⟩ := by
  intro h
  have := congrArg Node.value h
  simp only [reprNode] at this
  omega

/-- The error-free instantiation of the merge hypotheses, with the
head-comparison win relation. -/
theorem mergeHyps_C2 {α ε : Type} [Inhabited α] (cmp : α → α → Int)
    (hcmp : IsTotalCmp cmp) (seqs : List (List (List α × Option ε)))
    (K : Nat) (hK : K = seqs.length)
    (herr : ∀ s ∈ seqs, ∀ y ∈ s, y.2 = none) :
    MergeHyps cmp K seqs (winsLE cmp) (CI2 K) := by
  constructor
  · exact fun cursors x v0 a b ha hb h => winsLE_set_ne cmp cursors x v0 a b ha hb h
  · intro cursors nodes hlen hWF hCI s t hs ht has hat
    obtain ⟨hes, _, hvs⟩ := hCI s hs
    obtain ⟨het, _, hvt⟩ := hCI t ht
    have hvs := hvs has
    have hvt := hvt hat
    constructor
    · intro hrule
      rcases hrule with h | ⟨_, hlt⟩
      · omega
      · unfold winsLE
        have := hcmp.flip ((cursors.getD s default).values.headD default)
          ((cursors.getD t default).values.headD default)
        omega
    · intro hrule
      unfold winsLE
      intro hlt
      exact hrule (Or.inr ⟨by omega, hlt⟩)
  · intro cursors nodes nodes' hsame h i hi
    obtain ⟨h1, h2, h3⟩ := h i hi
    refine ⟨h1, h2, ?_⟩
    intro ha
    refine h3 ?_
    unfold ActiveAt at ha ⊢
    rw [← hsame (i + K) (by omega)]
    exact ha
  · intro cursors nodes v0 hCI hv0 hact hem htail i hi
    by_cases hiv : i = v0
    · subst hiv
      rw [getD_set_self cursors i _ (by
        by_contra hc
        push_neg at hc
        rw [List.getD_eq_default _ _ hc] at hem
        exact absurd hem (lt_irrefl 0))]
      obtain ⟨h1, h2, _⟩ := hCI i hi
      exact ⟨h1, h2, fun _ => htail⟩
    · rw [getD_set_ne cursors v0 i _ (by omega)]
      exact hCI i hi
  · intro cursors nodes v0 c1 hCI hv0 hact hc1 hl0 herr1 hok i hi
    have hsrc : c1.src = (cursors.getD v0 default).src := by
      rcases hc1 with h | h <;> rw [h]
    have hsrcerr : ∀ y ∈ c1.src, y.2 = none := by
      rw [hsrc]
      exact (hCI v0 hv0).2.1
    obtain ⟨hne, herr2, hrest⟩ := nextNonEmptyValues_noerr c1.src hsrcerr
    by_cases hiv : i = v0
    · subst hiv
      rw [getD_set_self cursors i _ (by
        by_contra hc
        push_neg at hc
        have := (hCI i hi).2.2 hact
        rw [List.getD_eq_default _ _ hc] at this
        exact absurd this (lt_irrefl 0))]
      exact ⟨herr2, hrest, fun _ => hne hok⟩
    · rw [getD_set_ne cursors v0 i _ (by omega)]
      exact hCI i hi
  · intro cursors nodes v0 c1 hCI hv0 hcll hlen hact hc1 hl0 herr1 hok i hi
    have hsrc : c1.src = (cursors.getD v0 default).src := by
      rcases hc1 with h | h <;> rw [h]
    have hsrcerr : ∀ y ∈ c1.src, y.2 = none := by
      rw [hsrc]
      exact (hCI v0 hv0).2.1
    obtain ⟨_, _, hrest⟩ := nextNonEmptyValues_noerr c1.src hsrcerr
    have herr0 : c1.err = (cursors.getD v0 default).err := by
      rcases hc1 with h | h <;> rw [h]
    by_cases hiv : i = v0
    · subst hiv
      rw [getD_set_self cursors i _ (by
        by_contra hc
        push_neg at hc
        have := (hCI i hi).2.2 hact
        rw [List.getD_eq_default _ _ hc] at this
        exact absurd this (lt_irrefl 0))]
      refine ⟨by rw [herr0]; exact (hCI i hi).1, hrest, ?_⟩
      intro ha
      unfold ActiveAt at ha
      rw [getD_set_self nodes (i + K) _ (by omega)] at ha
      exact absurd ha.symm (reprNode_ne_vac K i)
    · rw [getD_set_ne cursors v0 i _ (by omega)]
      obtain ⟨h1, h2, h3⟩ := hCI i hi
      refine ⟨h1, h2, ?_⟩
      intro ha
      refine h3 ?_
      unfold ActiveAt at ha ⊢
      rw [← getD_set_ne nodes (v0 + K) (i + K) (⟨-1, -1⟩ : Node) (by omega)]
      exact ha
  · intro cursors nodes v0 c1 e hCI hv0 hact hc1 hl0 herr1
    have herr0 : c1.err = (cursors.getD v0 default).err := by
      rcases hc1 with h | h <;> rw [h]
    rw [herr0, (hCI v0 hv0).1] at herr1
    cases herr1
  · intro cursors nodes hCI v w hv hw
    have hev : (cursors.getD v default).err = none := (hCI v hv).1
    have hew : (cursors.getD w default).err = none := (hCI w hw).1
    have hplay : playGame cursors (reprNode K v) (reprNode K w) cmp =
        if cmp ((cursors.getD v default).values.headD default)
               ((cursors.getD w default).values.headD default) < 0
        then (reprNode K w, reprNode K v)
        else (reprNode K v, reprNode K w) := by
      unfold playGame
      rw [if_neg (by simp only [reprNode]; omega : ¬ (reprNode K v).value < 0),
        if_neg (by simp only [reprNode]; omega : ¬ (reprNode K w).value < 0),
        reprNode_value_toNat, reprNode_value_toNat]
      simp only [hev, hew, Option.isSome_none, Bool.false_eq_true, if_false]
    by_cases hd : cmp ((cursors.getD v default).values.headD default)
        ((cursors.getD w default).values.headD default) < 0
    · refine Or.inl ⟨by rw [hplay, if_pos hd], ?_⟩
      unfold winsLE
      have := hcmp.flip ((cursors.getD v default).values.headD default)
        ((cursors.getD w default).values.headD default)
      omega
    · exact Or.inr ⟨by rw [hplay, if_neg hd], hd⟩
  · intro t hPI hPT i hi
    obtain ⟨hcl, hnl, hint, hWF, hcnt, hwin⟩ := hPI
    have hsrci : ∀ y ∈ seqs.getD i [], y.2 = none := by
      refine herr (seqs.getD i []) ?_
      rw [List.getD_eq_getElem seqs [] (by omega)]
      exact List.getElem_mem _
    obtain ⟨hne, herr2, hrest⟩ := nextNonEmptyValues_noerr (seqs.getD i []) hsrci
    rcases hPT i hi with ⟨hok, hcur, hactv⟩ | ⟨hok, hcur, hvac⟩
    · rw [hcur]
      exact ⟨herr2, hrest, fun _ => hne hok⟩
    · rw [hcur]
      refine ⟨rfl, hrest, ?_⟩
      intro ha
      unfold ActiveAt at ha
      rw [hvac] at ha
      exact absurd ha.symm (reprNode_ne_vac K i)

/-- C2: over error-free sources, after the build performed inside `next`
and after every replay step (i.e., in every tree state reachable by `next`
calls whose winner has been installed), a non-exhausted tree's winner is an
active cursor whose head is `≤` the head of every active cursor under
`cmp`; and an exhausted tree (`count = 0`) has `winner.value = -1` and
every later `next` call returns nothing and leaves the tree unchanged. -/
theorem tree_winner_min_invariant {α ε : Type} [Inhabited α]
    (cmp : α → α → Int) (hcmp : IsTotalCmp cmp)
    (seqs : List (List (List α × Option ε)))
    (herr : ∀ s ∈ seqs, ∀ y ∈ s, y.2 = none)
    (caps : List Nat) :
    (0 ≤ (nextFold cmp caps (makeTree seqs)).winner.index →
      0 < (nextFold cmp caps (makeTree seqs)).count →
      ∃ v, v < seqs.length ∧
        (nextFold cmp caps (makeTree seqs)).winner = reprNode seqs.length v ∧
        ActiveAt (nextFold cmp caps (makeTree seqs)).nodes seqs.length v ∧
        ∀ w, w < seqs.length →
          ActiveAt (nextFold cmp caps (makeTree seqs)).nodes seqs.length w →
          ¬ cmp (((nextFold cmp caps (makeTree seqs)).cursors.getD w
                default).values.headD default)
              (((nextFold cmp caps (makeTree seqs)).cursors.getD v
                default).values.headD default) < 0) ∧
    ((nextFold cmp caps (makeTree seqs)).count = 0 →
      (nextFold cmp caps (makeTree seqs)).winner.value = -1 ∧
      ∀ cap, Tree.next cmp cap (nextFold cmp caps (makeTree seqs))
        = ([], none, nextFold cmp caps (makeTree seqs))) := by
  rcases nextFold_inv cmp seqs.length seqs rfl (winsLE cmp) (CI2 seqs.length)
    (mergeHyps_C2 cmp hcmp seqs seqs.length rfl herr) caps (makeTree seqs)
    (Or.inl rfl) with hP | hOK
  · rw [hP]
    constructor
    · intro hidx _
      rw [makeTree_winner] at hidx
      exact absurd hidx (by decide)
    · intro hc
      refine ⟨by rw [makeTree_winner], ?_⟩
      intro cap
      exact TreeNext_of_stop cmp cap _ (Or.inr hc)
  · obtain ⟨⟨hcl, hnl, hWF, hcnt, hCI, hwin, hzero⟩, _⟩ := hOK
    constructor
    · intro _ hc
      obtain ⟨v0, hv0K, hwv, hsub⟩ := hwin hc
      have hmem := SubInv_champ_mem _ _ _ _ 0 (some v0) hsub v0 rfl
      obtain ⟨_, hv0N, hact⟩ := mem_collectLeaves_reach _ _ _ hWF 0 v0 hmem
      refine ⟨v0, hv0K, hwv, hact, ?_⟩
      intro w hwK hwact
      have hwmem := active_mem_root _ _ _ rfl w (by omega) hwact
      exact SubInv_champ_min (winsLE cmp (nextFold cmp caps (makeTree seqs)).cursors)
        (winsLE_refl cmp hcmp _)
        (winsLE_trans cmp hcmp _) _ _ _ 0 (some v0) hsub v0 rfl w hwmem
    · intro hc
      exact ⟨hzero hc, fun cap => TreeNext_of_stop cmp cap _ (Or.inr hc)⟩

/-- Witness for C2 at a concrete merge state: two error-free sorted
sources, one `next` call of one element; the winner is active and its head
is minimal among the active cursors. -/
theorem tree_winner_min_invariant_witness :
    ∃ v, v < 2 ∧
      (nextFold intCmp [1]
        (makeTree [[([(0 : Int), 2], (none : Option Nat))], [([1], none)]])).winner
        = reprNode 2 v ∧
      ActiveAt (nextFold intCmp [1]
        (makeTree [[([(0 : Int), 2], (none : Option Nat))], [([1], none)]])).nodes 2 v ∧
      ∀ w, w < 2 →
        ActiveAt (nextFold intCmp [1]
          (makeTree [[([(0 : Int), 2], (none : Option Nat))], [([1], none)]])).nodes 2 w →
        ¬ intCmp (((nextFold intCmp [1]
              (makeTree [[([(0 : Int), 2], (none : Option Nat))], [([1], none)]])).cursors.getD
              w default).values.headD default)
            (((nextFold intCmp [1]
              (makeTree [[([(0 : Int), 2], (none : Option Nat))], [([1], none)]])).cursors.getD
              v default).values.headD default) < 0 :=
  (tree_winner_min_invariant intCmp intCmp_total
    [[([(0 : Int), 2], (none : Option Nat))], [([1], none)]]
    (by decide) [1]).1 (by decide) (by decide)

/-- `playGame` always returns its two players in one of the two orders. -/
theorem playGame_cases {α ε : Type} [Inhabited α] (cursors : List (Cursor α ε))
    (n1 n2 : Node) (cmp : α → α → Int) :
    playGame cursors n1 n2 cmp = (n1, n2) ∨
    playGame cursors n1 n2 cmp = (n2, n1) := by
  unfold playGame
  dsimp only
  split_ifs <;> first
    | exact Or.inl rfl
    | exact Or.inr rfl

/-- Cursor invariant for release tracking: during the merge an active
cursor has not been stopped, a retired cursor has been stopped exactly
once. -/
@[reducible]
def CI7 {α ε : Type} [Inhabited α] (K : Nat) (cursors : List (Cursor α ε))
    (nodes : List Node) : Prop :=
  ∀ i, i < K →
    (ActiveAt nodes K i → (cursors.getD i default).stops = 0) ∧
    (¬ ActiveAt nodes K i → (cursors.getD i default).stops = 1)

/-- The structural instantiation of the merge hypotheses: trivial win
relation, release-tracking cursor invariant. -/
theorem mergeHyps_C7 {α ε : Type} [Inhabited α] (cmp : α → α → Int)
    (seqs : List (List (List α × Option ε))) (K : Nat) (hK : K = seqs.length) :
    MergeHyps cmp K seqs (fun _ _ _ => True) (CI7 K) := by
  constructor
  · exact fun _ _ _ _ _ _ _ _ => trivial
  · exact fun _ _ _ _ _ _ _ _ _ _ _ => ⟨fun _ => trivial, fun _ => trivial⟩
  · intro cursors nodes nodes' hsame h i hi
    have hiff : ActiveAt nodes' K i ↔ ActiveAt nodes K i := by
      unfold ActiveAt
      rw [hsame (i + K) (by omega)]
    obtain ⟨h1, h2⟩ := h i hi
    exact ⟨fun ha => h1 (hiff.mp ha), fun ha => h2 (fun hb => ha (hiff.mpr hb))⟩
  · intro cursors nodes v0 hCI hv0 hact hem htail i hi
    by_cases hiv : i = v0
    · subst hiv
      rw [getD_set_self cursors i _ (by
        by_contra hc
        push_neg at hc
        rw [List.getD_eq_default _ _ hc] at hem
        exact absurd hem (lt_irrefl 0))]
      obtain ⟨h1, h2⟩ := hCI i hi
      exact ⟨fun _ => h1 hact, fun ha => absurd hact ha⟩
    · rw [getD_set_ne cursors v0 i _ (by omega)]
      exact hCI i hi
  · intro cursors nodes v0 c1 hCI hv0 hact hc1 hl0 herr1 hok i hi
    have hstops : c1.stops = (cursors.getD v0 default).stops := by
      rcases hc1 with h | h <;> rw [h]
    by_cases hiv : i = v0
    · subst hiv
      rw [getD_set_self cursors i _ (by
        by_contra hc
        push_neg at hc
        have hsrc0 : c1.src = [] := by
          rcases hc1 with h | h <;> rw [h, List.getD_eq_default _ _ hc] <;> rfl
        rw [hsrc0] at hok
        exact Bool.noConfusion hok)]
      refine ⟨fun _ => ?_, fun ha => absurd hact ha⟩
      show c1.stops = 0
      rw [hstops]
      exact (hCI i hi).1 hact
    · rw [getD_set_ne cursors v0 i _ (by omega)]
      exact hCI i hi
  · intro cursors nodes v0 c1 hCI hv0 hcll hlen hact hc1 hl0 herr1 hok i hi
    have hstops : c1.stops = (cursors.getD v0 default).stops := by
      rcases hc1 with h | h <;> rw [h]
    by_cases hiv : i = v0
    · subst hiv
      rw [getD_set_self cursors i _ (by omega)]
      have hnotact : ¬ ActiveAt (nodes.set (i + K) ⟨-1, -1⟩) K i := by
        unfold ActiveAt
        rw [getD_set_self nodes (i + K) _ (by omega)]
        intro ha
        exact absurd ha.symm (reprNode_ne_vac K i)
      refine ⟨fun ha => absurd ha hnotact, fun _ => ?_⟩
      show c1.stops + 1 = 1
      rw [hstops, (hCI i hi).1 hact]
    · rw [getD_set_ne cursors v0 i _ (by omega)]
      have hiff : ActiveAt (nodes.set (v0 + K) ⟨-1, -1⟩) K i ↔ ActiveAt nodes K i := by
        unfold ActiveAt
        rw [getD_set_ne nodes (v0 + K) (i + K) _ (by omega)]
      obtain ⟨h1, h2⟩ := hCI i hi
      exact ⟨fun ha => h1 (hiff.mp ha), fun ha => h2 (fun hb => ha (hiff.mpr hb))⟩
  · intro cursors nodes v0 c1 e hCI hv0 hact hc1 hl0 herr1
    have hstops : c1.stops = (cursors.getD v0 default).stops := by
      rcases hc1 with h | h <;> rw [h]
    refine ⟨?_, fun _ _ _ => trivial⟩
    intro i hi
    by_cases hiv : i = v0
    · subst hiv
      rw [getD_set_self cursors i _ (by
        by_contra hc
        push_neg at hc
        have herr0 : c1.err = none := by
          rcases hc1 with h | h <;> rw [h, List.getD_eq_default _ _ hc] <;> rfl
        rw [herr0] at herr1
        exact Option.noConfusion herr1)]
      refine ⟨fun _ => ?_, fun ha => absurd hact ha⟩
      show c1.stops = 0
      rw [hstops]
      exact (hCI i hi).1 hact
    · rw [getD_set_ne cursors v0 i _ (by omega)]
      exact hCI i hi
  · intro cursors nodes hCI v w hv hw
    rcases playGame_cases cursors (reprNode K v) (reprNode K w) cmp with h | h
    · exact Or.inr ⟨h, trivial⟩
    · exact Or.inl ⟨h, trivial⟩
  · intro t hPI hPT i hi
    rcases hPT i hi with ⟨hok, hcur, hactv⟩ | ⟨hok, hcur, hvac⟩
    · rw [hcur]
      exact ⟨fun _ => rfl, fun ha => absurd hactv ha⟩
    · rw [hcur]
      refine ⟨fun ha => ?_, fun _ => rfl⟩
      unfold ActiveAt at ha
      rw [hvac] at ha
      exact absurd ha.symm (reprNode_ne_vac K i)

/-- The final tree of the `merge` loop is reachable from the fresh tree. -/
theorem mergeLoop_inv {α ε : Type} [Inhabited α] (cmp : α → α → Int)
    (K : Nat) (seqs : List (List (List α × Option ε))) (hK : K = seqs.length)
    (W : List (Cursor α ε) → Nat → Nat → Prop)
    (CI : List (Cursor α ε) → List Node → Prop)
    (H : MergeHyps cmp K seqs W CI) :
    ∀ (budget : Nat) (t : Tree α ε),
      (t = makeTree seqs ∨ TreeOk W CI K t) →
      ((mergeLoop cmp budget t).2 = makeTree seqs ∨
        TreeOk W CI K (mergeLoop cmp budget t).2) := by
  intro budget
  induction budget with
  | zero => intro t h; exact h
  | succ budget ih =>
    intro t h
    have hstep : (Tree.next cmp bufferSize t).2.2 = makeTree seqs ∨
        TreeOk W CI K (Tree.next cmp bufferSize t).2.2 := by
      rcases h with h | h
      · subst h
        exact TreeNext_build cmp K seqs hK W CI H bufferSize
      · exact Or.inr (TreeNext_preserves_built cmp K seqs W CI H bufferSize t h)
    rcases hr1 : (Tree.next cmp bufferSize t).1 with _ | ⟨x, xs⟩
    · rcases hr2 : (Tree.next cmp bufferSize t).2.1 with _ | e
      · have heq : (mergeLoop cmp (budget + 1) t).2
            = (Tree.next cmp bufferSize t).2.2 := by
          simp only [mergeLoop, hr1, hr2]
        rw [heq]
        exact hstep
      · have heq : (mergeLoop cmp (budget + 1) t).2
            = (mergeLoop cmp budget (Tree.next cmp bufferSize t).2.2).2 := by
          simp only [mergeLoop, hr1, hr2]
        rw [heq]
        exact ih _ hstep
    · have heq : (mergeLoop cmp (budget + 1) t).2
          = (mergeLoop cmp budget (Tree.next cmp bufferSize t).2.2).2 := by
        simp only [mergeLoop, hr1]
      rw [heq]
      exact ih _ hstep

theorem TreeStop_nodes {α ε : Type} (t : Tree α ε) :
    (Tree.stop t).nodes = t.nodes := rfl

theorem TreeStop_stops {α ε : Type} (t : Tree α ε) (i : Nat)
    (h : i < t.cursors.length) :
    ((Tree.stop t).cursors.getD i default).stops
      = (t.cursors.getD i default).stops + 1 := by
  unfold Tree.stop
  simp only
  rw [getD_map_lt _ t.cursors default i h]

/-- C7 counterexample: a single one-element source, fully consumed by the
merge. Its stop is invoked twice - once when the cursor is exhausted inside
`next` and once more by the deferred `tree.stop` - so "exactly once" fails
on the code. -/
theorem stop_called_twice_on_exhausted :
    ((mergeTrace intCmp
        (mergeBudget (makeTree [[([(0 : Int)], (none : Option Nat))]]))
        [[([(0 : Int)], (none : Option Nat))]]).2.cursors.getD 0 default).stops
      = 2 := by
  decide

/-- C7 amended: by the time iteration over the merged sequence terminates -
normal exhaustion or early consumer stop (any `budget`) - every source's
stop has been invoked at least once and at most twice: exactly once when
its cursor is still active at termination, exactly twice when the merge
drained it (each drained cursor is stopped once at exhaustion inside
`next` and once more by the deferred `tree.stop`). -/
theorem stop_called_once_or_twice {α ε : Type} [Inhabited α]
    (cmp : α → α → Int) (seqs : List (List (List α × Option ε)))
    (budget : Nat) :
    ∀ i, i < seqs.length →
      (ActiveAt (mergeTrace cmp budget seqs).2.nodes seqs.length i →
        ((mergeTrace cmp budget seqs).2.cursors.getD i default).stops = 1) ∧
      (¬ ActiveAt (mergeTrace cmp budget seqs).2.nodes seqs.length i →
        ((mergeTrace cmp budget seqs).2.cursors.getD i default).stops = 2) := by
  intro i hi
  have hfin : (mergeTrace cmp budget seqs).2
      = Tree.stop (mergeLoop cmp budget (makeTree seqs)).2 := rfl
  rw [hfin]
  have hreach := mergeLoop_inv cmp seqs.length seqs rfl (fun _ _ _ => True)
    (CI7 seqs.length) (mergeHyps_C7 cmp seqs seqs.length rfl) budget
    (makeTree seqs) (Or.inl rfl)
  rcases hreach with h | h
  · rw [h]
    rw [TreeStop_stops _ i (by rw [makeTree_cursors_length]; omega),
      TreeStop_nodes]
    rw [makeTree_cursors_getD seqs i (by omega)]
    have hact : ActiveAt (makeTree (α := α) (ε := ε) seqs).nodes seqs.length i := by
      unfold ActiveAt
      exact makeTree_nodes_leaf seqs i (by omega)
    exact ⟨fun _ => rfl, fun ha => absurd hact ha⟩
  · obtain ⟨⟨hcl, hnl, hWF, hcnt, hCI, hwin, hzero⟩, _⟩ := h
    rw [TreeStop_stops _ i (by omega), TreeStop_nodes]
    obtain ⟨h1, h2⟩ := hCI i (by omega)
    constructor
    · intro ha
      rw [h1 ha]
    · intro ha
      rw [h2 ha]

/-- Witness for the amended C7 theorem at a concrete merge: two
single-element sources, early consumer stop after one yield; source 0 is
drained (stopped twice), source 1 stays active (stopped once). -/
theorem stop_called_once_or_twice_witness :
    0 < 2 ∧
      ((ActiveAt (mergeTrace intCmp 1
            [[([(0 : Int)], (none : Option Nat))], [([(5 : Int)], none)]]).2.nodes
            2 0 →
        ((mergeTrace intCmp 1
            [[([(0 : Int)], (none : Option Nat))], [([(5 : Int)], none)]]).2.cursors.getD
            0 default).stops = 1) ∧
      (¬ ActiveAt (mergeTrace intCmp 1
            [[([(0 : Int)], (none : Option Nat))], [([(5 : Int)], none)]]).2.nodes
            2 0 →
        ((mergeTrace intCmp 1
            [[([(0 : Int)], (none : Option Nat))], [([(5 : Int)], none)]]).2.cursors.getD
            0 default).stops = 2)) :=
  ⟨by decide, stop_called_once_or_twice intCmp
    [[([(0 : Int)], (none : Option Nat))], [([(5 : Int)], none)]] 1 0 (by decide)⟩

/-- In `playGame`, a pending error on the first non-vacant node wins the
match whatever the comparison function. -/
theorem playGame_err_left {α ε : Type} [Inhabited α] (cursors : List (Cursor α ε))
    (n1 n2 : Node) (cmp : α → α → Int) (h1 : 0 ≤ n1.value) (h2 : 0 ≤ n2.value)
    (herr : (cursors.getD n1.value.toNat default).err.isSome) :
    playGame cursors n1 n2 cmp = (n2, n1) := by
  unfold playGame
  rw [if_neg (by omega : ¬ n1.value < 0), if_neg (by omega : ¬ n2.value < 0)]
  simp only [herr, if_true]

/-- In `playGame`, a pending error on the second non-vacant node wins the
match against an error-free first node whatever the comparison function. -/
theorem playGame_err_right {α ε : Type} [Inhabited α] (cursors : List (Cursor α ε))
    (n1 n2 : Node) (cmp : α → α → Int) (h1 : 0 ≤ n1.value) (h2 : 0 ≤ n2.value)
    (herr1 : (cursors.getD n1.value.toNat default).err = none)
    (herr2 : (cursors.getD n2.value.toNat default).err.isSome) :
    playGame cursors n1 n2 cmp = (n1, n2) := by
  unfold playGame
  rw [if_neg (by omega : ¬ n1.value < 0), if_neg (by omega : ¬ n2.value < 0)]
  simp only [herr1, herr2, Option.isSome_none, Bool.false_eq_true, if_false, if_true]

/-- C10: error priority in the tournament tree. (a) In `playGame` a
non-vacant node whose cursor has a pending error defeats a non-vacant node
whose cursor has none, and the comparison function is not consulted (the
result is the same for every `cmp`). (b) In the replay match of `next`, a
node whose cursor's batch is empty wins its match: as the stored player it
displaces the carried winner, and as the carried winner it survives any
player with a non-empty batch. (c) Replay therefore carries an empty-batch
winner to the root, and (d) when the winner's cursor has an empty batch
and a pending error, `next` surfaces exactly that error, emits no value,
clears the cursor's error and leaves everything else unchanged, before any
further value is taken from the other active cursors. -/
theorem error_priority_in_tree {α ε : Type} [Inhabited α] :
    (∀ (cursors : List (Cursor α ε)) (n1 n2 : Node) (cmp cmp' : α → α → Int),
      0 ≤ n1.value → 0 ≤ n2.value →
      ((cursors.getD n1.value.toNat default).err.isSome →
        playGame cursors n1 n2 cmp = (n2, n1) ∧
        playGame cursors n1 n2 cmp = playGame cursors n1 n2 cmp') ∧
      ((cursors.getD n1.value.toNat default).err = none →
        (cursors.getD n2.value.toNat default).err.isSome →
        playGame cursors n1 n2 cmp = (n1, n2) ∧
        playGame cursors n1 n2 cmp = playGame cursors n1 n2 cmp')) ∧
    (∀ (cursors : List (Cursor α ε)) (nodes : List Node) (off : Nat) (w : Node)
        (cmp : α → α → Int),
      (0 ≤ (nodes.getD off default).value →
        (cursors.getD (nodes.getD off default).value.toNat default).values = [] →
        0 ≤ w.value →
        replayStep cmp cursors nodes off w = (nodes.set off w, nodes.getD off default)) ∧
      (0 ≤ w.value →
        (cursors.getD w.value.toNat default).values = [] →
        replayStep cmp cursors nodes off w = (nodes, w) ∨
        (0 ≤ (replayStep cmp cursors nodes off w).2.value ∧
          (cursors.getD (replayStep cmp cursors nodes off w).2.value.toNat
            default).values = []))) ∧
    (∀ (cmp : α → α → Int) (cursors : List (Cursor α ε)) (fuel : Nat)
        (nodes : List Node) (off : Nat) (w : Node),
      0 ≤ w.value → (cursors.getD w.value.toNat default).values = [] →
      0 ≤ (replayAux cmp cursors fuel nodes off w).2.value ∧
      (cursors.getD (replayAux cmp cursors fuel nodes off w).2.value.toNat
        default).values = []) ∧
    (∀ (cmp : α → α → Int) (cap fuel : Nat) (cursors : List (Cursor α ε))
        (nodes : List Node) (count : Nat) (winner : Node) (acc : List α) (e : ε),
      acc.length < cap →
      (cursors.getD winner.value.toNat default).values = [] →
      (cursors.getD winner.value.toNat default).err = some e →
      nextLoop cmp cap (fuel + 1) cursors nodes count winner acc =
        ⟨cursors.set winner.value.toNat
            { cursors.getD winner.value.toNat default with err := none },
          nodes, count, winner, acc, some e⟩) := by
  have step2 : ∀ (cursors : List (Cursor α ε)) (nodes : List Node) (off : Nat)
      (w : Node) (cmp : α → α → Int),
      0 ≤ w.value → (cursors.getD w.value.toNat default).values = [] →
      0 ≤ (replayStep cmp cursors nodes off w).2.value ∧
      (cursors.getD (replayStep cmp cursors nodes off w).2.value.toNat
        default).values = [] := by
    intro cursors nodes off w cmp hw hempty
    unfold replayStep
    by_cases hp : 0 ≤ (nodes.getD off default).value
    · rw [if_pos hp, if_neg (by omega : ¬ w.value < 0)]
      by_cases hrule : (cursors.getD (nodes.getD off default).value.toNat
            default).values.length = 0 ∨
          ((cursors.getD w.value.toNat default).values.length ≠ 0 ∧
            cmp ((cursors.getD (nodes.getD off default).value.toNat
                default).values.headD default)
              ((cursors.getD w.value.toNat default).values.headD default) < 0)
      · rw [if_pos hrule]
        rcases hrule with hrule | hrule
        · exact ⟨hp, List.eq_nil_of_length_eq_zero hrule⟩
        · exact absurd (by rw [hempty]; rfl) hrule.1
      · rw [if_neg hrule]
        exact ⟨hw, hempty⟩
    · rw [if_neg hp]
      exact ⟨hw, hempty⟩
  refine ⟨?_, ?_, ?_, ?_⟩
  · intro cursors n1 n2 cmp cmp' h1 h2
    constructor
    · intro herr
      exact ⟨playGame_err_left cursors n1 n2 cmp h1 h2 herr,
        (playGame_err_left cursors n1 n2 cmp h1 h2 herr).trans
          (playGame_err_left cursors n1 n2 cmp' h1 h2 herr).symm⟩
    · intro herr1 herr2
      exact ⟨playGame_err_right cursors n1 n2 cmp h1 h2 herr1 herr2,
        (playGame_err_right cursors n1 n2 cmp h1 h2 herr1 herr2).trans
          (playGame_err_right cursors n1 n2 cmp' h1 h2 herr1 herr2).symm⟩
  · intro cursors nodes off w cmp
    constructor
    · intro hp hempty hw
      unfold replayStep
      rw [if_pos hp, if_neg (by omega : ¬ w.value < 0), if_pos]
      exact Or.inl (by rw [hempty]; rfl)
    · intro hw hempty
      exact Or.inr (step2 cursors nodes off w cmp hw hempty)
  · intro cmp cursors fuel
    induction fuel with
    | zero => intro nodes off w hw hempty; exact ⟨hw, hempty⟩
    | succ fuel ih =>
      intro nodes off w hw hempty
      unfold replayAux
      obtain ⟨hw', hempty'⟩ := step2 cursors nodes off w cmp hw hempty
      by_cases hz : off = 0
      · rw [if_pos hz]
        exact ⟨hw', hempty'⟩
      · rw [if_neg hz]
        exact ih _ _ _ hw' hempty'
  · intro cmp cap fuel cursors nodes count winner acc e hcap hempty herr
    unfold nextLoop
    rw [if_neg (by omega : ¬ cap ≤ acc.length)]
    simp only [hempty, herr, List.length_nil, Nat.lt_irrefl, if_false, if_true]
    rw [List.set_set]

/-- Witness for C10 at a concrete state: one cursor with an empty batch and
pending error 7 as the winner; `next`'s loop surfaces the error, emits
nothing and clears the error. -/
theorem error_priority_in_tree_witness :
    nextLoop (α := Int) (ε := Nat) intCmp 128 1 [⟨[], some 7, [], 0⟩]
        [⟨-1, -1⟩, ⟨1, 0⟩] 1 ⟨1, 0⟩ [] =
      ⟨[⟨[], none, [], 0⟩], [⟨-1, -1⟩, ⟨1, 0⟩], 1, ⟨1, 0⟩, [], some 7⟩ := by
  have h := (error_priority_in_tree (α := Int) (ε := Nat)).2.2.2 intCmp 128 0
    [⟨[], some 7, [], 0⟩] [⟨-1, -1⟩, ⟨1, 0⟩] 1 ⟨1, 0⟩ [] 7
    (by decide) (by decide) (by decide)
  simpa using h

/-- C1 (code bug): `MergeFunc` on the two individually sorted sequences
`[0,3]` and `[2,5]` emits the values `0,2,3,2,5`: the output is neither
sorted under the comparison function nor the multiset union of the inputs
(the already-merged `2` is emitted a second time by the tail flush of
`merge2`, whose batch read offsets reset at each outer loop iteration). -/
theorem mergeFunc_two_sorted_sources_output_wrong :
    List.Pairwise (fun a b : Int => intCmp a b ≤ 0) [0, 3] ∧
    List.Pairwise (fun a b : Int => intCmp a b ≤ 0) [2, 5] ∧
    (MergeFunc intCmp [noerr [0, 3], noerr [2, 5]]).map Prod.fst = [0, 2, 3, 2, 5] ∧
    ¬ List.Pairwise (fun a b : Int => intCmp a b ≤ 0)
        ((MergeFunc intCmp [noerr [0, 3], noerr [2, 5]]).map Prod.fst) ∧
    ¬ ((MergeFunc intCmp [noerr [0, 3], noerr [2, 5]]).map Prod.fst).Perm
        ([0, 3] ++ [2, 5]) := by
  decide

/-- C4 (code bug): merging `[0,3]` and `[2,5]` does not yield `[0,2,3,5]`
as the claim (and the repository's own `TestMerge2`) requires; the code
produces `0,2,3,2,5`. -/
theorem mergeFunc_0325_eval :
    MergeFunc intCmp [noerr [0, 3], noerr [2, 5]] =
      [(0, none), (2, none), (3, none), (2, none), (5, none)] ∧
    (MergeFunc intCmp [noerr [0, 3], noerr [2, 5]]).map Prod.fst ≠ [0, 2, 3, 5] := by
  decide

/-- C5 (code bug): when the first source is exhausted mid-batch of the
second, the tail flush of `merge2` re-emits the second source's entire
current batch, so the already-emitted element `2` appears twice in the
output although it occurs once across the inputs. -/
theorem merge2_flush_reemits :
    ((MergeFunc intCmp [noerr [0, 3], noerr [2, 5]]).map Prod.fst).count 2 = 2 ∧
    (([0, 3] ++ [2, 5] : List Int)).count 2 = 1 := by
  decide

/-- C6 (code bug): for a source `0,3` followed by an erroring pull, merged
with `[2,5]`, the error is surfaced exactly once with the placeholder value
`0`, but the non-error values are `0,2,3,2,5`: not in sorted order (and
with `2` duplicated), contradicting the claim that every non-error value
still appears in the output in sorted order. -/
theorem mergeFunc_error_continuation_eval :
    MergeFunc intCmp [[(0, none), (3, none), (0, some 7)], noerr [2, 5]] =
      [(0, some 7), (0, none), (2, none), (3, none), (2, none), (5, none)] ∧
    ¬ List.Pairwise (fun a b : Int => intCmp a b ≤ 0)
        (((MergeFunc intCmp [[(0, none), (3, none), (0, some 7)], noerr [2, 5]]).filter
            (fun p => p.2 = none)).map Prod.fst) := by
  decide
